import Mathlib

/-!
# nsqadmin graph options: a verification development

A shallow embedding of `nsqadmin/graph_options.go` together with the properties
of it that its specification states.

Conventions of the embedding.

* A Go `string` or `[]byte` that holds valid UTF-8 is a Lean `String`; byte-wise
  operations of Go are stated on characters where the two agree, and on the
  UTF-8 bytes of a character otherwise. `fmt.Sprintf` with `%s` verbs is `++`.
* A Go `time.Duration` (int64 nanoseconds) is an `Int`.
* A Go `float64` that is finite is an `F64` (sign, mantissa, binary exponent) and
  every arithmetic operation rounds the exact result to the nearest
  representable value, ties to even, as IEEE 754 binary64 does.
* A pointer to a struct that is never mutated after construction is the struct.
* A Go function returning `(T, error)` returns `Except E T`; a path that ends in
  a panic or in `log.Fatalf` returns `none` of an `Option`.
* Library code the file calls (`time`, `net/url`, `encoding/json`, `fmt`,
  `strings`, `go-simplejson`) is modelled next to the function that calls it,
  after the Go standard library as it is published today and after the
  go-simplejson that decodes numbers into `float64`.
* Recursion that Go writes as a loop over the remaining input takes a `fuel`
  argument, started at the length of the input.
-/

deriving instance DecidableEq for Except

namespace Nsqadmin

/-! ## float64 -/

/-- A finite IEEE 754 binary64 value `(-1)^neg * mant * 2^exp`. Values produced by
`F64.round` are in canonical form: `2^52 ≤ mant < 2^53` and `-1074 ≤ exp`, or
`mant < 2^52` and `exp = -1074` (subnormals and zero). -/
structure F64 where
  neg : Bool
  mant : Nat
  exp : Int
  deriving DecidableEq, Repr

/-- Number of binary digits of `n`, by recursion on `fuel` (any `fuel ≥ n` suffices). -/
def bitLen : Nat → Nat → Nat
  | 0, _ => 0
  | fuel + 1, n => if n = 0 then 0 else bitLen fuel (n / 2) + 1

/-- The integer `⌊log₂ (p / q)⌋` for positive `p` and `q`. -/
def ilog2 (p q : Nat) : Int :=
  let l : Int := (bitLen p p : Int) - (bitLen q q : Int)
  if 0 ≤ l then
    if q * 2 ^ l.toNat ≤ p then l else l - 1
  else
    if q ≤ p * 2 ^ (-l).toNat then l else l - 1

/-- Round half to even of the quotient `num / den` to a natural number. -/
def roundHalfEven (num den : Nat) : Nat :=
  let m := num / den
  let r := num % den
  if den < 2 * r ∨ (2 * r = den ∧ m % 2 = 1) then m + 1 else m

/-- The binary64 value nearest to `(-1)^neg * p / q` (`q > 0`), ties to even, with
gradual underflow. The exponent is not bounded above here: `F64.overflows` tells
whether the result exceeds the largest finite binary64 value. -/
def F64.round (neg : Bool) (p q : Nat) : F64 :=
  if p = 0 then ⟨neg, 0, -1074⟩
  else
    let e : Int := max (ilog2 p q - 52) (-1074)
    let m :=
      if 0 ≤ e then roundHalfEven p (q * 2 ^ e.toNat)
      else roundHalfEven (p * 2 ^ (-e).toNat) q
    if m = 2 ^ 53 then ⟨neg, 2 ^ 52, e + 1⟩ else ⟨neg, m, e⟩

/-- Whether a rounded value is beyond the binary64 range (it would be an infinity). -/
def F64.overflows (x : F64) : Bool := decide (971 < x.exp)

/-- Numerator of the exact magnitude of `x`. -/
def F64.num (x : F64) : Nat := if 0 ≤ x.exp then x.mant * 2 ^ x.exp.toNat else x.mant

/-- Denominator of the exact magnitude of `x`. -/
def F64.den (x : F64) : Nat := if 0 ≤ x.exp then 1 else 2 ^ (-x.exp).toNat

/-- The conversion `float64(i)` of an integer. -/
def F64.ofInt (i : Int) : F64 := F64.round (decide (i < 0)) i.natAbs 1

/-- The quotient `x / y` of two finite values, `y` non-zero. -/
def F64.div (x y : F64) : F64 :=
  F64.round (x.neg != y.neg) (x.num * y.den) (x.den * y.num)

/-- The product `x * y`. -/
def F64.mul (x y : F64) : F64 :=
  F64.round (x.neg != y.neg) (x.num * y.num) (x.den * y.den)

/-- The signed numerator of `x` over `x.den`. -/
def F64.snum (x : F64) : Int := if x.neg then -(x.num : Int) else (x.num : Int)

/-- The sum `x + y`; an exact zero sum is `+0` unless both operands are negative. -/
def F64.add (x y : F64) : F64 :=
  let n : Int := x.snum * (y.den : Int) + y.snum * (x.den : Int)
  if n = 0 then ⟨x.neg && y.neg, 0, -1074⟩
  else F64.round (decide (n < 0)) n.natAbs (x.den * y.den)

/-- The conversion `int(x)`: truncation toward zero. -/
def F64.toInt (x : F64) : Int :=
  if x.neg then -((x.num / x.den : Nat) : Int) else ((x.num / x.den : Nat) : Int)

/-! ## fmt: the `%d` verb -/

/-- The decimal digit `d` (below ten) as a character. -/
def digitChar (d : Nat) : Char := Char.ofNat (48 + d)

/-- Decimal digits of `n`, most significant first, in front of `acc`; `fuel > n` suffices. -/
def decimalAux : Nat → Nat → List Char → List Char
  | 0, _, acc => acc
  | fuel + 1, n, acc =>
    if n < 10 then digitChar n :: acc
    else decimalAux fuel (n / 10) (digitChar (n % 10) :: acc)

/-- The decimal numeral of a natural number. -/
def decimal (n : Nat) : List Char := decimalAux (n + 1) n []

/-- The text `fmt` prints for an integer under `%d`. -/
def formatInt (i : Int) : String :=
  if i < 0 then String.mk ('-' :: decimal i.natAbs) else String.mk (decimal i.natAbs)

/-! ## time.Duration and time.ParseDuration -/

/-- A Go `time.Duration`: a signed count of nanoseconds. -/
abbrev Duration := Int

def Nanosecond : Nat := 1
def Microsecond : Nat := 1000 * Nanosecond
def Millisecond : Nat := 1000 * Microsecond
def Second : Nat := 1000 * Millisecond
def Minute : Nat := 60 * Second
def Hour : Nat := 60 * Minute

/-- The errors of `time.ParseDuration`, by message. -/
inductive DurationError where
  /-- The message `time: invalid duration` followed by the input. -/
  | invalid
  /-- The message `time: missing unit in duration` followed by the input. -/
  | missingUnit
  /-- The message `time: unknown unit` followed by the unit and the input. -/
  | unknownUnit (u : String)
  deriving DecidableEq, Repr

/-- Whether a character is an ASCII decimal digit. -/
def isDigit (c : Char) : Bool := decide (48 ≤ c.toNat) && decide (c.toNat ≤ 57)

/-- The function `leadingInt` of package `time`: the leading run of digits as a
uint64, and the rest; `none` when the value passes `1<<63`. -/
def leadingInt : List Char → Nat → Option (Nat × List Char)
  | [], x => some (x, [])
  | c :: cs, x =>
    if isDigit c then
      if 2 ^ 63 / 10 < x then none
      else
        let y := x * 10 + (c.toNat - 48)
        if 2 ^ 63 < y then none else leadingInt cs y
    else some (x, c :: cs)

/-- The function `leadingFraction` of package `time`: the leading run of digits as
a numerator `x` over `scale`, and the rest; digits past the uint64 range are
consumed and dropped. The scale is a float64, multiplied by ten for every digit
kept; a scale that `F64.overflows` stands for `+Inf`. -/
def leadingFraction : List Char → Nat → F64 → Bool → Nat × F64 × List Char
  | [], x, scale, _ => (x, scale, [])
  | c :: cs, x, scale, overflow =>
    if isDigit c then
      if overflow then leadingFraction cs x scale true
      else if (2 ^ 63 - 1) / 10 < x then leadingFraction cs x scale true
      else
        let y := x * 10 + (c.toNat - 48)
        if 2 ^ 63 < y then leadingFraction cs x scale true
        else leadingFraction cs y (F64.mul scale (F64.ofInt 10)) false
    else (x, scale, c :: cs)

/-- The quotient `float64(unit) / scale` of `time.ParseDuration`, which is zero for
a scale that has become `+Inf`. -/
def unitOverScale (unit : Nat) (scale : F64) : F64 :=
  if scale.overflows then F64.ofInt 0 else F64.div (F64.ofInt unit) scale

/-- The table `unitMap` of package `time`. -/
def unitMap (u : String) : Option Nat :=
  if u = "ns" then some Nanosecond
  else if u = "us" then some Microsecond
  else if u = "µs" then some Microsecond
  else if u = "μs" then some Microsecond
  else if u = "ms" then some Millisecond
  else if u = "s" then some Second
  else if u = "m" then some Minute
  else if u = "h" then some Hour
  else none

/-- The unit of one term: the characters up to the next `.` or digit, and the rest. -/
def unitSpan : List Char → List Char × List Char
  | [] => ([], [])
  | c :: cs =>
    if c = '.' || isDigit c then ([], c :: cs)
    else ((c :: (unitSpan cs).1), (unitSpan cs).2)

/-- The optional fraction `(\.[0-9]*)?` of one term of `time.ParseDuration`: its
numerator and scale, the rest, and whether any digit was consumed. -/
def fractionPart (s1 : List Char) : Nat × F64 × List Char × Bool :=
  match s1 with
  | '.' :: t =>
    let r := leadingFraction t 0 (F64.ofInt 1) false
    (r.1, r.2.1, r.2.2, t.length != r.2.2.length)
  | _ => (0, F64.ofInt 1, s1, false)

/-- One pass of the loop `for s != ""` of `time.ParseDuration` on the input
`c :: cs`: one term, a number with its unit, is consumed and added to the
magnitude `d`, a uint64; the result is the new magnitude and the rest. -/
def parseDurationTerm (c : Char) (cs : List Char) (d : Nat) :
    Except DurationError (Nat × List Char) :=
  if !(c = '.' || isDigit c) then .error .invalid
  else
    match leadingInt (c :: cs) 0 with
    | none => .error .invalid
    | some (v, s1) =>
      let pre := (c :: cs).length != s1.length
      let frac := fractionPart s1
      let f := frac.1
      let scale := frac.2.1
      let s2 := frac.2.2.1
      let post := frac.2.2.2
      if !pre && !post then .error .invalid
      else
        let u := (unitSpan s2).1
        let s3 := (unitSpan s2).2
        if u = [] then .error .missingUnit
        else
          match unitMap (String.mk u) with
          | none => .error (.unknownUnit (String.mk u))
          | some unit =>
            if 2 ^ 63 / unit < v then .error .invalid
            else
              let v1 := v * unit
              let v2 :=
                if 0 < f then
                  (v1 + (F64.mul (F64.ofInt f) (unitOverScale unit scale)).toInt.toNat) % 2 ^ 64
                else v1
              if 0 < f ∧ 2 ^ 63 < v2 then .error .invalid
              else
                let d1 := (d + v2) % 2 ^ 64
                if 2 ^ 63 < d1 then .error .invalid
                else .ok (d1, s3)

/-- The loop `for s != ""` of `time.ParseDuration`, accumulating the magnitude `d`.
Every pass consumes at least one character, so `fuel` equal to the length of the
input is never exhausted (`parseDurationLoop_fuel`). -/
def parseDurationLoop : Nat → List Char → Nat → Except DurationError Nat
  | _, [], d => .ok d
  | 0, _ :: _, _ => .error .invalid
  | fuel + 1, c :: cs, d =>
    match parseDurationTerm c cs d with
    | .error e => .error e
    | .ok (d1, s3) => parseDurationLoop fuel s3 d1

/-- Go's `time.ParseDuration` (as in the current standard library):
`[-+]?([0-9]*(\.[0-9]*)?[a-z]+)+`, or `0` alone after the sign. -/
def ParseDuration (t : String) : Except DurationError Duration :=
  let neg := match t.data with
    | c :: _ => decide (c = '-')
    | [] => false
  let s := match t.data with
    | c :: cs => if c = '-' ∨ c = '+' then cs else c :: cs
    | [] => []
  if s = ['0'] then .ok 0
  else if s = [] then .error .invalid
  else
    match parseDurationLoop s.length s 0 with
    | .error e => .error e
    | .ok d =>
      if neg then .ok (-(d : Int))
      else if 2 ^ 63 - 1 < d then .error .invalid
      else .ok (d : Int)

/-- Go's `Duration.Minutes`: `float64(d / Minute) + float64(d % Minute) / (60 * 1e9)`,
with Go's truncating integer division. -/
def Duration.Minutes (d : Duration) : F64 :=
  let min := Int.tdiv d (Minute : Int)
  let nsec := Int.tmod d (Minute : Int)
  F64.add (F64.ofInt min) (F64.div (F64.ofInt nsec) (F64.ofInt (60 * 1000000000)))

/-! ## graph_options.go: intervals -/

/-- The struct `GraphInterval`. -/
structure GraphInterval where
  Selected : Bool
  Timeframe : String
  GraphFrom : String
  GraphUntil : String
  Duration : Duration
  deriving DecidableEq, Repr

/-- The function `startEndForTimeframe`. -/
def startEndForTimeframe (t : Duration) : String × String :=
  let start := "-" ++ formatInt (Duration.Minutes t).toInt ++ "min"
  (start, "-1min")

/-- The function `GraphIntervalForTimeframe`. -/
def GraphIntervalForTimeframe (t : String) (selected : Bool) :
    Except DurationError GraphInterval :=
  if t = "off" then
    .ok { Selected := selected, Timeframe := t, GraphFrom := "", GraphUntil := "", Duration := 0 }
  else
    match ParseDuration t with
    | .error err => .error err
    | .ok duration =>
      let se := startEndForTimeframe duration
      .ok { Selected := selected, Timeframe := t, GraphFrom := se.1, GraphUntil := se.2,
            Duration := duration }

/-! ## net/url: query escaping and `url.Values` -/

/-- The UTF-8 encoding of a character, as byte values. -/
def utf8Bytes (c : Char) : List Nat :=
  let n := c.toNat
  if n < 128 then [n]
  else if n < 2048 then [192 + n / 64, 128 + n % 64]
  else if n < 65536 then [224 + n / 4096, 128 + n / 64 % 64, 128 + n % 64]
  else [240 + n / 262144, 128 + n / 4096 % 64, 128 + n / 64 % 64, 128 + n % 64]

/-- The function `shouldEscape` of `net/url` in mode `encodeQueryComponent`: only
ASCII letters, digits and `-`, `_`, `.`, `~` stay as they are. -/
def shouldEscape (b : Nat) : Bool :=
  if (97 ≤ b ∧ b ≤ 122) ∨ (65 ≤ b ∧ b ≤ 90) ∨ (48 ≤ b ∧ b ≤ 57) then false
  else if b = 45 ∨ b = 95 ∨ b = 46 ∨ b = 126 then false
  else true

/-- The upper-case hexadecimal digit of a value below sixteen. -/
def upperhex (d : Nat) : Char := if d < 10 then Char.ofNat (48 + d) else Char.ofNat (55 + d)

/-- What `url.QueryEscape` writes for one byte. -/
def escapeByte (b : Nat) : List Char :=
  if shouldEscape b then
    if b = 32 then ['+'] else ['%', upperhex (b / 16), upperhex (b % 16)]
  else [Char.ofNat b]

/-- What `url.QueryEscape` writes for the bytes of one character. -/
def escapeChar (c : Char) : List Char := (utf8Bytes c).flatMap escapeByte

/-- Go's `url.QueryEscape`. -/
def QueryEscape (s : String) : String := String.mk (s.data.flatMap escapeChar)

/-- Byte-wise lexicographic order of Go strings, `a <= b` (on UTF-8, the order of
the code points). -/
def leChars : List Char → List Char → Bool
  | [], _ => true
  | _ :: _, [] => false
  | a :: as, b :: bs =>
    if a.toNat < b.toNat then true
    else if b.toNat < a.toNat then false
    else leChars as bs

/-- Insertion of a key into an ascending list of keys. -/
def insertKey (k : String) : List String → List String
  | [] => [k]
  | x :: xs => if leChars k.data x.data then k :: x :: xs else x :: insertKey k xs

/-- The call `sort.Strings(keys)`. -/
def sortStrings : List String → List String
  | [] => []
  | k :: ks => insertKey k (sortStrings ks)

/-- Go's `url.Values`, a `map[string][]string`, as an association list without
repeated keys. -/
abbrev Values := List (String × List String)

/-- The index expression `v[key]` with its presence flag. -/
def Values.lookup (v : Values) (key : String) : Option (List String) :=
  match v with
  | [] => none
  | (k, vs) :: rest => if k = key then some vs else Values.lookup rest key

/-- Go's `Values.Set`: the key now holds the single value. -/
def Values.Set (v : Values) (key value : String) : Values :=
  match v with
  | [] => [(key, [value])]
  | (k, vs) :: rest =>
    if k = key then (k, [value]) :: rest else (k, vs) :: Values.Set rest key value

/-- The keys of the map. -/
def Values.keys (v : Values) : List String := v.map Prod.fst

/-- The inner loop of `Values.Encode` over the values of one key. -/
def encodeValues (keyEscaped : String) : List String → String → String
  | [], buf => buf
  | v :: vs, buf =>
    let buf1 := if 0 < buf.length then buf ++ "&" else buf
    encodeValues keyEscaped vs (buf1 ++ keyEscaped ++ "=" ++ QueryEscape v)

/-- The outer loop of `Values.Encode` over the sorted keys. -/
def encodeKeys (v : Values) : List String → String → String
  | [], buf => buf
  | k :: ks, buf =>
    encodeKeys v ks (encodeValues (QueryEscape k) ((Values.lookup v k).getD []) buf)

/-- Go's `Values.Encode`: the "URL encoded" form `bar=baz&foo=quux`, sorted by key. -/
def Values.Encode (v : Values) : String :=
  encodeKeys v (sortStrings (Values.keys v)) ""

/-! ## strings.Replace -/

/-- The call `strings.Replace(s, old, new, -1)` for a non-empty `old`: every
non-overlapping occurrence of `old`, scanning from the left, becomes `new`. The
counter is the number of characters of a matched occurrence still to skip. -/
def replaceAllChars (old new : List Char) : Nat → List Char → List Char
  | _, [] => []
  | skip + 1, _ :: cs => replaceAllChars old new skip cs
  | 0, c :: cs =>
    if old.isPrefixOf (c :: cs) then new ++ replaceAllChars old new (old.length - 1) cs
    else c :: replaceAllChars old new 0 cs

/-- The call `strings.Replace(s, old, new, -1)`, `old` non-empty. -/
def stringsReplaceAll (s old new : String) : String :=
  String.mk (replaceAllChars old.data new.data 0 s.data)

/-! ## graph_options.go: options -/

/-- The struct `GraphOptions`. -/
structure GraphOptions where
  Configured : Bool
  Enabled : Bool
  GraphiteUrl : String
  UseStatsdPrefix : Bool
  TimeframeString : String
  AllGraphIntervals : List GraphInterval
  GraphInterval : GraphInterval
  deriving DecidableEq, Repr

/-- The process-wide flags `*graphiteUrl`, `*proxyGraphite` and `*useStatsdPrefixes`
that `NewGraphOptions` reads. -/
structure Config where
  graphiteUrl : String
  proxyGraphite : Bool
  useStatsdPrefixes : Bool
  deriving DecidableEq, Repr

/-- The fields of `http.Cookie` that `NewGraphOptions` sets; `Expires` is in
nanoseconds since the Unix epoch. -/
structure Cookie where
  Name : String
  Value : String
  Path : String
  Domain : String
  Expires : Int
  HttpOnly : Bool
  deriving DecidableEq, Repr

/-- The table `isTokenTable` of `net/http`: the bytes a cookie name may hold. -/
def isTokenByte (b : Nat) : Bool :=
  decide ((97 ≤ b ∧ b ≤ 122) ∨ (65 ≤ b ∧ b ≤ 90) ∨ (48 ≤ b ∧ b ≤ 57)) ||
  decide (b = 33 ∨ b = 35 ∨ b = 36 ∨ b = 37 ∨ b = 38 ∨ b = 39 ∨ b = 42 ∨ b = 43 ∨ b = 45 ∨
    b = 46 ∨ b = 94 ∨ b = 95 ∨ b = 96 ∨ b = 124 ∨ b = 126)

/-- The function `isCookieNameValid` of `net/http`: a non-empty token. -/
def isCookieNameValid (raw : String) : Bool :=
  decide (raw ≠ "") && raw.data.all (fun c => isTokenByte c.toNat)

/-- The function `validCookieValueByte` of `net/http`. -/
def validCookieValueByte (b : Nat) : Bool :=
  decide (32 ≤ b ∧ b < 127 ∧ b ≠ 34 ∧ b ≠ 59 ∧ b ≠ 92)

/-- The function `validCookiePathByte` of `net/http`. -/
def validCookiePathByte (b : Nat) : Bool :=
  decide (32 ≤ b ∧ b < 127 ∧ b ≠ 59)

/-- The function `sanitizeOrWarn` of `net/http`: the bytes that are not valid are
dropped. A valid byte is below 128, so on valid UTF-8 a character stays or goes as
a whole. -/
def sanitizeOrWarn (valid : Nat → Bool) (v : String) : String :=
  String.mk (v.data.filter (fun c => valid c.toNat))

/-- The function `sanitizeCookieValue` of `net/http`: the valid bytes of the value,
in double quotes when they hold a space or a comma or the cookie is `Quoted`. -/
def sanitizeCookieValue (v : String) (quoted : Bool) : String :=
  let v1 := sanitizeOrWarn validCookieValueByte v
  if v1.data.length = 0 then v1
  else if v1.data.any (fun c => c = ' ' || c = ',') || quoted then "\"" ++ v1 ++ "\""
  else v1

/-- The function `sanitizeCookiePath` of `net/http`. -/
def sanitizeCookiePath (v : String) : String := sanitizeOrWarn validCookiePathByte v

/-- The loop of `isCookieDomainName`: `last` is the previous byte, `ok` whether a
letter was seen, `partlen` the length of the current label. -/
def cookieDomainLoop : List Char → Nat → Bool → Nat → Bool
  | [], last, ok, partlen => !(decide (last = 45) || decide (63 < partlen)) && ok
  | c :: cs, last, ok, partlen =>
    let b := c.toNat
    if (97 ≤ b ∧ b ≤ 122) ∨ (65 ≤ b ∧ b ≤ 90) then cookieDomainLoop cs b true (partlen + 1)
    else if 48 ≤ b ∧ b ≤ 57 then cookieDomainLoop cs b ok (partlen + 1)
    else if b = 45 then
      if last = 46 then false else cookieDomainLoop cs b ok (partlen + 1)
    else if b = 46 then
      if last = 46 ∨ last = 45 then false
      else if 63 < partlen ∨ partlen = 0 then false
      else cookieDomainLoop cs b ok 0
    else false

/-- The function `isCookieDomainName` of `net/http`: a domain name, with or without
a leading dot. -/
def isCookieDomainName (s : String) : Bool :=
  if s.data.length = 0 then false
  else if 255 < (s.data.flatMap utf8Bytes).length then false
  else
    match s.data with
    | '.' :: rest => cookieDomainLoop rest 46 false 0
    | cs => cookieDomainLoop cs 46 false 0

/-- The loop of `parseIPv4Fields` of `net/netip`: `val` and `digLen` are the value
and the number of digits of the current field, `pos` the number of fields done. -/
def ipv4Loop : List Char → Nat → Nat → Nat → Bool → Bool → Bool
  | [], _, pos, _, _, _ => decide (pos = 3)
  | c :: cs, val, pos, digLen, first, prevDot =>
    if isDigit c then
      if digLen = 1 ∧ val = 0 then false
      else if 255 < val * 10 + (c.toNat - 48) then false
      else ipv4Loop cs (val * 10 + (c.toNat - 48)) pos (digLen + 1) false false
    else if c = '.' then
      if first ∨ cs = [] ∨ prevDot then false
      else if pos = 3 then false
      else ipv4Loop cs 0 (pos + 1) 0 false true
    else false

/-- The function `validCookieDomain` of `net/http`: a cookie domain name, or an IP
address without a colon, which is a dotted IPv4 address. -/
def validCookieDomain (v : String) : Bool :=
  isCookieDomainName v || ipv4Loop v.data 0 0 0 true false

/-- The function `validCookieExpires` of `net/http`, the year is 1601 or later, for
an instant in nanoseconds since the Unix epoch. -/
def validCookieExpires (t : Int) : Bool := decide (-11644473600 * 1000000000 ≤ t)

/-- The `Set-Cookie` header line that `http.SetCookie` adds, attribute by
attribute as `Cookie.String` writes them: the cookie name and value, then `Path`,
`Domain`, `Expires` (as the instant, its text in `time.RFC1123` is not modelled)
and `HttpOnly`, each when it is written. -/
structure SetCookieLine where
  Name : String
  Value : String
  Path : Option String
  Domain : Option String
  Expires : Option Int
  HttpOnly : Bool
  deriving DecidableEq, Repr

/-- Go's `http.SetCookie`: the header line added to the response, `none` when the
cookie name is not valid and nothing is added. The value and the path are
sanitized, and a domain that is not valid is dropped. -/
def SetCookie (c : Cookie) : Option SetCookieLine :=
  if !isCookieNameValid c.Name then none
  else
    some {
      Name := c.Name
      Value := sanitizeCookieValue c.Value false
      Path := if 0 < c.Path.data.length then some (sanitizeCookiePath c.Path) else none
      Domain :=
        if 0 < c.Domain.data.length then
          if validCookieDomain c.Domain then
            some (match c.Domain.data with
              | '.' :: rest => String.mk rest
              | _ => c.Domain)
          else none
        else none
      Expires := if validCookieExpires c.Expires then some c.Expires else none
      HttpOnly := c.HttpOnly }

/-- What `NewGraphOptions` reads of the `http.Request`: its host and the cookies it
carries, as name and value, in header order. -/
structure Request where
  Host : String
  Cookies : List (String × String)
  deriving DecidableEq, Repr

/-- Go's `Request.Cookie`: the value of the first cookie of that name, `none` for
`ErrNoCookie`. -/
def Request.Cookie (req : Request) (name : String) : Option String :=
  match req.Cookies.find? (fun c => c.1 = name) with
  | some c => some c.2
  | none => none

/-- The query parameters of the request, as `util.ReqParams` wraps them. -/
structure ReqParams where
  Values : Values
  deriving DecidableEq, Repr

/-- Modelled from the spec: `util.ReqParams.Get` is not among the sources. The spec
speaks of an "optional timeframe string explicitly supplied with the request": when
the parameter is supplied `Get` returns its first value and no error, otherwise the
empty string and an error (`true` in the second component). -/
def ReqParams.Get (r : ReqParams) (key : String) : String × Bool :=
  match Values.lookup r.Values key with
  | some (v :: _) => (v, false)
  | _ => ("", true)

/-- The loop of `DefaultGraphTimeframes`; `none` is the `log.Fatalf` exit. -/
def defaultGraphTimeframesLoop (selected : String) :
    List String → List GraphInterval → Option (List GraphInterval)
  | [], d => some d
  | t :: ts, d =>
    match GraphIntervalForTimeframe t (decide (t = selected)) with
    | .error _ => none
    | .ok g => defaultGraphTimeframesLoop selected ts (d ++ [g])

/-- The function `DefaultGraphTimeframes`; `none` is the `log.Fatalf` exit. -/
def DefaultGraphTimeframes (selected : String) : Option (List GraphInterval) :=
  defaultGraphTimeframesLoop selected ["1h", "2h", "12h", "24h", "48h", "168h", "off"] []

/-- The timeframe `NewGraphOptions` chooses and the `Set-Cookie` line that its call
of `http.SetCookie` adds to the response, if any: lines 38 to 58 of the source.
`now` is `time.Now()` in nanoseconds since the Unix epoch. -/
def selectTimeframe (now : Int) (req : Request) (r : ReqParams) :
    String × Option SetCookieLine :=
  let got := r.Get "t"
  if got.2 && got.1 = "" then
    match req.Cookie "t" with
    | none => ("2h", none)
    | some value => (value, none)
  else
    (got.1, SetCookie { Name := "t", Value := got.1, Path := "/", Domain := req.Host,
                        Expires := now + 720 * (Hour : Int), HttpOnly := true })

/-- The interval `NewGraphOptions` resolves for the chosen timeframe: lines 59 to 62
of the source; `none` is the nil pointer left by a failed fallback. -/
def resolveInterval (selectedTimeString : String) : Option GraphInterval :=
  match GraphIntervalForTimeframe selectedTimeString true with
  | .ok g => some g
  | .error _ =>
    match GraphIntervalForTimeframe "2h" true with
    | .ok g => some g
    | .error _ => none

/-- The function `NewGraphOptions`: the options it returns and the `Set-Cookie` line
it adds to the response, if any. `none` is abnormal termination (a nil dereference
at `g.Timeframe`, or `log.Fatalf` in `DefaultGraphTimeframes`). -/
def NewGraphOptions (cfg : Config) (now : Int) (req : Request) (r : ReqParams) :
    Option (GraphOptions × Option SetCookieLine) :=
  let sel := selectTimeframe now req r
  let selectedTimeString := sel.1
  match resolveInterval selectedTimeString with
  | none => none
  | some g =>
    let base := cfg.graphiteUrl
    let configured := base != ""
    let enabled := configured
    let base := if cfg.proxyGraphite then "" else base
    let enabled := if g.Timeframe = "off" then false else enabled
    match DefaultGraphTimeframes selectedTimeString with
    | none => none
    | some all =>
      some ({ Configured := configured, Enabled := enabled,
              UseStatsdPrefix := cfg.useStatsdPrefixes, GraphiteUrl := base,
              TimeframeString := "", AllGraphIntervals := all, GraphInterval := g }, sel.2)

/-- The method `GraphOptions.Prefix`. -/
def GraphOptions.Prefix (g : GraphOptions) (metricType : String) : String :=
  if g.UseStatsdPrefix && metricType = "counter" then "stats_counts."
  else if g.UseStatsdPrefix && metricType = "gauge" then "stats.gauges."
  else ""

/-- The function `metricType`. -/
def metricType (key : String) : String :=
  if key = "backend_depth" ∨ key = "depth" ∨ key = "clients" ∨ key = "in_flight_count" then
    "gauge"
  else "counter"

/-- The function `graphiteHostKey`. -/
def graphiteHostKey (h : String) : String :=
  let s := stringsReplaceAll h "." "_"
  stringsReplaceAll s ":" "_"

/-- The field of the struct `Topic` that this file reads. -/
structure Topic where
  TopicName : String
  deriving DecidableEq, Repr

/-- The fields of the struct `TopicHostStats` that this file reads. -/
structure TopicHostStats where
  HostAddress : String
  Topic : String
  Aggregate : Bool
  deriving DecidableEq, Repr

/-- The fields of the struct `ChannelStats` that this file reads; `HostStats` is a
slice of pointers to `ChannelStats`. -/
inductive ChannelStats where
  | mk (HostAddress : String) (Topic : String) (ChannelName : String)
      (HostStats : List ChannelStats)

/-- The field `HostAddress`. -/
def ChannelStats.HostAddress : ChannelStats → String
  | .mk h _ _ _ => h

/-- The field `Topic`. -/
def ChannelStats.Topic : ChannelStats → String
  | .mk _ t _ _ => t

/-- The field `ChannelName`. -/
def ChannelStats.ChannelName : ChannelStats → String
  | .mk _ _ c _ => c

/-- The field `HostStats`. -/
def ChannelStats.HostStats : ChannelStats → List ChannelStats
  | .mk _ _ _ hs => hs

/-- The method `Topic.Target`: the target and its color. -/
def Topic.Target (t : Topic) (g : GraphOptions) (key : String) : String × String :=
  let color := if key = "depth" ∨ key = "deferred_count" then "red" else "blue"
  let target := g.Prefix (metricType key) ++ "nsq.*.topic." ++ t.TopicName ++ "." ++ key
  (target, color)

/-- The method `TopicHostStats.Target`: the target and its color. -/
def TopicHostStats.Target (t : TopicHostStats) (g : GraphOptions) (key : String) :
    String × String :=
  let h := graphiteHostKey t.HostAddress
  let h := if t.Aggregate then "*" else h
  let color := if key = "depth" ∨ key = "deferred_count" then "red" else "blue"
  let target := g.Prefix (metricType key) ++ "nsq." ++ h ++ ".topic." ++ t.Topic ++ "." ++ key
  (target, color)

/-- The method `ChannelStats.Target`: the target and its color. -/
def ChannelStats.Target (c : ChannelStats) (g : GraphOptions) (key : String) :
    String × String :=
  let h := if c.HostStats.length = 0 then graphiteHostKey c.HostAddress else "*"
  let color := if key = "depth" ∨ key = "deferred_count" then "red" else "blue"
  let target := g.Prefix (metricType key) ++ "nsq." ++ h ++ ".topic." ++ c.Topic ++
    ".channel." ++ c.ChannelName ++ "." ++ key
  (target, color)

/-! ## graph_options.go: render URLs -/

/-- The parameters `GraphOptions.Sparkline` sets, in the order of the source. -/
def sparklineParams (g : GraphOptions) (target color : String) : Values :=
  let params : Values := []
  let params := params.Set "height" "20"
  let params := params.Set "width" "120"
  let params := params.Set "hideGrid" "true"
  let params := params.Set "hideLegend" "true"
  let params := params.Set "hideAxes" "true"
  let params := params.Set "bgcolor" "ff000000"
  let params := params.Set "fgcolor" "black"
  let params := params.Set "margin" "0"
  let params := params.Set "colorList" color
  let params := params.Set "yMin" "0"
  let params := params.Set "target" ("sumSeries(" ++ target ++ ")")
  let params := params.Set "from" g.GraphInterval.GraphFrom
  params.Set "until" g.GraphInterval.GraphUntil

/-- The method `GraphOptions.Sparkline`. -/
def GraphOptions.Sparkline (g : GraphOptions) (target color : String) : String :=
  g.GraphiteUrl ++ "/render?" ++ (sparklineParams g target color).Encode

/-- The parameters `GraphOptions.LargeGraph` sets, in the order of the source. -/
def largeGraphParams (g : GraphOptions) (key target color : String) : Values :=
  let params : Values := []
  let params := params.Set "height" "450"
  let params := params.Set "width" "800"
  let params := params.Set "bgcolor" "ff000000"
  let params := params.Set "fgcolor" "999999"
  let params := params.Set "colorList" color
  let params := params.Set "yMin" "0"
  let target := "summarize(sumSeries(" ++ target ++ "),\"1min\",\"avg\")"
  let target := if metricType key ≠ "gauge" then "scaleToSeconds(" ++ target ++ ",1)" else target
  let params := params.Set "target" target
  let params := params.Set "from" g.GraphInterval.GraphFrom
  params.Set "until" g.GraphInterval.GraphUntil

/-- The method `GraphOptions.LargeGraph`. -/
def GraphOptions.LargeGraph (g : GraphOptions) (key target color : String) : String :=
  g.GraphiteUrl ++ "/render?" ++ (largeGraphParams g key target color).Encode

/-- The parameters `rateQuery` sets, in the order of the source. -/
def rateQueryParams (target : String) : Values :=
  let params : Values := []
  let params := params.Set "from" "-2min"
  let params := params.Set "until" "-1min"
  let params := params.Set "format" "json"
  params.Set "target" ("sumSeries(" ++ target ++ ")")

/-- The function `rateQuery`. -/
def rateQuery (target : String) : String :=
  "/render?" ++ (rateQueryParams target).Encode

/-! ## encoding/json and go-simplejson -/

/-- A decoded JSON document, as `Decoder.Decode` with `UseNumber` stores it in an
`interface{}`: `nil`, `bool`, `json.Number` (the text of the number literal),
`string`, `[]interface{}` and `map[string]interface{}` (an association list
without repeated keys). -/
inductive Json where
  | null
  | bool (b : Bool)
  | num (lit : String)
  | str (s : String)
  | arr (xs : List Json)
  | obj (kvs : List (String × Json))

/-- The constant `maxNestingDepth` of `encoding/json`: the scanner refuses an
array or object nested deeper than this. -/
def maxNestingDepth : Nat := 10000

/-- The assignment `m[key] = value` on a decoded object. -/
def Json.insert (kvs : List (String × Json)) (key : String) (value : Json) :
    List (String × Json) :=
  match kvs with
  | [] => [(key, value)]
  | (k, v) :: rest =>
    if k = key then (k, value) :: rest else (k, v) :: Json.insert rest key value

/-- The index expression `m[key]` with its presence flag. -/
def Json.lookup (kvs : List (String × Json)) (key : String) : Option Json :=
  match kvs with
  | [] => none
  | (k, v) :: rest => if k = key then some v else Json.lookup rest key

/-- JSON white space: space, tab, line feed, carriage return. -/
def isSpace (c : Char) : Bool := c = ' ' || c = '\t' || c = '\n' || c = '\r'

/-- The input after its leading white space. -/
def skipSpace : List Char → List Char
  | [] => []
  | c :: cs => if isSpace c then skipSpace cs else c :: cs

/-- The value of a hexadecimal digit. -/
def hexVal (c : Char) : Option Nat :=
  let n := c.toNat
  if 48 ≤ n ∧ n ≤ 57 then some (n - 48)
  else if 97 ≤ n ∧ n ≤ 102 then some (n - 87)
  else if 65 ≤ n ∧ n ≤ 70 then some (n - 55)
  else none

/-- The four hexadecimal digits after `\u`, and the rest. -/
def getu4 : List Char → Option (Nat × List Char)
  | a :: b :: c :: d :: rest =>
    match hexVal a, hexVal b, hexVal c, hexVal d with
    | some x, some y, some z, some w => some (x * 4096 + y * 256 + z * 16 + w, rest)
    | _, _, _, _ => none
  | _ => none

/-- The characters of a string literal after its opening quote, unquoted, and the
input after the closing quote; `none` when the scanner reports an error. An
unpaired surrogate escape becomes U+FFFD. -/
def parseStringBody : Nat → List Char → List Char → Option (List Char × List Char)
  | 0, _, _ => none
  | _ + 1, [], _ => none
  | fuel + 1, c :: cs, acc =>
    if c = '"' then some (acc.reverse, cs)
    else if c = '\\' then
      match cs with
      | [] => none
      | e :: rest =>
        if e = '"' then parseStringBody fuel rest ('"' :: acc)
        else if e = '\\' then parseStringBody fuel rest ('\\' :: acc)
        else if e = '/' then parseStringBody fuel rest ('/' :: acc)
        else if e = 'b' then parseStringBody fuel rest (Char.ofNat 8 :: acc)
        else if e = 'f' then parseStringBody fuel rest (Char.ofNat 12 :: acc)
        else if e = 'n' then parseStringBody fuel rest ('\n' :: acc)
        else if e = 'r' then parseStringBody fuel rest ('\r' :: acc)
        else if e = 't' then parseStringBody fuel rest ('\t' :: acc)
        else if e = 'u' then
          match getu4 rest with
          | none => none
          | some (r1, rest1) =>
            if 55296 ≤ r1 ∧ r1 < 57344 then
              match rest1 with
              | '\\' :: 'u' :: rest2 =>
                match getu4 rest2 with
                | some (r2, rest3) =>
                  if r1 < 56320 ∧ 56320 ≤ r2 ∧ r2 < 57344 then
                    parseStringBody fuel rest3
                      (Char.ofNat ((r1 - 55296) * 1024 + (r2 - 56320) + 65536) :: acc)
                  else parseStringBody fuel rest1 (Char.ofNat 65533 :: acc)
                | none => parseStringBody fuel rest1 (Char.ofNat 65533 :: acc)
              | _ => parseStringBody fuel rest1 (Char.ofNat 65533 :: acc)
            else parseStringBody fuel rest1 (Char.ofNat r1 :: acc)
        else none
    else if c.toNat < 32 then none
    else parseStringBody fuel cs (c :: acc)

/-- The leading decimal digits of the input, and the rest. -/
def spanDigits : List Char → List Char × List Char
  | [] => ([], [])
  | c :: cs =>
    if isDigit c then ((c :: (spanDigits cs).1), (spanDigits cs).2) else ([], c :: cs)

/-- The scanner states `state0` and `state1`: the integer part of a number, a
single `0` or a digit from `1` to `9` and the digits after it. -/
def scanInt (s : List Char) : Option (List Char × List Char) :=
  match s with
  | [] => none
  | c :: cs =>
    if c = '0' then some (['0'], cs)
    else if isDigit c then some (c :: (spanDigits cs).1, (spanDigits cs).2)
    else none

/-- The scanner states `stateDot` and `stateDot0`: after a point there is at
least one digit. -/
def scanFrac (s : List Char) : Option (List Char × List Char) :=
  match s with
  | [] => some ([], [])
  | c :: cs =>
    if c = '.' then
      if (spanDigits cs).1 = [] then none else some ('.' :: (spanDigits cs).1, (spanDigits cs).2)
    else some ([], c :: cs)

/-- The scanner states `stateESign` and `stateE0`: after the exponent mark and
its sign there is at least one digit. -/
def scanExpDigits (mark : List Char) (s : List Char) : Option (List Char × List Char) :=
  if (spanDigits s).1 = [] then none else some (mark ++ (spanDigits s).1, (spanDigits s).2)

/-- The scanner state `stateE`: an exponent mark `e` or `E`, an optional sign and
the digits. -/
def scanExp (s : List Char) : Option (List Char × List Char) :=
  match s with
  | [] => some ([], [])
  | c :: cs =>
    if c = 'e' ∨ c = 'E' then
      match cs with
      | [] => none
      | g :: t => if g = '+' ∨ g = '-' then scanExpDigits [c, g] t else scanExpDigits [c] (g :: t)
    else some ([], c :: cs)

/-- The scanner state `stateNeg`: an optional `-` in front of a number. -/
def scanSign (s : List Char) : List Char × List Char :=
  match s with
  | [] => ([], [])
  | c :: cs => if c = '-' then (['-'], cs) else ([], c :: cs)

/-- The number literal at the head of the input as the scanner delimits it, and
the rest; `none` when the scanner reports an error. The scanner goes on after a
point or an exponent mark, so `1.x` is an error and not the number `1`. -/
def scanNumber (s : List Char) : Option (List Char × List Char) :=
  match scanInt (scanSign s).2 with
  | none => none
  | some (i, s1) =>
    match scanFrac s1 with
    | none => none
    | some (f, s2) =>
      match scanExp s2 with
      | none => none
      | some (e, s3) => some ((scanSign s).1 ++ i ++ f ++ e, s3)

/-- The scanner states of a literal name after its first letter: the input goes
on with the other letters. -/
def scanLiteral : List Char → List Char → Option (List Char)
  | [], s => some s
  | _ :: _, [] => none
  | l :: ls, c :: cs => if c = l then scanLiteral ls cs else none

mutual
/-- One JSON value at the head of the input (after white space) at nesting depth
`depth`, and the rest of the input; `none` when the scanner reports an error. -/
def parseValue : Nat → Nat → List Char → Option (Json × List Char)
  | 0, _, _ => none
  | fuel + 1, depth, s =>
    match skipSpace s with
    | [] => none
    | c :: rest =>
      if c = '"' then
        match parseStringBody rest.length rest [] with
        | none => none
        | some (cs, rest1) => some (.str (String.mk cs), rest1)
      else if c = '[' then
        if maxNestingDepth < depth + 1 then none
        else
          match skipSpace rest with
          | [] => none
          | c1 :: rest1 =>
            if c1 = ']' then some (.arr [], rest1)
            else
              match parseElements fuel (depth + 1) (c1 :: rest1) [] with
              | none => none
              | some (xs, rest2) => some (.arr xs, rest2)
      else if c = '\x7b' then
        if maxNestingDepth < depth + 1 then none
        else
          match skipSpace rest with
          | [] => none
          | c1 :: rest1 =>
            if c1 = '\x7d' then some (.obj [], rest1)
            else
              match parseMembers fuel (depth + 1) (c1 :: rest1) [] with
              | none => none
              | some (kvs, rest2) => some (.obj kvs, rest2)
      else if c = 't' then
        match scanLiteral ['r', 'u', 'e'] rest with
        | none => none
        | some rest1 => some (.bool true, rest1)
      else if c = 'f' then
        match scanLiteral ['a', 'l', 's', 'e'] rest with
        | none => none
        | some rest1 => some (.bool false, rest1)
      else if c = 'n' then
        match scanLiteral ['u', 'l', 'l'] rest with
        | none => none
        | some rest1 => some (.null, rest1)
      else
        match scanNumber (c :: rest) with
        | none => none
        | some (lit, rest1) => some (.num (String.mk lit), rest1)
/-- The elements of an array after `[`, up to and including `]`. -/
def parseElements : Nat → Nat → List Char → List Json → Option (List Json × List Char)
  | 0, _, _, _ => none
  | fuel + 1, depth, s, acc =>
    match parseValue fuel depth s with
    | none => none
    | some (x, rest) =>
      match skipSpace rest with
      | [] => none
      | c :: rest1 =>
        if c = ',' then parseElements fuel depth rest1 (acc ++ [x])
        else if c = ']' then some (acc ++ [x], rest1)
        else none
/-- The members of an object after `{`, up to and including `}`. -/
def parseMembers : Nat → Nat → List Char → List (String × Json) →
    Option (List (String × Json) × List Char)
  | 0, _, _, _ => none
  | fuel + 1, depth, s, acc =>
    match skipSpace s with
    | [] => none
    | q :: rest =>
      if q = '"' then
        match parseStringBody rest.length rest [] with
        | none => none
        | some (k, rest1) =>
          match skipSpace rest1 with
          | [] => none
          | c :: rest2 =>
            if c = ':' then
              match parseValue fuel depth rest2 with
              | none => none
              | some (x, rest3) =>
                match skipSpace rest3 with
                | [] => none
                | d :: rest4 =>
                  if d = ',' then parseMembers fuel depth rest4 (Json.insert acc (String.mk k) x)
                  else if d = '\x7d' then some (Json.insert acc (String.mk k) x, rest4)
                  else none
            else none
      else none
end

/-- Go's `Decoder.Decode` into an empty interface, with `UseNumber`, on a decoder
over `body`: the first JSON value of the input. What follows that value is not
read; `none` stands for the error (a `*json.SyntaxError`, `io.EOF` on an empty
input, or `io.ErrUnexpectedEOF`). Every step of `parseValue` reads a character or
passes from an array or object to its first element or member, so the fuel of
twice the length and one never runs out. -/
def decoderDecode (body : String) : Option Json :=
  match parseValue (2 * body.data.length + 1) 0 body.data with
  | none => none
  | some (j, _) => some j

/-- The constructor `simplejson.NewJson`, which decodes the body through
`Json.UnmarshalJSON`. -/
def NewJson (body : String) : Option Json := decoderDecode body

/-- The method `Json.GetIndex` of go-simplejson: the element of an array, and a
`nil` document when there is none. -/
def Json.GetIndex (j : Json) (index : Nat) : Json :=
  match j with
  | .arr a => if h : index < a.length then a.get ⟨index, h⟩ else .null
  | _ => .null

/-- The method `Json.CheckGet` of go-simplejson: the member of an object, `none`
for its `false` flag. -/
def Json.CheckGet (j : Json) (key : String) : Option Json :=
  match j with
  | .obj m => Json.lookup m key
  | _ => none

/-! ## strconv.ParseFloat, and float64 with infinities -/

/-- A `float64` that is finite or an infinity. -/
inductive Float64 where
  | finite (x : F64)
  | inf (neg : Bool)
  deriving DecidableEq, Repr

/-- A run of decimal digits: its value continuing `x`, how many there were, and
the rest. -/
def digitRun : List Char → Nat → Nat → Nat × Nat × List Char
  | [], x, n => (x, n, [])
  | c :: cs, x, n =>
    if isDigit c then digitRun cs (x * 10 + (c.toNat - 48)) (n + 1) else (x, n, c :: cs)

/-- The digits of a decimal exponent as `readFloat` of `strconv` adds them up: the
value stops growing once it has reached 10000. -/
def expRun : List Char → Nat → Nat → Nat × Nat × List Char
  | [], e, n => (e, n, [])
  | c :: cs, e, n =>
    if isDigit c then expRun cs (if e < 10000 then e * 10 + (c.toNat - 48) else e) (n + 1)
    else (e, n, c :: cs)

/-- The `float64` nearest to the decimal `mant * 10^e10`, an infinity when that is
beyond the range, and whether it is (the error `strconv.ErrRange`). -/
def roundDecimal (neg : Bool) (mant : Nat) (e10 : Int) : Float64 × Bool :=
  let x := if 0 ≤ e10 then F64.round neg (mant * 10 ^ e10.toNat) 1
           else F64.round neg mant (10 ^ (-e10).toNat)
  if x.overflows then (.inf neg, true) else (.finite x, false)

/-- Go's `strconv.ParseFloat(s, 64)` on decimal text: the value and whether there
is an error. Text that is not a decimal number gives `0` and an error; the other
forms that `ParseFloat` reads (hexadecimal, `inf`, `nan`) are not modelled, a
`json.Number` of a decoded document never holds them. -/
def ParseFloat (s : String) : Float64 × Bool :=
  let neg : Bool :=
    match s.data with
    | c :: _ => decide (c = '-')
    | [] => false
  let s0 : List Char :=
    match s.data with
    | c :: cs => if c = '-' ∨ c = '+' then cs else c :: cs
    | [] => []
  let ip := digitRun s0 0 0
  let fp : Nat × Nat × List Char :=
    match ip.2.2 with
    | c :: cs => if c = '.' then digitRun cs ip.1 0 else (ip.1, 0, c :: cs)
    | [] => (ip.1, 0, [])
  if ip.2.1 + fp.2.1 = 0 then (.finite (F64.ofInt 0), true)
  else
    let ep : Option (Int × List Char) :=
      match fp.2.2 with
      | [] => some (0, [])
      | c :: cs =>
        if c = 'e' ∨ c = 'E' then
          let eneg : Bool :=
            match cs with
            | g :: _ => decide (g = '-')
            | [] => false
          let t : List Char :=
            match cs with
            | g :: u => if g = '-' ∨ g = '+' then u else g :: u
            | [] => []
          let r := expRun t 0 0
          if r.2.1 = 0 then none
          else some (if eneg then -(r.1 : Int) else (r.1 : Int), r.2.2)
        else some (0, c :: cs)
    match ep with
    | none => (.finite (F64.ofInt 0), true)
    | some (e10, rest) =>
      if rest = [] then roundDecimal neg fp.1 (e10 - (fp.2.1 : Int))
      else (.finite (F64.ofInt 0), true)

/-- The quotient `x / y` by a finite non-zero `y`. -/
def Float64.div (x : Float64) (y : F64) : Float64 :=
  match x with
  | .finite a => if (F64.div a y).overflows then .inf (a.neg != y.neg) else .finite (F64.div a y)
  | .inf n => .inf (n != y.neg)

/-- The method `Json.Float64` of go-simplejson: for a `json.Number` what
`strconv.ParseFloat` gives, otherwise `0` and an error (`true`). -/
def Json.Float64 (j : Json) : Float64 × Bool :=
  match j with
  | .num lit => ParseFloat lit
  | _ => (.finite (F64.ofInt 0), true)

/-! ## fmt: the `%.2f` verb, and json.Marshal of a string map -/

/-- The text `fmt` prints for a finite float64 under `%.2f`: the exact value
rounded to two decimals, half to even. -/
def formatFloat2 (x : F64) : String :=
  let n := roundHalfEven (x.num * 100) x.den
  String.mk ((if x.neg then ['-'] else []) ++ decimal (n / 100) ++
    ['.', digitChar (n / 10 % 10), digitChar (n % 10)])

/-- The text `fmt` prints for a float64 under `%.2f`; an infinity is printed with
its sign. -/
def sprintfFloat2 (x : Float64) : String :=
  match x with
  | .finite a => formatFloat2 a
  | .inf n => if n then "-Inf" else "+Inf"

/-- The lower-case hexadecimal digit of a value below sixteen. -/
def lowerhex (d : Nat) : Char := if d < 10 then Char.ofNat (48 + d) else Char.ofNat (87 + d)

/-- What `json.Marshal` writes for one character of a string (HTML escaping on). -/
def jsonEscapeChar (c : Char) : List Char :=
  if c = '"' then ['\\', '"']
  else if c = '\\' then ['\\', '\\']
  else if c = '\n' then ['\\', 'n']
  else if c = '\r' then ['\\', 'r']
  else if c = '\t' then ['\\', 't']
  else if c = Char.ofNat 8 then ['\\', 'b']
  else if c = Char.ofNat 12 then ['\\', 'f']
  else if c.toNat < 32 ∨ c = '<' ∨ c = '>' ∨ c = '&' then
    ['\\', 'u', '0', '0', lowerhex (c.toNat / 16), lowerhex (c.toNat % 16)]
  else if c.toNat = 8232 then ['\\', 'u', '2', '0', '2', '8']
  else if c.toNat = 8233 then ['\\', 'u', '2', '0', '2', '9']
  else [c]

/-- What `json.Marshal` writes for a string. -/
def jsonQuote (s : String) : String :=
  String.mk ('"' :: (s.data.flatMap jsonEscapeChar ++ ['"']))

/-- What `json.Marshal` writes for the members of a `map[string]string`, given its
keys in ascending order. -/
def marshalMembers (m : List (String × String)) : List String → String → String
  | [], buf => buf
  | k :: ks, buf =>
    let value := match m.find? (fun kv => kv.1 = k) with
      | some kv => kv.2
      | none => ""
    let buf1 := if 0 < buf.length then buf ++ "," else buf
    marshalMembers m ks (buf1 ++ jsonQuote k ++ ":" ++ jsonQuote value)

/-- Go's `json.Marshal` of a `map[string]string` (an association list without
repeated keys): the members sorted by key. It has no error case. -/
def jsonMarshal (m : List (String × String)) : Except Unit String :=
  .ok ("\x7b" ++ marshalMembers m (sortStrings (m.map Prod.fst)) "" ++ "\x7d")

/-! ## graph_options.go: the rate response -/

/-- The errors `parseRateResponse` returns. -/
inductive RateError where
  /-- The error of `simplejson.NewJson`, passed on; which error of the decoder it
  is, and its text, are not modelled. -/
  | decode
  /-- An error made by `errors.New` with this message. -/
  | new (msg : String)
  deriving DecidableEq, Repr

/-- The function `parseRateResponse`: the string and the error it returns (`none`
for a nil error). -/
def parseRateResponse (body : String) : String × Option RateError :=
  match NewJson body with
  | none => ("", some .decode)
  | some js =>
    match (js.GetIndex 0).CheckGet "datapoints" with
    | none => ("", some (.new "datapoints not found"))
    | some js =>
      let rate := ((js.GetIndex 0).GetIndex 0).Float64.1
      let rate_str := sprintfFloat2 (Float64.div rate (F64.ofInt 60))
      let response := [("datapoint", rate_str)]
      match jsonMarshal response with
      | .error _ => ("", some (.new "marshal failed"))
      | .ok byte_response => (byte_response, none)

/-! ## Terms of the specification -/

/-- The label the specification resolves for a request: the explicitly supplied `t`
parameter if present, otherwise the persisted cookie value if present, otherwise
`"2h"`. -/
def chosenLabel (req : Request) (r : ReqParams) : String :=
  match r.Get "t" with
  | (v, false) => v
  | (_, true) =>
    match req.Cookie "t" with
    | some v => v
    | none => "2h"

/-- The gauge keys of the specification. -/
def isGaugeKey (k : String) : Bool :=
  decide (k = "backend_depth" ∨ k = "depth" ∨ k = "clients" ∨ k = "in_flight_count")

/-- The prefix the specification's policy gives a metric key: none when the
policy is disabled, `stats.gauges.` for a gauge key, `stats_counts.` for any
other key. -/
def policyPrefix (enabled : Bool) (k : String) : String :=
  if enabled then (if isGaugeKey k then "stats.gauges." else "stats_counts.") else ""

/-- The host segment claim C5 gives a channel: `*` when there are several per-host
entries, otherwise the sanitized host key. -/
def claimedChannelHost (c : ChannelStats) : String :=
  if 1 < c.HostStats.length then "*" else graphiteHostKey c.HostAddress

/-- The target a large graph carries according to the specification. -/
def largeGraphTarget (k E : String) : String :=
  if isGaugeKey k then "summarize(sumSeries(" ++ E ++ "),\"1min\",\"avg\")"
  else "scaleToSeconds(summarize(sumSeries(" ++ E ++ "),\"1min\",\"avg\"),1)"

/-- The path claim C10 gives the rate query, with the parameters in the order the
specification lists them. -/
def claimedRateQuery (E : String) : String :=
  "/render?from=-2min&until=-1min&format=json&target=" ++ QueryEscape ("sumSeries(" ++ E ++ ")")

/-- JSON white space at the head of a text, dropped (RFC 8259, `ws`). -/
def dropWs : List Char → List Char
  | [] => []
  | c :: cs => if c = ' ' ∨ c = '\t' ∨ c = '\n' ∨ c = '\r' then dropWs cs else c :: cs

/-- A hexadecimal digit. -/
def isHexDigit (c : Char) : Bool :=
  decide ((48 ≤ c.toNat ∧ c.toNat ≤ 57) ∨ (65 ≤ c.toNat ∧ c.toNat ≤ 70) ∨
    (97 ≤ c.toNat ∧ c.toNat ≤ 102))

/-- The text after a JSON string whose opening quote has been read (RFC 8259,
`string`): characters from U+0020 on other than the quote and the backslash, the
escapes `\"`, `\\`, `\/`, `\b`, `\f`, `\n`, `\r`, `\t` and `\u` with four
hexadecimal digits, up to the closing quote. -/
def stringEnd : List Char → Option (List Char)
  | [] => none
  | c :: cs =>
    if c = '"' then some cs
    else if c = '\\' then
      match cs with
      | [] => none
      | e :: rest =>
        if e = 'u' then
          match rest with
          | h1 :: h2 :: h3 :: h4 :: rest1 =>
            if isHexDigit h1 ∧ isHexDigit h2 ∧ isHexDigit h3 ∧ isHexDigit h4 then stringEnd rest1
            else none
          | _ => none
        else if e = '"' ∨ e = '\\' ∨ e = '/' ∨ e = 'b' ∨ e = 'f' ∨ e = 'n' ∨ e = 'r' ∨ e = 't'
        then stringEnd rest
        else none
    else if c.toNat < 32 then none
    else stringEnd cs

/-- The text after the leading decimal digits. -/
def dropDigits : List Char → List Char
  | [] => []
  | c :: cs => if 48 ≤ c.toNat ∧ c.toNat ≤ 57 then dropDigits cs else c :: cs

/-- The text after one or more decimal digits. -/
def digitsEnd (s : List Char) : Option (List Char) :=
  match s with
  | [] => none
  | c :: cs => if 48 ≤ c.toNat ∧ c.toNat ≤ 57 then some (dropDigits cs) else none

/-- The text after an optional minus sign. -/
def minusEnd (s : List Char) : List Char :=
  match s with
  | [] => []
  | c :: cs => if c = '-' then cs else c :: cs

/-- The text after the integer part of a JSON number (RFC 8259, `int`): `0`, or a
digit from `1` to `9` with the digits after it. -/
def intEnd (s : List Char) : Option (List Char) :=
  match s with
  | [] => none
  | c :: cs => if c = '0' then some cs else digitsEnd (c :: cs)

/-- The text after the optional fraction of a JSON number (RFC 8259, `frac`): a
point belongs to the number, so it must have its digits. -/
def fracEnd (s : List Char) : Option (List Char) :=
  match s with
  | [] => some []
  | c :: cs => if c = '.' then digitsEnd cs else some (c :: cs)

/-- The text after the optional exponent of a JSON number (RFC 8259, `exp`): an
exponent mark belongs to the number, so it must have its digits, after an
optional sign. -/
def expEnd (s : List Char) : Option (List Char) :=
  match s with
  | [] => some []
  | c :: cs =>
    if c = 'e' ∨ c = 'E' then
      match cs with
      | [] => none
      | g :: t => if g = '+' ∨ g = '-' then digitsEnd t else digitsEnd (g :: t)
    else some (c :: cs)

/-- The text after a JSON number (RFC 8259, `number = [ minus ] int [ frac ]
[ exp ]`). -/
def numberEnd (s : List Char) : Option (List Char) :=
  match intEnd (minusEnd s) with
  | none => none
  | some s1 =>
    match fracEnd s1 with
    | none => none
    | some s2 => expEnd s2

/-- The text after one of the literal names `true`, `false` and `null`. -/
def nameEnd (s : List Char) : Option (List Char) :=
  if ['t', 'r', 'u', 'e'].isPrefixOf s then some (s.drop 4)
  else if ['f', 'a', 'l', 's', 'e'].isPrefixOf s then some (s.drop 5)
  else if ['n', 'u', 'l', 'l'].isPrefixOf s then some (s.drop 4)
  else none

mutual
/-- The text after white space and one JSON value (RFC 8259, `value`), with
arrays and objects nested at most `limit` deep; `none` when the text does not
begin with such a value. -/
def valueEnd (limit : Nat) : Nat → Nat → List Char → Option (List Char)
  | 0, _, _ => none
  | fuel + 1, depth, s =>
    match dropWs s with
    | [] => none
    | c :: rest =>
      if c = '[' then
        if limit ≤ depth then none
        else
          match dropWs rest with
          | [] => none
          | c1 :: rest1 =>
            if c1 = ']' then some rest1 else elementsEnd limit fuel (depth + 1) (c1 :: rest1)
      else if c = '\x7b' then
        if limit ≤ depth then none
        else
          match dropWs rest with
          | [] => none
          | c1 :: rest1 =>
            if c1 = '\x7d' then some rest1 else membersEnd limit fuel (depth + 1) (c1 :: rest1)
      else if c = '"' then stringEnd rest
      else if c = 't' ∨ c = 'f' ∨ c = 'n' then nameEnd (c :: rest)
      else numberEnd (c :: rest)
/-- The text after the values of an array, separated by commas, and its `]`. -/
def elementsEnd (limit : Nat) : Nat → Nat → List Char → Option (List Char)
  | 0, _, _ => none
  | fuel + 1, depth, s =>
    match valueEnd limit fuel depth s with
    | none => none
    | some rest =>
      match dropWs rest with
      | [] => none
      | c :: rest1 =>
        if c = ',' then elementsEnd limit fuel depth rest1
        else if c = ']' then some rest1
        else none
/-- The text after the members of an object, each a string, a colon and a value,
separated by commas, and its closing brace. -/
def membersEnd (limit : Nat) : Nat → Nat → List Char → Option (List Char)
  | 0, _, _ => none
  | fuel + 1, depth, s =>
    match dropWs s with
    | [] => none
    | q :: rest =>
      if q = '"' then
        match stringEnd rest with
        | none => none
        | some rest1 =>
          match dropWs rest1 with
          | [] => none
          | c :: rest2 =>
            if c = ':' then
              match valueEnd limit fuel depth rest2 with
              | none => none
              | some rest3 =>
                match dropWs rest3 with
                | [] => none
                | d :: rest4 =>
                  if d = ',' then membersEnd limit fuel depth rest4
                  else if d = '\x7d' then some rest4
                  else none
            else none
      else none
end

/-- The body begins with a JSON value, nested at most `limit` deep. The fuel is
more than `valueEnd` can use on the body (`valueEnd_fuel`). -/
def beginsWithJson (limit : Nat) (body : String) : Bool :=
  (valueEnd limit (2 * body.data.length + 1) 0 body.data).isSome

/-- The body is valid JSON nested at most `limit` deep: one JSON value with
nothing but white space around it (RFC 8259, `JSON-text = ws value ws`). -/
def validJsonWithin (limit : Nat) (body : String) : Bool :=
  match valueEnd limit (2 * body.data.length + 1) 0 body.data with
  | none => false
  | some rest => decide (dropWs rest = [])

/-- The body is valid JSON. The nesting of a text is never deeper than the text
is long, so this limit rules nothing out. -/
def validJson (body : String) : Bool := validJsonWithin body.data.length body

/-- The `datapoints` field of the first series of a decoded response: the
document is an array whose first element is an object with that field. -/
def firstSeriesDatapoints (j : Json) : Option Json :=
  match j with
  | .arr (.obj m :: _) => Json.lookup m "datapoints"
  | _ => none

/-- The number literal that is the first element of the first datapoint of the
first series of a decoded response, when the document has that shape. -/
def firstDatapointNumber (j : Json) : Option String :=
  match firstSeriesDatapoints j with
  | some (.arr (.arr (.num lit :: _) :: _)) => some lit
  | _ => none

/-- The value of decimal digits, continuing `x`. -/
def digitsValue : List Char → Nat → Nat
  | [], x => x
  | c :: cs, x => digitsValue cs (x * 10 + (c.toNat - 48))

/-- A decimal digit. -/
def decDigit (c : Char) : Bool := decide (48 ≤ c.toNat ∧ c.toNat ≤ 57)

/-- A number without sign written with exactly two decimal digits, as one or more
digits, a point and two digits: its value in hundredths. -/
def readHundredths (u : List Char) : Option Nat :=
  match u.dropWhile decDigit with
  | [p, d1, d2] =>
    if u.takeWhile decDigit ≠ [] ∧ p = '.' ∧ decDigit d1 = true ∧ decDigit d2 = true
    then some (digitsValue (u.takeWhile decDigit ++ [d1, d2]) 0)
    else none
  | _ => none

/-- A number written with exactly two decimal digits, as an optional `-`, one or
more digits, a point and two digits: whether it has the `-`, and its value in
hundredths. `none` for any other text. -/
def readTwoDecimals (t : String) : Option (Bool × Nat) :=
  match t.data with
  | [] => none
  | c :: cs =>
    if c = '-' then (readHundredths cs).map (fun n => (true, n))
    else (readHundredths (c :: cs)).map (fun n => (false, n))

/-- Arrays nested 10001 deep: 10001 opening brackets and as many closing ones. -/
def deepNested : String := String.mk (List.replicate 10001 '[' ++ List.replicate 10001 ']')

/-- A response of the shape of claim C7 whose first datapoint holds, after the
number, arrays nested 10001 deep: `[{"datapoints":[[120,[[...]]]]}]`. -/
def deepResponse : String :=
  String.mk ("[\x7b\"datapoints\":[[120,".data ++ (deepNested.data ++ "]]\x7d]".data))

/-- The canonical timeframe labels of the specification, in display order. -/
def canonicalLabels : List String := ["1h", "2h", "12h", "24h", "48h", "168h", "off"]

/-- The character substitution of the specification's host-key sanitization:
`.` and `:` become `_`, every other character stays. -/
def sanitizeChar (c : Char) : Char := if c = '.' ∨ c = ':' then '_' else c

/-- The color tag of the specification: `red` for `depth` and `deferred_count`,
`blue` for every other key. -/
def colorTag (k : String) : String :=
  if k = "depth" ∨ k = "deferred_count" then "red" else "blue"

/-- The `GraphFrom` claim C17 gives a parsed duration: `-`, the floor of the
duration in minutes, `min`. -/
def claimedGraphFrom (d : Duration) : String :=
  "-" ++ formatInt (Int.fdiv d (Minute : Int)) ++ "min"

/-- The characters that query escaping leaves as they are: ASCII letters, digits
and `-`, `_`, `.`, `~`. -/
def isUnreserved (ch : Char) : Bool :=
  decide ((97 ≤ ch.toNat ∧ ch.toNat ≤ 122) ∨ (65 ≤ ch.toNat ∧ ch.toNat ≤ 90) ∨
    (48 ≤ ch.toNat ∧ ch.toNat ≤ 57)) ||
  decide (ch = '-' ∨ ch = '_' ∨ ch = '.' ∨ ch = '~')

/-- The value of a hexadecimal digit of a percent escape. -/
def unhex (ch : Char) : Option Nat :=
  if 48 ≤ ch.toNat ∧ ch.toNat ≤ 57 then some (ch.toNat - 48)
  else if 65 ≤ ch.toNat ∧ ch.toNat ≤ 70 then some (ch.toNat - 55)
  else if 97 ≤ ch.toNat ∧ ch.toNat ≤ 102 then some (ch.toNat - 87)
  else none

/-- How a server reads a query-escaped value back: `%XY` is the byte with the
hexadecimal digits `X` and `Y`, `+` is a space, any other character stands for
itself. -/
def queryUnescapeBytes : List Char → Option (List Nat)
  | [] => some []
  | ch :: rest =>
    if ch = '%' then
      match rest with
      | h :: l :: rest2 =>
        match unhex h, unhex l, queryUnescapeBytes rest2 with
        | some a, some b, some bs => some ((16 * a + b) :: bs)
        | _, _, _ => none
      | _ => none
    else if ch = '+' then (queryUnescapeBytes rest).map (fun bs => 32 :: bs)
    else (queryUnescapeBytes rest).map (fun bs => ch.toNat :: bs)

/-- The text `w` is a query-escaped form of the value `v`: it holds only
unreserved characters, `%` and `+`, so none of the separators `&`, `=`, `#` or a
space, and it reads back as the bytes of `v`. -/
def isQueryEscapeOf (v w : String) : Bool :=
  w.data.all (fun ch => isUnreserved ch || decide (ch = '%') || decide (ch = '+')) &&
  decide (queryUnescapeBytes w.data = some (v.data.flatMap utf8Bytes))

/-! ## Resolution of the timeframe -/

theorem leadingInt_length (s : List Char) (x v : Nat) (r : List Char)
    (h : leadingInt s x = some (v, r)) : r.length ≤ s.length := by
  induction s generalizing x with
  | nil =>
    simp only [leadingInt, Option.some.injEq, Prod.mk.injEq] at h
    rw [← h.2]
  | cons c cs ih =>
    unfold leadingInt at h
    split at h
    · split at h
      · cases h
      · simp only at h
        split at h
        · cases h
        · exact Nat.le_succ_of_le (ih _ h)
    · simp only [Option.some.injEq, Prod.mk.injEq] at h
      rw [← h.2]

theorem leadingFraction_length (s : List Char) (x : Nat) (scale : F64) (o : Bool) :
    (leadingFraction s x scale o).2.2.length ≤ s.length := by
  induction s generalizing x scale o with
  | nil => simp [leadingFraction]
  | cons c cs ih =>
    unfold leadingFraction
    split
    · split
      · exact Nat.le_succ_of_le (ih _ _ _)
      · split
        · exact Nat.le_succ_of_le (ih _ _ _)
        · simp only
          split
          · exact Nat.le_succ_of_le (ih _ _ _)
          · exact Nat.le_succ_of_le (ih _ _ _)
    · exact Nat.le_refl _

theorem fractionPart_length (s1 : List Char) :
    (fractionPart s1).2.2.1.length ≤ s1.length := by
  unfold fractionPart
  split
  · rename_i t
    have := leadingFraction_length t 0 (F64.ofInt 1) false
    simp only [List.length_cons]
    omega
  · exact Nat.le_refl _

theorem unitSpan_length (s : List Char) :
    (unitSpan s).1.length + (unitSpan s).2.length = s.length := by
  induction s with
  | nil => rfl
  | cons c cs ih =>
    unfold unitSpan
    split
    · simp
    · simp only [List.length_cons]
      omega

/-- One pass of the loop of `time.ParseDuration` consumes at least one character. -/
theorem parseDurationTerm_length (c : Char) (cs : List Char) (d d1 : Nat) (s3 : List Char)
    (h : parseDurationTerm c cs d = .ok (d1, s3)) : s3.length ≤ cs.length := by
  unfold parseDurationTerm at h
  split at h
  · cases h
  · split at h
    · cases h
    · rename_i v s1 hli
      have h1 := leadingInt_length _ _ _ _ hli
      have h2 := fractionPart_length s1
      generalize fractionPart s1 = frac at h h2
      obtain ⟨f, scale, s2, post⟩ := frac
      simp only at h h2
      have h3 := unitSpan_length s2
      split at h
      · cases h
      · split at h
        · cases h
        · rename_i hu
          have h4 : 0 < (unitSpan s2).1.length := List.length_pos.2 hu
          simp only [List.length_cons] at h1
          split at h
          · cases h
          · repeat' split at h
            all_goals first
              | (simp only [Except.ok.injEq, Prod.mk.injEq] at h
                 rw [← h.2]
                 omega)
              | cases h

/-- The loop of `time.ParseDuration` does not depend on its fuel once the fuel
is at least the length of the input: the fuel is never exhausted. -/
theorem parseDurationLoop_fuel (fuel : Nat) (s : List Char) (d : Nat)
    (h : s.length ≤ fuel) :
    parseDurationLoop fuel s d = parseDurationLoop s.length s d := by
  induction fuel using Nat.strong_induction_on generalizing s d with
  | _ fuel ih =>
    cases s with
    | nil => cases fuel <;> rfl
    | cons c cs =>
      cases fuel with
      | zero => simp at h
      | succ fuel =>
        simp only [List.length_cons, parseDurationLoop]
        cases ht : parseDurationTerm c cs d with
        | error e => rfl
        | ok p =>
          obtain ⟨d1, s3⟩ := p
          have hl := parseDurationTerm_length c cs d d1 s3 ht
          simp only [List.length_cons, Nat.succ_le_succ_iff] at h
          simp only
          rw [ih fuel (Nat.lt_succ_self _) s3 d1 (Nat.le_trans hl h)]
          by_cases hlt : cs.length < fuel + 1
          · rw [ih cs.length hlt s3 d1 hl]
          · omega

theorem graphInterval_1h (b : Bool) : GraphIntervalForTimeframe "1h" b =
    .ok ⟨b, "1h", "-60min", "-1min", 3600000000000⟩ := by
  cases b <;> decide!

theorem graphInterval_2h (b : Bool) : GraphIntervalForTimeframe "2h" b =
    .ok ⟨b, "2h", "-120min", "-1min", 7200000000000⟩ := by
  cases b <;> decide!

theorem graphInterval_12h (b : Bool) : GraphIntervalForTimeframe "12h" b =
    .ok ⟨b, "12h", "-720min", "-1min", 43200000000000⟩ := by
  cases b <;> decide!

theorem graphInterval_24h (b : Bool) : GraphIntervalForTimeframe "24h" b =
    .ok ⟨b, "24h", "-1440min", "-1min", 86400000000000⟩ := by
  cases b <;> decide!

theorem graphInterval_48h (b : Bool) : GraphIntervalForTimeframe "48h" b =
    .ok ⟨b, "48h", "-2880min", "-1min", 172800000000000⟩ := by
  cases b <;> decide!

theorem graphInterval_168h (b : Bool) : GraphIntervalForTimeframe "168h" b =
    .ok ⟨b, "168h", "-10080min", "-1min", 604800000000000⟩ := by
  cases b <;> decide!

theorem graphInterval_off (b : Bool) : GraphIntervalForTimeframe "off" b =
    .ok ⟨b, "off", "", "", 0⟩ := by
  cases b <;> decide!

/-- The function `DefaultGraphTimeframes` never takes its `log.Fatalf` exit. -/
theorem defaultGraphTimeframes_eq (s : String) : DefaultGraphTimeframes s = some
    [⟨decide ("1h" = s), "1h", "-60min", "-1min", 3600000000000⟩,
     ⟨decide ("2h" = s), "2h", "-120min", "-1min", 7200000000000⟩,
     ⟨decide ("12h" = s), "12h", "-720min", "-1min", 43200000000000⟩,
     ⟨decide ("24h" = s), "24h", "-1440min", "-1min", 86400000000000⟩,
     ⟨decide ("48h" = s), "48h", "-2880min", "-1min", 172800000000000⟩,
     ⟨decide ("168h" = s), "168h", "-10080min", "-1min", 604800000000000⟩,
     ⟨decide ("off" = s), "off", "", "", 0⟩] := by
  simp only [DefaultGraphTimeframes, defaultGraphTimeframesLoop, graphInterval_1h,
    graphInterval_2h, graphInterval_12h, graphInterval_24h, graphInterval_48h,
    graphInterval_168h, graphInterval_off, List.nil_append, List.cons_append]

/-- The fallback of `NewGraphOptions` never leaves a nil interval. -/
theorem resolveInterval_eq (L : String) : resolveInterval L = some
    (match GraphIntervalForTimeframe L true with
     | .ok g => g
     | .error _ => ⟨true, "2h", "-120min", "-1min", 7200000000000⟩) := by
  unfold resolveInterval
  cases h : GraphIntervalForTimeframe L true with
  | ok g => rfl
  | error e => simp only [graphInterval_2h]

/-- The timeframe the code selects is the label of the specification. -/
theorem selectTimeframe_fst (now : Int) (req : Request) (r : ReqParams) :
    (selectTimeframe now req r).1 = chosenLabel req r := by
  unfold selectTimeframe chosenLabel ReqParams.Get
  cases h : Values.lookup r.Values "t" with
  | none => cases hc : req.Cookie "t" <;> simp
  | some vs =>
    cases vs with
    | nil => cases hc : req.Cookie "t" <;> simp
    | cons v rest => simp

/-- An interval resolved for a label other than `"off"` carries that label. -/
theorem graphInterval_timeframe (t : String) (b : Bool) (g : GraphInterval)
    (h : GraphIntervalForTimeframe t b = .ok g) : g.Timeframe = t := by
  unfold GraphIntervalForTimeframe at h
  split at h
  · injection h with h; rw [← h]
  · cases hp : ParseDuration t with
    | error e => rw [hp] at h; cases h
    | ok d => rw [hp] at h; injection h with h; rw [← h]

/-- The whole of `NewGraphOptions` in closed form. -/
theorem newGraphOptions_eq (cfg : Config) (now : Int) (req : Request) (r : ReqParams) :
    ∃ g all, resolveInterval (chosenLabel req r) = some g ∧
      DefaultGraphTimeframes (chosenLabel req r) = some all ∧
      NewGraphOptions cfg now req r = some
        ({ Configured := cfg.graphiteUrl != "",
           Enabled := if g.Timeframe = "off" then false else cfg.graphiteUrl != "",
           UseStatsdPrefix := cfg.useStatsdPrefixes,
           GraphiteUrl := if cfg.proxyGraphite then "" else cfg.graphiteUrl,
           TimeframeString := "", AllGraphIntervals := all, GraphInterval := g },
         (selectTimeframe now req r).2) := by
  refine ⟨_, _, resolveInterval_eq _, defaultGraphTimeframes_eq _, ?_⟩
  unfold NewGraphOptions
  simp only [selectTimeframe_fst, resolveInterval_eq, defaultGraphTimeframes_eq]

/-- C1: for every request, `NewGraphOptions` returns, and its active interval is
`GraphIntervalForTimeframe(L, true)` for the label `L` of the specification (the
explicit `t` parameter, else the cookie, else `"2h"`) whenever that resolves;
whenever `L` is not `"off"` and does not parse as a duration, the active interval
is `GraphIntervalForTimeframe("2h", true)`, whose timeframe is `"2h"`. -/
theorem C1_active_interval (cfg : Config) (now : Int) (req : Request) (r : ReqParams) :
    ∃ o c, NewGraphOptions cfg now req r = some (o, c) ∧
      (∀ g, GraphIntervalForTimeframe (chosenLabel req r) true = .ok g → o.GraphInterval = g) ∧
      (chosenLabel req r ≠ "off" → (∀ d, ParseDuration (chosenLabel req r) ≠ .ok d) →
        GraphIntervalForTimeframe "2h" true = .ok o.GraphInterval ∧
        o.GraphInterval.Timeframe = "2h") := by
  obtain ⟨g, all, hg, _, ho⟩ := newGraphOptions_eq cfg now req r
  refine ⟨_, _, ho, ?_, ?_⟩
  · intro g1 hg1
    rw [resolveInterval_eq, hg1] at hg
    exact (Option.some.inj hg).symm
  · intro hoff hpar
    have herr : ∃ e, GraphIntervalForTimeframe (chosenLabel req r) true = .error e := by
      unfold GraphIntervalForTimeframe
      rw [if_neg hoff]
      cases hp : ParseDuration (chosenLabel req r) with
      | error e => exact ⟨e, rfl⟩
      | ok d => exact absurd hp (hpar d)
    obtain ⟨e, he⟩ := herr
    rw [resolveInterval_eq, he] at hg
    have hg2 := (Option.some.inj hg).symm
    simp only [hg2, graphInterval_2h, and_self]

/-- C1, at a request whose explicit parameter is `foo` and whose cookie is `1h`:
the active interval is the one of `"2h"`. -/
theorem C1_active_interval_witness :
    chosenLabel ⟨"admin", [("t", "1h")]⟩ ⟨[("t", ["foo"])]⟩ ≠ "off" ∧
    (∀ d, ParseDuration (chosenLabel ⟨"admin", [("t", "1h")]⟩ ⟨[("t", ["foo"])]⟩) ≠ .ok d) ∧
    ∃ o c, NewGraphOptions ⟨"http://graphite", false, false⟩ 0
        ⟨"admin", [("t", "1h")]⟩ ⟨[("t", ["foo"])]⟩ = some (o, c) ∧
      o.GraphInterval = ⟨true, "2h", "-120min", "-1min", 7200000000000⟩ := by
  have hoff : chosenLabel ⟨"admin", [("t", "1h")]⟩ ⟨[("t", ["foo"])]⟩ ≠ "off" := by decide!
  have hpar : ∀ d, ParseDuration (chosenLabel ⟨"admin", [("t", "1h")]⟩ ⟨[("t", ["foo"])]⟩)
      ≠ .ok d := by
    have h : ParseDuration (chosenLabel ⟨"admin", [("t", "1h")]⟩ ⟨[("t", ["foo"])]⟩)
        = .error .invalid := by decide!
    intro d; rw [h]; exact fun hc => by cases hc
  obtain ⟨o, c, ho, _, h2⟩ := C1_active_interval ⟨"http://graphite", false, false⟩ 0
    ⟨"admin", [("t", "1h")]⟩ ⟨[("t", ["foo"])]⟩
  refine ⟨hoff, hpar, o, c, ho, ?_⟩
  have h3 := (h2 hoff hpar).1
  rw [graphInterval_2h] at h3
  exact (Except.ok.inj h3).symm

/-- C2: for every backend URL, proxy flag and request, `NewGraphOptions` returns
`Configured = (u != "")`, `Enabled = (u != "" and g.Timeframe != "off")` for its
active interval `g`, and `GraphiteUrl = ""` under the proxy flag, otherwise `u`;
`Configured` and `Enabled` are the same under either proxy flag, and when the chosen
label is `"off"` then `Enabled` is false. -/
theorem C2_configured_enabled (cfg : Config) (now : Int) (req : Request) (r : ReqParams) :
    ∃ o c, NewGraphOptions cfg now req r = some (o, c) ∧
      (o.Configured = true ↔ cfg.graphiteUrl ≠ "") ∧
      (o.Enabled = true ↔ (cfg.graphiteUrl ≠ "" ∧ o.GraphInterval.Timeframe ≠ "off")) ∧
      o.GraphiteUrl = (if cfg.proxyGraphite then "" else cfg.graphiteUrl) ∧
      (∀ p : Bool, ∃ o1 c1,
        NewGraphOptions ⟨cfg.graphiteUrl, p, cfg.useStatsdPrefixes⟩ now req r = some (o1, c1) ∧
        o1.Configured = o.Configured ∧ o1.Enabled = o.Enabled) ∧
      (chosenLabel req r = "off" → o.Enabled = false) := by
  obtain ⟨g, all, hg, _, ho⟩ := newGraphOptions_eq cfg now req r
  refine ⟨_, _, ho, ?_, ?_, rfl, ?_, ?_⟩
  · simp
  · by_cases hoff : g.Timeframe = "off" <;> simp [hoff]
  · intro p
    obtain ⟨g1, all1, hg1, _, ho1⟩ :=
      newGraphOptions_eq ⟨cfg.graphiteUrl, p, cfg.useStatsdPrefixes⟩ now req r
    have hgg : g1 = g := Option.some.inj (hg1.symm.trans hg)
    subst hgg
    exact ⟨_, _, ho1, rfl, rfl⟩
  · intro hoff
    rw [hoff, resolveInterval_eq, graphInterval_off] at hg
    have hg2 := (Option.some.inj hg).symm
    simp [hg2]

/-- C2, at a configured backend and an explicit `t=off`: the options are configured
and not enabled. -/
theorem C2_configured_enabled_witness :
    chosenLabel ⟨"admin", []⟩ ⟨[("t", ["off"])]⟩ = "off" ∧
    ∃ o c, NewGraphOptions ⟨"http://graphite", true, false⟩ 0 ⟨"admin", []⟩
        ⟨[("t", ["off"])]⟩ = some (o, c) ∧
      o.Configured = true ∧ o.Enabled = false ∧ o.GraphiteUrl = "" := by
  have hoff : chosenLabel ⟨"admin", []⟩ ⟨[("t", ["off"])]⟩ = "off" := by decide!
  obtain ⟨o, c, ho, hc, _, hu, _, he⟩ := C2_configured_enabled
    ⟨"http://graphite", true, false⟩ 0 ⟨"admin", []⟩ ⟨[("t", ["off"])]⟩
  exact ⟨hoff, o, c, ho, hc.2 (by decide), he hoff, hu⟩

/-- C3: for every canonical label `t` of `1h, 2h, 12h, 24h, 48h, 168h` and every flag
`s`, the label parses to a duration `d` and `GraphIntervalForTimeframe(t, s)` succeeds
with `Timeframe = t`, `Selected = s`, `Duration = d`, `GraphFrom` the text `-`, the
whole minutes of `d`, `min`, and `GraphUntil = "-1min"`; the six labels give
`-60min`, `-120min`, `-720min`, `-1440min`, `-2880min`, `-10080min`. -/
theorem C3_canonical_labels (t : String) (s : Bool)
    (ht : t ∈ ["1h", "2h", "12h", "24h", "48h", "168h"]) :
    (∃ d, ParseDuration t = .ok d ∧
      GraphIntervalForTimeframe t s =
        .ok ⟨s, t, "-" ++ formatInt (d / (Minute : Int)) ++ "min", "-1min", d⟩) ∧
    (GraphIntervalForTimeframe "1h" s).map GraphInterval.GraphFrom = .ok "-60min" ∧
    (GraphIntervalForTimeframe "2h" s).map GraphInterval.GraphFrom = .ok "-120min" ∧
    (GraphIntervalForTimeframe "12h" s).map GraphInterval.GraphFrom = .ok "-720min" ∧
    (GraphIntervalForTimeframe "24h" s).map GraphInterval.GraphFrom = .ok "-1440min" ∧
    (GraphIntervalForTimeframe "48h" s).map GraphInterval.GraphFrom = .ok "-2880min" ∧
    (GraphIntervalForTimeframe "168h" s).map GraphInterval.GraphFrom = .ok "-10080min" := by
  refine ⟨?_, ?_, ?_, ?_, ?_, ?_, ?_⟩
  · simp only [List.mem_cons, List.mem_singleton, List.not_mem_nil, or_false] at ht
    rcases ht with rfl | rfl | rfl | rfl | rfl | rfl
    · exact ⟨3600000000000, by decide!, by cases s <;> decide!⟩
    · exact ⟨7200000000000, by decide!, by cases s <;> decide!⟩
    · exact ⟨43200000000000, by decide!, by cases s <;> decide!⟩
    · exact ⟨86400000000000, by decide!, by cases s <;> decide!⟩
    · exact ⟨172800000000000, by decide!, by cases s <;> decide!⟩
    · exact ⟨604800000000000, by decide!, by cases s <;> decide!⟩
  · rw [graphInterval_1h]; rfl
  · rw [graphInterval_2h]; rfl
  · rw [graphInterval_12h]; rfl
  · rw [graphInterval_24h]; rfl
  · rw [graphInterval_48h]; rfl
  · rw [graphInterval_168h]; rfl

/-- C3, at the label `24h`: a duration of 24 hours, from `-1440min` until `-1min`. -/
theorem C3_canonical_labels_witness :
    "24h" ∈ ["1h", "2h", "12h", "24h", "48h", "168h"] ∧
    ∃ d, ParseDuration "24h" = .ok d ∧
      GraphIntervalForTimeframe "24h" true =
        .ok ⟨true, "24h", "-" ++ formatInt (d / (Minute : Int)) ++ "min", "-1min", d⟩ :=
  ⟨by decide, (C3_canonical_labels "24h" true (by decide)).1⟩

/-- The prefix the code computes for a key is the prefix of the policy. -/
theorem prefix_metricType (g : GraphOptions) (k : String) :
    g.Prefix (metricType k) = policyPrefix g.UseStatsdPrefix k := by
  unfold GraphOptions.Prefix metricType policyPrefix isGaugeKey
  by_cases hk : k = "backend_depth" ∨ k = "depth" ∨ k = "clients" ∨ k = "in_flight_count"
  · cases hu : g.UseStatsdPrefix <;> simp [hk]
  · cases hu : g.UseStatsdPrefix <;> simp [hk]

/-- C4: for every options `g`, topic and key `k`, the expressions of `Topic.Target`
and `TopicHostStats.Target` are `P + "nsq." + H + ".topic." + n + "." + k`, with `P`
the prefix of the policy and `H` the wildcard for a `Topic` and for an aggregate
`TopicHostStats`, and `graphiteHostKey(HostAddress)` otherwise; an aggregate
`TopicHostStats` and a `Topic` of the same name have the same target. -/
theorem C4_topic_targets (g : GraphOptions) (t : Topic) (th : TopicHostStats) (k : String) :
    (t.Target g k).1 =
      policyPrefix g.UseStatsdPrefix k ++ "nsq." ++ "*" ++ ".topic." ++ t.TopicName ++ "." ++ k ∧
    (th.Target g k).1 =
      policyPrefix g.UseStatsdPrefix k ++ "nsq." ++
        (if th.Aggregate then "*" else graphiteHostKey th.HostAddress) ++
        ".topic." ++ th.Topic ++ "." ++ k ∧
    (th.Aggregate = true → th.Topic = t.TopicName → th.Target g k = t.Target g k) := by
  refine ⟨?_, ?_, ?_⟩
  · simp only [Topic.Target, prefix_metricType, String.append_assoc]
    rfl
  · simp only [TopicHostStats.Target, prefix_metricType]
  · intro ha hn
    simp only [TopicHostStats.Target, Topic.Target, ha, hn, if_true, String.append_assoc]
    rfl

/-- C4, at an aggregate `TopicHostStats` and a `Topic` both named `orders`. -/
theorem C4_topic_targets_witness :
    (TopicHostStats.mk "10.0.0.1:4151" "orders" true).Target
        ⟨true, true, "", true, "", [], ⟨true, "2h", "-120min", "-1min", 7200000000000⟩⟩ "depth" =
      (Topic.mk "orders").Target
        ⟨true, true, "", true, "", [], ⟨true, "2h", "-120min", "-1min", 7200000000000⟩⟩ "depth" :=
  (C4_topic_targets ⟨true, true, "", true, "", [], ⟨true, "2h", "-120min", "-1min", 7200000000000⟩⟩
    (Topic.mk "orders") (TopicHostStats.mk "10.0.0.1:4151" "orders" true) "depth").2.2 rfl rfl

/-- C5 as stated fails: a channel with exactly one per-host entry gets the wildcard
host segment, not the sanitized host key the claim gives it. -/
theorem C5_counterexample :
    (ChannelStats.mk "10.0.0.1:4151" "orders" "archive"
        [ChannelStats.mk "10.0.0.1:4151" "orders" "archive" []]).HostStats.length = 1 ∧
    ((ChannelStats.mk "10.0.0.1:4151" "orders" "archive"
        [ChannelStats.mk "10.0.0.1:4151" "orders" "archive" []]).Target
        ⟨true, true, "", false, "", [], ⟨true, "2h", "-120min", "-1min", 7200000000000⟩⟩
        "depth").1 = "nsq.*.topic.orders.channel.archive.depth" ∧
    ((ChannelStats.mk "10.0.0.1:4151" "orders" "archive"
        [ChannelStats.mk "10.0.0.1:4151" "orders" "archive" []]).Target
        ⟨true, true, "", false, "", [], ⟨true, "2h", "-120min", "-1min", 7200000000000⟩⟩
        "depth").1 ≠
      policyPrefix false "depth" ++ "nsq." ++
        claimedChannelHost (ChannelStats.mk "10.0.0.1:4151" "orders" "archive"
          [ChannelStats.mk "10.0.0.1:4151" "orders" "archive" []]) ++
        ".topic." ++ "orders" ++ ".channel." ++ "archive" ++ "." ++ "depth" := by
  decide!

/-- C5, amended: for every `ChannelStats` `c`, options `g` and key `k`, the host
segment of `ChannelStats.Target(g, k)` is `*` when `c` has at least one per-host
entry and is otherwise `graphiteHostKey(c.HostAddress)`; the expression is
`P + "nsq." + H + ".topic." + c.Topic + ".channel." + c.ChannelName + "." + k`. -/
theorem C5_channel_target (c : ChannelStats) (g : GraphOptions) (k : String) :
    (c.Target g k).1 =
      policyPrefix g.UseStatsdPrefix k ++ "nsq." ++
        (if 1 ≤ c.HostStats.length then "*" else graphiteHostKey c.HostAddress) ++
        ".topic." ++ c.Topic ++ ".channel." ++ c.ChannelName ++ "." ++ k := by
  simp only [ChannelStats.Target, prefix_metricType]
  by_cases h : c.HostStats.length = 0
  · simp [h]
  · have h1 : 1 ≤ c.HostStats.length := Nat.one_le_iff_ne_zero.2 h
    simp [h, h1]

/-! ## Render URLs -/

theorem string_append_eq_empty (a b : String) : a ++ b = "" ↔ a = "" ∧ b = "" := by
  constructor
  · intro h
    have h1 : (a ++ b).data = [] := by rw [h]
    rw [String.data_append, List.append_eq_nil] at h1
    exact ⟨String.ext h1.1, String.ext h1.2⟩
  · rintro ⟨rfl, rfl⟩; rfl

theorem string_length_pos (a : String) : 0 < a.length ↔ a ≠ "" := by
  rw [Nat.pos_iff_ne_zero, ne_eq, ne_eq, String.length, List.length_eq_zero]
  constructor
  · intro h hc; exact h (by rw [hc])
  · intro h hc; exact h (String.ext hc)

/-- One pass of the inner loop of `Values.Encode` for a key with a single value. -/
theorem encodeValues_single (ke v buf : String) :
    encodeValues ke [v] buf =
      if buf = "" then ke ++ "=" ++ QueryEscape v
      else buf ++ "&" ++ ke ++ "=" ++ QueryEscape v := by
  by_cases h : buf = ""
  · subst h; simp [encodeValues]
  · have h2 : 0 < buf.length := (string_length_pos buf).2 h
    simp [encodeValues, h, h2]

/-- The fixed keys and values of the three builders are left alone by `QueryEscape`. -/
theorem queryEscape_literals :
    QueryEscape "yMin" = "yMin" ∧ QueryEscape "width" = "width" ∧ QueryEscape "until" = "until" ∧
    QueryEscape "target" = "target" ∧ QueryEscape "margin" = "margin" ∧
    QueryEscape "hideLegend" = "hideLegend" ∧ QueryEscape "hideGrid" = "hideGrid" ∧
    QueryEscape "hideAxes" = "hideAxes" ∧ QueryEscape "height" = "height" ∧
    QueryEscape "from" = "from" ∧ QueryEscape "fgcolor" = "fgcolor" ∧
    QueryEscape "colorList" = "colorList" ∧ QueryEscape "bgcolor" = "bgcolor" ∧
    QueryEscape "format" = "format" ∧ QueryEscape "json" = "json" ∧
    QueryEscape "-2min" = "-2min" ∧ QueryEscape "-1min" = "-1min" ∧
    QueryEscape "0" = "0" ∧ QueryEscape "120" = "120" ∧ QueryEscape "true" = "true" ∧
    QueryEscape "20" = "20" ∧ QueryEscape "black" = "black" ∧
    QueryEscape "450" = "450" ∧ QueryEscape "800" = "800" ∧ QueryEscape "999999" = "999999" ∧
    QueryEscape "ff000000" = "ff000000" := by decide!

theorem sparkline_keys_sorted :
    sortStrings ["height", "width", "hideGrid", "hideLegend", "hideAxes", "bgcolor", "fgcolor",
      "margin", "colorList", "yMin", "target", "from", "until"] =
    ["bgcolor", "colorList", "fgcolor", "from", "height", "hideAxes", "hideGrid", "hideLegend",
      "margin", "target", "until", "width", "yMin"] := by decide!

theorem largeGraph_keys_sorted :
    sortStrings ["height", "width", "bgcolor", "fgcolor", "colorList", "yMin", "target", "from",
      "until"] =
    ["bgcolor", "colorList", "fgcolor", "from", "height", "target", "until", "width", "yMin"] := by
  decide!

theorem rateQuery_keys_sorted :
    sortStrings ["from", "until", "format", "target"] = ["format", "from", "target", "until"] := by
  decide!

/-- The target `LargeGraph` sets is the target of the specification. -/
theorem largeGraph_target (k E : String) :
    (if metricType k ≠ "gauge" then
        "scaleToSeconds(" ++ ("summarize(sumSeries(" ++ E ++ "),\"1min\",\"avg\")") ++ ",1)"
      else "summarize(sumSeries(" ++ E ++ "),\"1min\",\"avg\")") = largeGraphTarget k E := by
  unfold metricType largeGraphTarget isGaugeKey
  by_cases hk : k = "backend_depth" ∨ k = "depth" ∨ k = "clients" ∨ k = "in_flight_count"
  · simp [hk]
  · simp only [hk, decide_False, ne_eq, if_false, Bool.false_eq_true, not_false_eq_true,
      if_true, reduceCtorEq, String.reduceEq]
    apply String.ext
    simp only [String.data_append, List.append_assoc]
    rfl

theorem largeGraphParams_eq (g : GraphOptions) (k E c : String) :
    largeGraphParams g k E c =
      [("height", ["450"]), ("width", ["800"]), ("bgcolor", ["ff000000"]),
       ("fgcolor", ["999999"]), ("colorList", [c]), ("yMin", ["0"]),
       ("target", [largeGraphTarget k E]), ("from", [g.GraphInterval.GraphFrom]),
       ("until", [g.GraphInterval.GraphUntil])] := by
  unfold largeGraphParams
  simp only [largeGraph_target]
  simp [Values.Set]

/-- C6: for every options `g`, expression `E`, color and key `k`, the parameters of
`LargeGraph(k, E, color)` hold under `target` the single value
`summarize(sumSeries(E),"1min","avg")` when `k` is a gauge key and
`scaleToSeconds(summarize(sumSeries(E),"1min","avg"),1)` for every other key, and
the URL returned carries that value, query-escaped, as its `target` parameter; the
key `message_count` is wrapped and the key `depth` is not. -/
theorem C6_large_graph_target (g : GraphOptions) (k E c : String) :
    Values.lookup (largeGraphParams g k E c) "target" =
      some [if isGaugeKey k then "summarize(sumSeries(" ++ E ++ "),\"1min\",\"avg\")"
            else "scaleToSeconds(summarize(sumSeries(" ++ E ++ "),\"1min\",\"avg\"),1)"] ∧
    g.LargeGraph k E c = g.GraphiteUrl ++ "/render?" ++
      ("bgcolor=ff000000&colorList=" ++ QueryEscape c ++ "&fgcolor=999999&from=" ++
       QueryEscape g.GraphInterval.GraphFrom ++ "&height=450&target=" ++
       QueryEscape (if isGaugeKey k then "summarize(sumSeries(" ++ E ++ "),\"1min\",\"avg\")"
            else "scaleToSeconds(summarize(sumSeries(" ++ E ++ "),\"1min\",\"avg\"),1)") ++
       "&until=" ++ QueryEscape g.GraphInterval.GraphUntil ++ "&width=800&yMin=0") ∧
    Values.lookup (largeGraphParams g "message_count" E c) "target" =
      some ["scaleToSeconds(summarize(sumSeries(" ++ E ++ "),\"1min\",\"avg\"),1)"] ∧
    Values.lookup (largeGraphParams g "depth" E c) "target" =
      some ["summarize(sumSeries(" ++ E ++ "),\"1min\",\"avg\")"] := by
  refine ⟨?_, ?_, ?_, ?_⟩
  · rw [largeGraphParams_eq]
    simp [Values.lookup, largeGraphTarget]
  · unfold GraphOptions.LargeGraph Values.Encode
    rw [largeGraphParams_eq]
    simp only [Values.keys, List.map, largeGraph_keys_sorted]
    simp [encodeKeys, Values.lookup, encodeValues_single, queryEscape_literals,
      String.append_assoc, string_append_eq_empty, largeGraphTarget]
  · rw [largeGraphParams_eq]
    simp [Values.lookup, largeGraphTarget, isGaugeKey]
  · rw [largeGraphParams_eq]
    simp [Values.lookup, largeGraphTarget, isGaugeKey]

theorem sparklineParams_eq (g : GraphOptions) (E c : String) :
    sparklineParams g E c =
      [("height", ["20"]), ("width", ["120"]), ("hideGrid", ["true"]), ("hideLegend", ["true"]),
       ("hideAxes", ["true"]), ("bgcolor", ["ff000000"]), ("fgcolor", ["black"]),
       ("margin", ["0"]), ("colorList", [c]), ("yMin", ["0"]),
       ("target", ["sumSeries(" ++ E ++ ")"]), ("from", [g.GraphInterval.GraphFrom]),
       ("until", [g.GraphInterval.GraphUntil])] := by
  simp [sparklineParams, Values.Set]

theorem unhex_upperhex : ∀ d, d < 16 → unhex (upperhex d) = some d := by decide

theorem upperhex_unreserved : ∀ d, d < 16 → isUnreserved (upperhex d) = true := by decide

theorem shouldEscape_lt (b : Nat) (h : shouldEscape b = false) : b < 127 := by
  unfold shouldEscape at h
  split at h
  · omega
  · split at h
    · omega
    · cases h

theorem unescaped_byte : ∀ b, b < 127 → shouldEscape b = false →
    isUnreserved (Char.ofNat b) = true ∧ Char.ofNat b ≠ '%' ∧ Char.ofNat b ≠ '+' ∧
      (Char.ofNat b).toNat = b := by decide

theorem utf8Bytes_lt (c : Char) : ∀ b ∈ utf8Bytes c, b < 256 := by
  have hv : c.toNat < 1114112 := by
    have := c.valid
    simp only [Char.toNat, UInt32.isValidChar, Nat.isValidChar] at *
    omega
  intro b hb
  unfold utf8Bytes at hb
  simp only at hb
  split at hb
  · simp at hb; omega
  · split at hb
    · simp at hb; omega
    · split at hb
      · simp at hb; omega
      · simp at hb; omega

theorem escapeByte_safe (b : Nat) (hb : b < 256) :
    ∀ ch ∈ escapeByte b, isUnreserved ch = true ∨ ch = '%' ∨ ch = '+' := by
  intro ch hch
  unfold escapeByte at hch
  split at hch
  · split at hch
    · simp at hch; exact Or.inr (Or.inr hch)
    · simp only [List.mem_cons, List.mem_singleton, List.not_mem_nil, or_false] at hch
      rcases hch with h | h | h
      · exact Or.inr (Or.inl h)
      · exact Or.inl (h ▸ upperhex_unreserved _ (by omega))
      · exact Or.inl (h ▸ upperhex_unreserved _ (by omega))
  · rename_i hs
    simp only [Bool.not_eq_true] at hs
    simp only [List.mem_singleton] at hch
    exact Or.inl (hch ▸ (unescaped_byte b (shouldEscape_lt b hs) hs).1)

theorem escapeByte_unescape (b : Nat) (hb : b < 256) (tail : List Char) :
    queryUnescapeBytes (escapeByte b ++ tail) =
      (queryUnescapeBytes tail).map (fun bs => b :: bs) := by
  unfold escapeByte
  split
  · split
    · rename_i h32
      subst h32
      rw [List.singleton_append, queryUnescapeBytes.eq_def]
      simp
    · have h1 := unhex_upperhex (b / 16) (by omega)
      have h2 := unhex_upperhex (b % 16) (by omega)
      have h3 : 16 * (b / 16) + b % 16 = b := by omega
      rw [List.cons_append, queryUnescapeBytes.eq_def]
      simp only [if_true, List.cons_append, List.nil_append, h1, h2]
      cases queryUnescapeBytes tail <;> simp [h3]
  · rename_i hs
    simp only [Bool.not_eq_true] at hs
    obtain ⟨_, hp, hq, ht⟩ := unescaped_byte b (shouldEscape_lt b hs) hs
    rw [List.singleton_append, queryUnescapeBytes.eq_def]
    simp only [hp, hq, if_false, ht]

theorem escapeBytes_unescape (bs : List Nat) (hbs : ∀ b ∈ bs, b < 256) :
    queryUnescapeBytes (bs.flatMap escapeByte) = some bs := by
  induction bs with
  | nil => rfl
  | cons b rest ih =>
    rw [List.flatMap_cons, escapeByte_unescape b (hbs b (List.mem_cons_self _ _)),
      ih (fun x hx => hbs x (List.mem_cons_of_mem _ hx))]
    rfl

theorem queryEscape_data (v : String) :
    (QueryEscape v).data = (v.data.flatMap utf8Bytes).flatMap escapeByte := by
  unfold QueryEscape
  simp only [List.flatMap_assoc]
  rfl

theorem flatMap_utf8Bytes_lt (cs : List Char) : ∀ b ∈ cs.flatMap utf8Bytes, b < 256 := by
  intro b hb
  rw [List.mem_flatMap] at hb
  obtain ⟨c, _, hc⟩ := hb
  exact utf8Bytes_lt c b hc

/-- What `QueryEscape` does to any value: the result is a query-escaped form of it. -/
theorem queryEscape_spec (v : String) : isQueryEscapeOf v (QueryEscape v) = true := by
  unfold isQueryEscapeOf
  rw [Bool.and_eq_true, List.all_eq_true, decide_eq_true_eq, queryEscape_data]
  refine ⟨?_, escapeBytes_unescape _ (flatMap_utf8Bytes_lt _)⟩
  intro ch hch
  rw [List.mem_flatMap] at hch
  obtain ⟨b, hb, hc⟩ := hch
  have := escapeByte_safe b (flatMap_utf8Bytes_lt _ b hb) ch hc
  simpa [Bool.or_eq_true, or_assoc] using this

/-- A value of unreserved characters only is written as it is. -/
theorem queryEscape_unreserved (v : String) (h : ∀ ch ∈ v.data, isUnreserved ch = true) :
    QueryEscape v = v := by
  apply String.ext
  unfold QueryEscape
  simp only
  have : ∀ cs : List Char, (∀ ch ∈ cs, isUnreserved ch = true) → cs.flatMap escapeChar = cs := by
    intro cs
    induction cs with
    | nil => intro _; rfl
    | cons c rest ih =>
      intro hc
      rw [List.flatMap_cons, ih (fun x hx => hc x (List.mem_cons_of_mem _ hx))]
      have hu := hc c (List.mem_cons_self _ _)
      have hlt : c.toNat < 127 := by
        unfold isUnreserved at hu
        simp only [Bool.or_eq_true, decide_eq_true_eq] at hu
        rcases hu with h | h | h | h | h
        · omega
        · subst h; decide
        · subst h; decide
        · subst h; decide
        · subst h; decide
      have hs : shouldEscape c.toNat = false := by
        unfold isUnreserved at hu
        simp only [Bool.or_eq_true, decide_eq_true_eq] at hu
        unfold shouldEscape
        rcases hu with h | h | h | h | h
        · simp [h]
        · subst h; decide
        · subst h; decide
        · subst h; decide
        · subst h; decide
      have : escapeChar c = [c] := by
        unfold escapeChar utf8Bytes
        simp only [show c.toNat < 128 by omega, if_true, List.flatMap_cons, List.flatMap_nil,
          List.append_nil, escapeByte, hs, Bool.false_eq_true, if_false, Char.ofNat_toNat]
      rw [this]
      rfl
  exact this v.data h

/-- C9: for every options `g`, expression `E` and color `c`, `Sparkline(E, c)` is
`g.GraphiteUrl + "/render?"` followed by the encoding of exactly thirteen
parameters, `height=20, width=120, hideGrid=true, hideLegend=true, hideAxes=true,
bgcolor=ff000000, fgcolor=black, margin=0, colorList=c, yMin=0,
target=sumSeries(E), from, until` of the active interval, in ascending order of
the keys whatever the inputs, and every value is query-escaped: the nine fixed
values are written as they are, and what is written for `c`, for the target and
for `from` and `until` holds only unreserved characters, `%` and `+` and reads back
as the value. -/
theorem C9_sparkline_url (g : GraphOptions) (E c : String) :
    sparklineParams g E c =
      [("height", ["20"]), ("width", ["120"]), ("hideGrid", ["true"]), ("hideLegend", ["true"]),
       ("hideAxes", ["true"]), ("bgcolor", ["ff000000"]), ("fgcolor", ["black"]),
       ("margin", ["0"]), ("colorList", [c]), ("yMin", ["0"]),
       ("target", ["sumSeries(" ++ E ++ ")"]), ("from", [g.GraphInterval.GraphFrom]),
       ("until", [g.GraphInterval.GraphUntil])] ∧
    g.Sparkline E c = g.GraphiteUrl ++ "/render?" ++
      ("bgcolor=ff000000&colorList=" ++ QueryEscape c ++ "&fgcolor=black&from=" ++
       QueryEscape g.GraphInterval.GraphFrom ++
       "&height=20&hideAxes=true&hideGrid=true&hideLegend=true&margin=0&target=" ++
       QueryEscape ("sumSeries(" ++ E ++ ")") ++ "&until=" ++
       QueryEscape g.GraphInterval.GraphUntil ++ "&width=120&yMin=0") ∧
    isQueryEscapeOf c (QueryEscape c) = true ∧
    isQueryEscapeOf g.GraphInterval.GraphFrom (QueryEscape g.GraphInterval.GraphFrom) = true ∧
    isQueryEscapeOf ("sumSeries(" ++ E ++ ")") (QueryEscape ("sumSeries(" ++ E ++ ")")) = true ∧
    isQueryEscapeOf g.GraphInterval.GraphUntil (QueryEscape g.GraphInterval.GraphUntil) = true ∧
    (∀ v ∈ ["20", "120", "true", "ff000000", "black", "0"], isQueryEscapeOf v v = true) := by
  refine ⟨sparklineParams_eq g E c, ?_, queryEscape_spec _, queryEscape_spec _,
    queryEscape_spec _, queryEscape_spec _, by decide⟩
  unfold GraphOptions.Sparkline Values.Encode
  rw [sparklineParams_eq]
  simp only [Values.keys, List.map, sparkline_keys_sorted]
  simp [encodeKeys, Values.lookup, encodeValues_single, queryEscape_literals,
    String.append_assoc, string_append_eq_empty]

/-- C9, at the expression `a b&c.*` and the color `red,#00f` with the interval of
two hours: the space is written `+`, and `&`, `*`, `,`, `#` and the brackets as
percent escapes. -/
theorem C9_sparkline_url_witness :
    GraphOptions.Sparkline
        ⟨true, true, "http://graphite", false, "", [], ⟨true, "2h", "-120min", "-1min", 7200000000000⟩⟩
        "a b&c.*" "red,#00f" =
      "http://graphite/render?bgcolor=ff000000&colorList=red%2C%2300f&fgcolor=black&from=-120min&height=20&hideAxes=true&hideGrid=true&hideLegend=true&margin=0&target=sumSeries%28a+b%26c.%2A%29&until=-1min&width=120&yMin=0" :=
  (C9_sparkline_url
    ⟨true, true, "http://graphite", false, "", [], ⟨true, "2h", "-120min", "-1min", 7200000000000⟩⟩
    "a b&c.*" "red,#00f").2.1.trans (by decide!)

theorem rateQueryParams_eq (E : String) :
    rateQueryParams E =
      [("from", ["-2min"]), ("until", ["-1min"]), ("format", ["json"]),
       ("target", ["sumSeries(" ++ E ++ ")"])] := by
  simp [rateQueryParams, Values.Set]

/-- C10 as stated fails: for the expression `x` the path starts with `format=json`,
so it is not the path of the claim, which starts with `from=-2min`. -/
theorem C10_counterexample :
    rateQuery "x" = "/render?format=json&from=-2min&target=sumSeries%28x%29&until=-1min" ∧
    claimedRateQuery "x" = "/render?from=-2min&until=-1min&format=json&target=sumSeries%28x%29" ∧
    rateQuery "x" ≠ claimedRateQuery "x" ∧
    rateQuery "x" ≠ "/render?from=-2min&until=-1min&format=json&target=sumSeries(x)" := by
  decide!

/-- C10, amended: for every expression `E`, `rateQuery(E)` is the backend-relative
path `/render?format=json&from=-2min&target=sumSeries(E)&until=-1min`, the target
value query-escaped and the parameters in ascending order of the keys; it begins
with `/render?` and carries exactly the four parameters `from=-2min`,
`until=-1min`, `format=json`, `target=sumSeries(E)`. -/
theorem C10_rate_query (E : String) :
    rateQueryParams E =
      [("from", ["-2min"]), ("until", ["-1min"]), ("format", ["json"]),
       ("target", ["sumSeries(" ++ E ++ ")"])] ∧
    rateQuery E = "/render?" ++ ("format=json&from=-2min&target=" ++
      QueryEscape ("sumSeries(" ++ E ++ ")") ++ "&until=-1min") := by
  refine ⟨rateQueryParams_eq E, ?_⟩
  unfold rateQuery Values.Encode
  rw [rateQueryParams_eq]
  simp only [Values.keys, List.map, rateQuery_keys_sorted]
  simp [encodeKeys, Values.lookup, encodeValues_single, queryEscape_literals,
    String.append_assoc, string_append_eq_empty]

/-! ## The rate response -/

/-- A decimal digit is written by `json.Marshal` as it is. -/
theorem jsonEscapeChar_digit (d : Nat) (h : d < 10) :
    jsonEscapeChar (digitChar d) = [digitChar d] := by
  interval_cases d <;> decide!

/-- Whether every character of a list is written by `json.Marshal` as it is. -/
theorem flatMap_jsonEscape_id (cs : List Char) (h : ∀ c ∈ cs, jsonEscapeChar c = [c]) :
    cs.flatMap jsonEscapeChar = cs := by
  induction cs with
  | nil => rfl
  | cons c cs ih =>
    rw [List.flatMap_cons, h c (List.mem_cons_self _ _),
      ih (fun x hx => h x (List.mem_cons_of_mem _ hx))]
    rfl

theorem decimalAux_safe (fuel n : Nat) (acc : List Char)
    (hacc : ∀ c ∈ acc, jsonEscapeChar c = [c]) :
    ∀ c ∈ decimalAux fuel n acc, jsonEscapeChar c = [c] := by
  induction fuel generalizing n acc with
  | zero => exact hacc
  | succ fuel ih =>
    unfold decimalAux
    split
    · rename_i hn
      intro c hc
      rcases List.mem_cons.1 hc with rfl | hc
      · exact jsonEscapeChar_digit n hn
      · exact hacc c hc
    · apply ih
      intro c hc
      rcases List.mem_cons.1 hc with rfl | hc
      · exact jsonEscapeChar_digit _ (Nat.mod_lt _ (by decide))
      · exact hacc c hc

/-- The text of `%.2f` has no character that `json.Marshal` escapes. -/
theorem jsonQuote_formatFloat2 (x : F64) :
    jsonQuote (formatFloat2 x) = "\"" ++ formatFloat2 x ++ "\"" := by
  have hsafe : ∀ c ∈ (formatFloat2 x).data, jsonEscapeChar c = [c] := by
    intro c hc
    unfold formatFloat2 at hc
    simp only [List.mem_append, List.mem_cons, List.mem_singleton] at hc
    rcases hc with (hc | hc) | hc
    · split at hc
      · rcases List.mem_singleton.1 hc with rfl
        decide!
      · cases hc
    · exact decimalAux_safe _ _ [] (fun _ h => by cases h) c hc
    · rcases hc with rfl | rfl | rfl | hc
      · decide!
      · exact jsonEscapeChar_digit _ (Nat.mod_lt _ (by decide))
      · exact jsonEscapeChar_digit _ (Nat.mod_lt _ (by decide))
      · cases hc
  unfold jsonQuote
  rw [flatMap_jsonEscape_id _ hsafe]
  apply String.ext
  simp only [String.data_append]
  rfl

/-- The object `json.Marshal` writes for the one-field response map. -/
theorem jsonMarshal_datapoint (x : F64) :
    jsonMarshal [("datapoint", formatFloat2 x)] =
      .ok ("\x7b\"datapoint\":\"" ++ formatFloat2 x ++ "\"\x7d") := by
  have hk : sortStrings ["datapoint"] = ["datapoint"] := by decide!
  have hq : jsonQuote "datapoint" = "\"datapoint\"" := by decide!
  unfold jsonMarshal
  simp only [List.map, hk, marshalMembers, List.find?, decide_True, jsonQuote_formatFloat2, hq]
  congr 1
  apply String.ext
  simp only [String.data_append, List.append_assoc]
  rfl

/-! ## Metric kinds, colors and host keys -/

/-- C11: for every key `k`, `metricType(k)` is `"gauge"` if and only if `k` is one
of `backend_depth`, `depth`, `clients`, `in_flight_count`, and is `"counter"` for
every other key, so it never returns a third value. -/
theorem C11_metric_type (k : String) :
    (metricType k = "gauge" ↔
      (k = "backend_depth" ∨ k = "depth" ∨ k = "clients" ∨ k = "in_flight_count")) ∧
    (metricType k = "counter" ↔
      ¬(k = "backend_depth" ∨ k = "depth" ∨ k = "clients" ∨ k = "in_flight_count")) ∧
    (metricType k = "gauge" ∨ metricType k = "counter") := by
  unfold metricType
  by_cases hk : k = "backend_depth" ∨ k = "depth" ∨ k = "clients" ∨ k = "in_flight_count"
  · simp [hk]
  · simp [hk]

/-- C12: for every `Topic`, `TopicHostStats` and `ChannelStats`, options `g` and key
`k`, the color returned by `Target(g, k)` is `"red"` if and only if `k` is `depth`
or `deferred_count`, and `"blue"` otherwise; it is the same function of `k` alone
for the three entity shapes. -/
theorem C12_target_color (t : Topic) (th : TopicHostStats) (c : ChannelStats)
    (g : GraphOptions) (k : String) :
    (t.Target g k).2 = colorTag k ∧ (th.Target g k).2 = colorTag k ∧
    (c.Target g k).2 = colorTag k ∧
    (colorTag k = "red" ↔ (k = "depth" ∨ k = "deferred_count")) ∧
    (colorTag k = "blue" ↔ ¬(k = "depth" ∨ k = "deferred_count")) := by
  refine ⟨rfl, rfl, rfl, ?_, ?_⟩
  · unfold colorTag
    by_cases hk : k = "depth" ∨ k = "deferred_count" <;> simp [hk]
  · unfold colorTag
    by_cases hk : k = "depth" ∨ k = "deferred_count" <;> simp [hk]

/-- Replacing every occurrence of a one-character string is a character map. -/
theorem replaceAllChars_single (a b : Char) (s : List Char) :
    replaceAllChars [a] [b] 0 s = s.map (fun c => if c = a then b else c) := by
  induction s with
  | nil => rfl
  | cons c cs ih =>
    by_cases h : c = a
    · subst h
      simp [replaceAllChars, List.isPrefixOf, ih]
    · have h2 : ¬ a = c := fun hc => h hc.symm
      simp [replaceAllChars, List.isPrefixOf, ih, h, h2]

/-- The function `graphiteHostKey` is the character map of the specification. -/
theorem graphiteHostKey_data (h : String) :
    (graphiteHostKey h).data = h.data.map sanitizeChar := by
  have hd : ".".data = ['.'] := rfl
  have hc : ":".data = [':'] := rfl
  have hu : "_".data = ['_'] := rfl
  unfold graphiteHostKey stringsReplaceAll
  simp only [hd, hc, hu, replaceAllChars_single, List.map_map]
  apply List.map_congr_left
  intro c _
  unfold sanitizeChar
  by_cases h1 : c = '.'
  · subst h1; decide
  · by_cases h2 : c = ':'
    · subst h2; decide
    · simp [h1, h2]

/-- C13: for every string `h`, `graphiteHostKey(h)` is `h` with every `.` and every
`:` replaced by `_` and every other character unchanged; it has the length of `h`,
in characters and in UTF-8 bytes, and contains no `.` and no `:`; the host
`10.0.0.1:4151` becomes `10_0_0_1_4151`. -/
theorem C13_host_key (h : String) :
    (graphiteHostKey h).data = h.data.map (fun c => if c = '.' ∨ c = ':' then '_' else c) ∧
    (graphiteHostKey h).length = h.length ∧
    ((graphiteHostKey h).data.flatMap utf8Bytes).length = (h.data.flatMap utf8Bytes).length ∧
    '.' ∉ (graphiteHostKey h).data ∧ ':' ∉ (graphiteHostKey h).data ∧
    graphiteHostKey "10.0.0.1:4151" = "10_0_0_1_4151" := by
  have hd := graphiteHostKey_data h
  refine ⟨hd, ?_, ?_, ?_, ?_, by decide!⟩
  · simp only [String.length, hd, List.length_map]
  · rw [hd]
    induction h.data with
    | nil => rfl
    | cons c cs ih =>
      simp only [List.map_cons, List.flatMap_cons, List.length_append, ih]
      congr 1
      unfold sanitizeChar
      by_cases h1 : c = '.'
      · subst h1; decide
      · by_cases h2 : c = ':'
        · subst h2; decide
        · simp [h1, h2]
  · rw [hd]
    intro hm
    obtain ⟨c, _, hc⟩ := List.mem_map.1 hm
    unfold sanitizeChar at hc
    split at hc
    · exact absurd hc (by decide)
    · rename_i hn
      exact hn (Or.inl hc)
  · rw [hd]
    intro hm
    obtain ⟨c, _, hc⟩ := List.mem_map.1 hm
    unfold sanitizeChar at hc
    split at hc
    · exact absurd hc (by decide)
    · rename_i hn
      exact hn (Or.inr hc)

/-- C14: `graphiteHostKey` is idempotent: for every string `h`,
`graphiteHostKey(graphiteHostKey(h)) = graphiteHostKey(h)`. -/
theorem C14_host_key_idempotent (h : String) :
    graphiteHostKey (graphiteHostKey h) = graphiteHostKey h := by
  apply String.ext
  rw [graphiteHostKey_data, graphiteHostKey_data, List.map_map]
  apply List.map_congr_left
  intro c _
  simp only [Function.comp]
  unfold sanitizeChar
  by_cases h1 : c = '.' ∨ c = ':'
  · simp only [h1, if_true]; decide
  · simp only [h1, if_false]

/-- C16: for every selected string `s`, `DefaultGraphTimeframes(s)` does not reach
its fatal branch: it returns seven intervals whose `Timeframe` fields are
`1h, 2h, 12h, 24h, 48h, 168h, off` in that order, each with `Selected` true
exactly when its label equals `s`. -/
theorem C16_default_timeframes (s : String) :
    ∃ d, DefaultGraphTimeframes s = some d ∧
      d.map GraphInterval.Timeframe = ["1h", "2h", "12h", "24h", "48h", "168h", "off"] ∧
      d.map GraphInterval.Selected =
        ["1h", "2h", "12h", "24h", "48h", "168h", "off"].map (fun t => decide (t = s)) :=
  ⟨_, defaultGraphTimeframes_eq s, rfl, rfl⟩

/-! ## The interval list, zero durations and the persisted preference -/

/-- C15 as stated fails: with an explicit `t=3h` the active interval is the one of
`3h` and no entry of the interval list is selected. -/
theorem C15_counterexample :
    (NewGraphOptions ⟨"http://graphite", false, false⟩ 0 ⟨"admin", []⟩
        ⟨[("t", ["3h"])]⟩).map
      (fun oc => (oc.1.GraphInterval.Timeframe,
        (oc.1.AllGraphIntervals.filter (fun g => g.Selected)).length)) = some ("3h", 0) := by
  decide!

/-- C15, amended: for every request, the interval list of the options that
`NewGraphOptions` returns is the ordered sequence of the canonical labels
`1h, 2h, 12h, 24h, 48h, 168h, off`; when the chosen label is one of them exactly
one entry is selected, the one of that label, and when it is another label that
parses as a duration no entry is selected. -/
theorem C15_interval_list (cfg : Config) (now : Int) (req : Request) (r : ReqParams) :
    ∃ o c, NewGraphOptions cfg now req r = some (o, c) ∧
      o.AllGraphIntervals.map GraphInterval.Timeframe = canonicalLabels ∧
      (chosenLabel req r ∈ canonicalLabels →
        (o.AllGraphIntervals.filter (fun g => g.Selected)).map GraphInterval.Timeframe =
          [chosenLabel req r]) ∧
      (chosenLabel req r ∉ canonicalLabels → (∃ d, ParseDuration (chosenLabel req r) = .ok d) →
        o.AllGraphIntervals.filter (fun g => g.Selected) = []) := by
  obtain ⟨g, all, _, hall, ho⟩ := newGraphOptions_eq cfg now req r
  rw [defaultGraphTimeframes_eq] at hall
  have hall2 := (Option.some.inj hall).symm
  refine ⟨_, _, ho, ?_, ?_, ?_⟩
  · simp only [hall2]; rfl
  · generalize chosenLabel req r = L at hall2
    intro hm
    simp only [canonicalLabels, List.mem_cons, List.mem_singleton, List.not_mem_nil,
      or_false] at hm
    simp only [hall2]
    rcases hm with rfl | rfl | rfl | rfl | rfl | rfl | rfl <;> decide
  · generalize chosenLabel req r = L at hall2
    intro hm _
    simp only [canonicalLabels, List.mem_cons, List.mem_singleton, List.not_mem_nil,
      or_false, not_or] at hm
    obtain ⟨h1, h2, h3, h4, h5, h6, h7⟩ := hm
    simp only [hall2]
    simp [List.filter, Ne.symm h1, Ne.symm h2, Ne.symm h3, Ne.symm h4, Ne.symm h5, Ne.symm h6,
      Ne.symm h7]

/-- C15, amended, at an explicit `t=24h`: the one selected entry is `24h`. -/
theorem C15_interval_list_witness :
    chosenLabel ⟨"admin", []⟩ ⟨[("t", ["24h"])]⟩ ∈ canonicalLabels ∧
    ∃ o c, NewGraphOptions ⟨"http://graphite", false, false⟩ 0 ⟨"admin", []⟩
        ⟨[("t", ["24h"])]⟩ = some (o, c) ∧
      (o.AllGraphIntervals.filter (fun g => g.Selected)).map GraphInterval.Timeframe =
        ["24h"] := by
  have hm : chosenLabel ⟨"admin", []⟩ ⟨[("t", ["24h"])]⟩ ∈ canonicalLabels := by decide!
  have hl : chosenLabel ⟨"admin", []⟩ ⟨[("t", ["24h"])]⟩ = "24h" := by decide!
  obtain ⟨o, c, ho, _, h1, _⟩ := C15_interval_list ⟨"http://graphite", false, false⟩ 0
    ⟨"admin", []⟩ ⟨[("t", ["24h"])]⟩
  exact ⟨hm, o, c, ho, hl ▸ h1 hm⟩

/-- An interval resolved for a label has duration zero only if the label is `off`
or parses as the zero duration, and has duration zero if the label is `off`. -/
theorem graphInterval_zero (t : String) (b : Bool) (g : GraphInterval)
    (h : GraphIntervalForTimeframe t b = .ok g) :
    (g.Timeframe = "off" → g.Duration = 0) ∧
    (g.Duration = 0 → g.Timeframe = "off" ∨ ParseDuration g.Timeframe = .ok 0) := by
  unfold GraphIntervalForTimeframe at h
  split at h
  · rename_i hoff
    injection h with h
    rw [← h]
    exact ⟨fun _ => rfl, fun _ => Or.inl hoff⟩
  · rename_i hoff
    cases hp : ParseDuration t with
    | error e => rw [hp] at h; cases h
    | ok d =>
      rw [hp] at h
      injection h with h
      rw [← h]
      refine ⟨fun hc => absurd hc hoff, ?_⟩
      intro hz
      simp only at hz
      right
      simp only [hp, hz]

/-- C18 as stated fails: the label `0s` resolves to an interval of duration zero
whose timeframe is not `off`. -/
theorem C18_counterexample :
    GraphIntervalForTimeframe "0s" true = .ok ⟨true, "0s", "-0min", "-1min", 0⟩ ∧
    (⟨true, "0s", "-0min", "-1min", 0⟩ : GraphInterval).Duration = 0 ∧
    (⟨true, "0s", "-0min", "-1min", 0⟩ : GraphInterval).Timeframe ≠ "off" := by
  decide!

/-- C18, amended: every interval that `GraphIntervalForTimeframe` returns, for any
label and flag, has `Duration == 0` if its `Timeframe` is `off`, and if its
`Duration` is zero its `Timeframe` is `off` or a label that parses as the zero
duration; so does the active interval of every `GraphOptions`. -/
theorem C18_zero_duration (t : String) (b : Bool) (g : GraphInterval)
    (cfg : Config) (now : Int) (req : Request) (r : ReqParams)
    (h : GraphIntervalForTimeframe t b = .ok g) :
    ((g.Timeframe = "off" → g.Duration = 0) ∧
     (g.Duration = 0 → g.Timeframe = "off" ∨ ParseDuration g.Timeframe = .ok 0)) ∧
    ∃ o c, NewGraphOptions cfg now req r = some (o, c) ∧
      (o.GraphInterval.Timeframe = "off" → o.GraphInterval.Duration = 0) ∧
      (o.GraphInterval.Duration = 0 →
        o.GraphInterval.Timeframe = "off" ∨ ParseDuration o.GraphInterval.Timeframe = .ok 0) := by
  refine ⟨graphInterval_zero t b g h, ?_⟩
  obtain ⟨g1, all, hg, _, ho⟩ := newGraphOptions_eq cfg now req r
  refine ⟨_, _, ho, ?_⟩
  rw [resolveInterval_eq] at hg
  have hg2 := (Option.some.inj hg).symm
  cases hr : GraphIntervalForTimeframe (chosenLabel req r) true with
  | ok g2 =>
    rw [hr] at hg2
    simp only at hg2
    subst hg2
    exact graphInterval_zero _ _ _ hr
  | error e =>
    rw [hr] at hg2
    simp only at hg2
    subst hg2
    exact graphInterval_zero "2h" true _ (graphInterval_2h true)

/-- C18, amended, at the label `off` and at a request with an explicit `t=off`. -/
theorem C18_zero_duration_witness :
    GraphIntervalForTimeframe "off" false = .ok ⟨false, "off", "", "", 0⟩ ∧
    ((⟨false, "off", "", "", 0⟩ : GraphInterval).Timeframe = "off" →
      (⟨false, "off", "", "", 0⟩ : GraphInterval).Duration = 0) :=
  ⟨graphInterval_off false,
   (C18_zero_duration "off" false ⟨false, "off", "", "", 0⟩ ⟨"http://graphite", false, false⟩ 0
      ⟨"admin", []⟩ ⟨[("t", ["off"])]⟩ (graphInterval_off false)).1.1⟩

/-- A cookie named `t` is always written, with its value sanitized. -/
theorem setCookie_t (v host : String) (e : Int) :
    ∃ line, SetCookie ⟨"t", v, "/", host, e, true⟩ = some line ∧
      line.Name = "t" ∧ line.Value = sanitizeCookieValue v false := by
  have hn : isCookieNameValid "t" = true := by decide
  unfold SetCookie
  simp only [hn, Bool.not_true, Bool.false_eq_true, if_false]
  exact ⟨_, rfl, rfl, rfl⟩

/-- A canonical label passes `sanitizeCookieValue` unchanged. -/
theorem sanitizeCookieValue_canonical (v : String) (h : v ∈ canonicalLabels) :
    sanitizeCookieValue v false = v := by
  simp only [canonicalLabels, List.mem_cons, List.mem_singleton, List.not_mem_nil,
    or_false] at h
  rcases h with rfl | rfl | rfl | rfl | rfl | rfl | rfl <;> decide

/-- The line the code adds to the response: none when no `t` is supplied, and
the line of `http.SetCookie` for the supplied value otherwise. -/
theorem selectTimeframe_snd (now : Int) (req : Request) (r : ReqParams) :
    (selectTimeframe now req r).2 =
      match r.Get "t" with
      | (v, false) =>
        SetCookie { Name := "t", Value := v, Path := "/", Domain := req.Host,
                    Expires := now + 720 * (Hour : Int), HttpOnly := true }
      | (_, true) => none := by
  unfold selectTimeframe ReqParams.Get
  cases h : Values.lookup r.Values "t" with
  | none => cases hc : req.Cookie "t" <;> simp
  | some vs =>
    cases vs with
    | nil => cases hc : req.Cookie "t" <;> simp
    | cons v rest => simp

/-- C19 as stated fails: with an explicit `t=foo` the cookie written holds `foo`,
which is not a canonical label. -/
theorem C19_counterexample :
    (NewGraphOptions ⟨"http://graphite", false, false⟩ 0 ⟨"admin", []⟩
        ⟨[("t", ["foo"])]⟩).map (fun oc => oc.2.map SetCookieLine.Value) = some (some "foo") ∧
    "foo" ∉ canonicalLabels := by
  decide!

/-- C19, amended: for every request, `NewGraphOptions` adds no `Set-Cookie` line when
no `t` was supplied explicitly (the timeframe came from the existing cookie or the
default); when a `t` was supplied it adds a line for the cookie `t`, and the value
that line persists is one of the canonical labels whenever the supplied value is
one: it is then that value. -/
theorem C19_persisted_preference (cfg : Config) (now : Int) (req : Request) (r : ReqParams) :
    ∃ o w, NewGraphOptions cfg now req r = some (o, w) ∧
      ((r.Get "t").2 = true → w = none) ∧
      ((r.Get "t").2 = false → ∃ line, w = some line ∧ line.Name = "t" ∧
        ((r.Get "t").1 ∈ canonicalLabels →
          line.Value = (r.Get "t").1 ∧ line.Value ∈ canonicalLabels)) := by
  obtain ⟨g, all, _, _, ho⟩ := newGraphOptions_eq cfg now req r
  rw [selectTimeframe_snd] at ho
  refine ⟨_, _, ho, ?_, ?_⟩
  · intro h
    rcases hget : r.Get "t" with ⟨v, b⟩
    rw [hget] at h
    simp only at h
    subst h
    rfl
  · intro h
    rcases hget : r.Get "t" with ⟨v, b⟩
    rw [hget] at h
    simp only at h
    subst h
    obtain ⟨line, hl, hn, hv⟩ := setCookie_t v req.Host (now + 720 * (Hour : Int))
    refine ⟨line, hl, hn, ?_⟩
    intro hc
    rw [hv, sanitizeCookieValue_canonical v hc]
    exact ⟨rfl, hc⟩

/-- C19, amended, at an explicit `t=off` and at a request without `t`: the line
written holds `off`, and nothing is written. -/
theorem C19_persisted_preference_witness :
    (ReqParams.Get ⟨[("t", ["off"])]⟩ "t").2 = false ∧
    (ReqParams.Get ⟨[("t", ["off"])]⟩ "t").1 ∈ canonicalLabels ∧
    (ReqParams.Get ⟨[]⟩ "t").2 = true ∧
    (∃ o line, NewGraphOptions ⟨"http://graphite", false, false⟩ 0 ⟨"admin", []⟩
        ⟨[("t", ["off"])]⟩ = some (o, some line) ∧ line.Value = "off") ∧
    (∃ o, NewGraphOptions ⟨"http://graphite", false, false⟩ 0 ⟨"admin", [("t", "1h")]⟩
        ⟨[]⟩ = some (o, none)) := by
  have h1 : (ReqParams.Get ⟨[("t", ["off"])]⟩ "t").2 = false := by decide
  have h2 : (ReqParams.Get ⟨[("t", ["off"])]⟩ "t").1 ∈ canonicalLabels := by decide
  have h3 : (ReqParams.Get ⟨[]⟩ "t").2 = true := by decide
  have h4 : (ReqParams.Get ⟨[("t", ["off"])]⟩ "t").1 = "off" := by decide
  refine ⟨h1, h2, h3, ?_, ?_⟩
  · obtain ⟨o, w, ho, _, hs⟩ := C19_persisted_preference ⟨"http://graphite", false, false⟩ 0
      ⟨"admin", []⟩ ⟨[("t", ["off"])]⟩
    obtain ⟨line, hw, _, hv⟩ := hs h1
    subst hw
    exact ⟨o, line, ho, h4 ▸ (hv h2).1⟩
  · obtain ⟨o, w, ho, hn, _⟩ := C19_persisted_preference ⟨"http://graphite", false, false⟩ 0
      ⟨"admin", [("t", "1h")]⟩ ⟨[]⟩
    have hw := hn h3
    subst hw
    exact ⟨o, ho⟩

/-! ## The float64 minutes of a duration -/

theorem bitLen_zero (f : Nat) : bitLen f 0 = 0 := by
  cases f <;> simp [bitLen]

theorem bitLen_lt (f n : Nat) (h : n ≤ f) : n < 2 ^ bitLen f n := by
  induction f generalizing n with
  | zero =>
    have : n = 0 := Nat.le_zero.1 h
    subst this
    simp [bitLen]
  | succ f ih =>
    unfold bitLen
    split
    · rename_i h0; subst h0; simp
    · rename_i h0
      have h1 : n / 2 ≤ f := by omega
      have h2 := ih (n / 2) h1
      rw [Nat.pow_succ]
      omega

theorem bitLen_le (f n : Nat) (h : n ≤ f) (hn : 0 < n) : 2 ^ (bitLen f n - 1) ≤ n := by
  induction f generalizing n with
  | zero => omega
  | succ f ih =>
    unfold bitLen
    rw [if_neg (Nat.pos_iff_ne_zero.1 hn)]
    simp only [Nat.add_sub_cancel]
    by_cases h2 : n / 2 = 0
    · rw [h2, bitLen_zero]
      simpa using hn
    · have h1 : n / 2 ≤ f := by omega
      have h3 := ih (n / 2) h1 (Nat.pos_of_ne_zero h2)
      have h4 : 0 < bitLen f (n / 2) := by
        cases f with
        | zero => omega
        | succ f => unfold bitLen; rw [if_neg h2]; omega
      have h5 : bitLen f (n / 2) = (bitLen f (n / 2) - 1) + 1 := by omega
      rw [h5, Nat.pow_succ]
      omega

/-- The integer logarithm of the quotient is below every power that bounds it. -/
theorem ilog2_le (p q j : Nat) (hp : 0 < p) (h : p < 2 ^ j * q) :
    ilog2 p q ≤ (j : Int) - 1 := by
  have hbp := bitLen_le p p (Nat.le_refl _) hp
  have hbq := bitLen_lt q q (Nat.le_refl _)
  have hb : bitLen p p ≤ bitLen q q + j := by
    by_contra hc
    have h1 : bitLen q q + j ≤ bitLen p p - 1 := by omega
    have h2 : 2 ^ (bitLen q q + j) ≤ 2 ^ (bitLen p p - 1) := Nat.pow_le_pow_right (by decide) h1
    have h3 : 2 ^ j * q < 2 ^ j * 2 ^ bitLen q q :=
      (Nat.mul_lt_mul_left (Nat.two_pow_pos j)).2 hbq
    rw [Nat.pow_add, Nat.mul_comm (2 ^ bitLen q q)] at h2
    omega
  unfold ilog2
  simp only
  split
  · rename_i hl
    split
    · rename_i hc
      have h1 : q * 2 ^ ((bitLen p p : Int) - (bitLen q q : Int)).toNat < 2 ^ j * q :=
        Nat.lt_of_le_of_lt hc h
      rw [Nat.mul_comm] at h1
      have h2 := Nat.lt_of_mul_lt_mul_right h1
      have h3 := (Nat.pow_lt_pow_iff_right (by decide : 1 < 2)).1 h2
      omega
    · omega
  · omega

/-- Rounding half to even stays within one half of the quotient, and is the
quotient itself when the division is exact. -/
theorem roundHalfEven_bounds (num den : Nat) (hden : 0 < den) :
    2 * (roundHalfEven num den * den) ≤ 2 * num + den ∧
    2 * num ≤ 2 * (roundHalfEven num den * den) + den ∧
    (num % den = 0 → roundHalfEven num den * den = num) := by
  have h1 := Nat.div_add_mod num den
  have h2 := Nat.mod_lt num hden
  have h3 : num / den * den = den * (num / den) := Nat.mul_comm _ _
  unfold roundHalfEven
  simp only
  split
  · rename_i hc
    rw [Nat.add_mul, Nat.one_mul]
    refine ⟨by omega, by omega, ?_⟩
    intro h0
    rw [h0] at hc
    omega
  · rename_i hc
    refine ⟨by omega, by omega, ?_⟩
    intro h0
    omega

theorem F64.round_neg (b : Bool) (p q : Nat) : (F64.round b p q).neg = b := by
  unfold F64.round
  split
  · rfl
  · simp only
    split <;> split <;> rfl

theorem F64.den_pos (x : F64) : 0 < x.den := by
  unfold F64.den
  split
  · decide
  · exact Nat.two_pow_pos _

/-- The rounded value of a quotient below `2^j`, `j ≤ 52`, is `m / 2^k` for some
`k ≥ 53 - j` and an `m` within one half of the scaled quotient. -/
theorem F64.round_spec (b : Bool) (p q j : Nat) (hp : 0 < p) (hq : 0 < q) (hj : j ≤ 52)
    (h : p < 2 ^ j * q) :
    ∃ k m, 53 - j ≤ k ∧ (F64.round b p q).num * 2 ^ k = m * (F64.round b p q).den ∧
      2 * (m * q) ≤ 2 * (p * 2 ^ k) + q ∧ 2 * (p * 2 ^ k) ≤ 2 * (m * q) + q ∧
      ((p * 2 ^ k) % q = 0 → m * q = p * 2 ^ k) := by
  have hl := ilog2_le p q j hp h
  have he : max (ilog2 p q - 52) (-1074) < 0 := by omega
  have he2 : -1074 ≤ max (ilog2 p q - 52) (-1074) := le_max_right _ _
  have he3 : max (ilog2 p q - 52) (-1074) ≤ (j : Int) - 53 := by omega
  generalize hee : max (ilog2 p q - 52) (-1074) = e at he he2 he3
  have hb := roundHalfEven_bounds (p * 2 ^ (-e).toNat) q hq
  refine ⟨(-e).toNat, roundHalfEven (p * 2 ^ (-e).toNat) q, by omega, ?_, hb.1, hb.2.1, hb.2.2⟩
  unfold F64.round
  rw [if_neg (Nat.pos_iff_ne_zero.1 hp)]
  simp only [hee, if_neg (not_le.2 he)]
  split
  · rename_i hm
    rw [hm]
    unfold F64.num F64.den
    simp only
    by_cases h1 : 0 ≤ e + 1
    · have h2 : e = -1 := by omega
      subst h2
      simp
    · rw [if_neg h1, if_neg h1]
      have h3 : (-e).toNat = (-(e + 1)).toNat + 1 := by omega
      rw [h3, Nat.pow_succ, Nat.pow_succ]
      ring
  · unfold F64.num F64.den
    simp only [if_neg (not_le.2 he)]

/-- The conversion of an integer below `2^52` in magnitude is exact. -/
theorem F64.ofInt_exact (i : Int) (h : i.natAbs < 2 ^ 52) :
    (F64.ofInt i).num = i.natAbs * (F64.ofInt i).den := by
  unfold F64.ofInt
  by_cases h0 : i.natAbs = 0
  · rw [h0]
    simp [F64.round, F64.num]
  · obtain ⟨k, m, _, h1, _, _, h2⟩ := F64.round_spec (decide (i < 0)) i.natAbs 1 52
      (Nat.pos_of_ne_zero h0) (by decide) (Nat.le_refl _) (by omega)
    have h3 := h2 (Nat.mod_one _)
    rw [Nat.mul_one] at h3
    rw [h3] at h1
    have h4 : (F64.round (decide (i < 0)) i.natAbs 1).num * 2 ^ k =
        i.natAbs * (F64.round (decide (i < 0)) i.natAbs 1).den * 2 ^ k := by
      rw [h1]; ring
    exact Nat.eq_of_mul_eq_mul_right (Nat.two_pow_pos k) h4

/-- The float64 quotient of a number of nanoseconds below one minute by the
nanoseconds of a minute stays below `1 - 2^-36`. -/
theorem div_minute_lt (i : Int) (h : i.natAbs < 60000000000) :
    (F64.div (F64.ofInt i) (F64.ofInt (60 * 1000000000))).num * 2 ^ 36 +
        (F64.div (F64.ofInt i) (F64.ofInt (60 * 1000000000))).den <
      (F64.div (F64.ofInt i) (F64.ofInt (60 * 1000000000))).den * 2 ^ 36 := by
  have hx1 := F64.ofInt_exact i (by omega)
  have hx2 := F64.ofInt_exact (60 * 1000000000) (by decide)
  have hM : (60 * 1000000000 : Int).natAbs = 60000000000 := by decide
  rw [hM] at hx2
  have hd1 := F64.den_pos (F64.ofInt i)
  have hd2 := F64.den_pos (F64.ofInt (60 * 1000000000))
  unfold F64.div
  rw [hx1, hx2]
  generalize (F64.ofInt i).den = X1 at hd1
  generalize (F64.ofInt (60 * 1000000000)).den = X2 at hd2
  generalize ((F64.ofInt i).neg != (F64.ofInt (60 * 1000000000)).neg) = b
  generalize hns : i.natAbs = ns at h
  by_cases h0 : ns = 0
  · subst h0
    have hn : (F64.round b (0 * X1 * X2) (X1 * (60000000000 * X2))).num = 0 := by
      simp [F64.round, F64.num]
    have hY := F64.den_pos (F64.round b (0 * X1 * X2) (X1 * (60000000000 * X2)))
    rw [hn]
    omega
  · have hc : 0 < X1 * X2 := Nat.mul_pos hd1 hd2
    have hp : 0 < ns * X1 * X2 := Nat.mul_pos (Nat.mul_pos (Nat.pos_of_ne_zero h0) hd1) hd2
    have hq : 0 < X1 * (60000000000 * X2) := Nat.mul_pos hd1 (Nat.mul_pos (by decide) hd2)
    have hlt : ns * X1 * X2 < 2 ^ 0 * (X1 * (60000000000 * X2)) := by
      have : ns * (X1 * X2) < 60000000000 * (X1 * X2) := (Nat.mul_lt_mul_right hc).2 h
      calc ns * X1 * X2 = ns * (X1 * X2) := by ring
        _ < 60000000000 * (X1 * X2) := this
        _ = 2 ^ 0 * (X1 * (60000000000 * X2)) := by ring
    obtain ⟨k, m, hk, h1, h2, _, _⟩ :=
      F64.round_spec b (ns * X1 * X2) (X1 * (60000000000 * X2)) 0 hp hq (by decide) hlt
    generalize (F64.round b (ns * X1 * X2) (X1 * (60000000000 * X2))).num = a at h1
    generalize hY : (F64.round b (ns * X1 * X2) (X1 * (60000000000 * X2))).den = Y at h1
    have hYpos : 0 < Y := hY ▸ F64.den_pos _
    have hK : 2 ^ 53 ≤ 2 ^ k := Nat.pow_le_pow_right (by decide) (by omega)
    generalize 2 ^ k = K at h1 h2 hK
    have h3 : (X1 * X2) * (2 * (m * 60000000000)) ≤ (X1 * X2) * (2 * (ns * K) + 60000000000) := by
      calc (X1 * X2) * (2 * (m * 60000000000)) = 2 * (m * (X1 * (60000000000 * X2))) := by ring
        _ ≤ 2 * (ns * X1 * X2 * K) + X1 * (60000000000 * X2) := h2
        _ = (X1 * X2) * (2 * (ns * K) + 60000000000) := by ring
    have h4 := Nat.le_of_mul_le_mul_left h3 hc
    have h5 : ns * K ≤ 59999999999 * K := Nat.mul_le_mul_right K (by omega)
    have h6 : m * 2 ^ 36 + K < K * 2 ^ 36 := by
      norm_num at hK ⊢
      omega
    have h7 : (a * 2 ^ 36 + Y) * K < (Y * 2 ^ 36) * K := by
      calc (a * 2 ^ 36 + Y) * K = (a * K) * 2 ^ 36 + Y * K := by ring
        _ = Y * (m * 2 ^ 36 + K) := by rw [h1]; ring
        _ < Y * (K * 2 ^ 36) := (Nat.mul_lt_mul_left hYpos).2 h6
        _ = (Y * 2 ^ 36) * K := by ring
    exact Nat.lt_of_mul_lt_mul_right h7

theorem floor_arith (mn m K X Y a : Nat) (hX : 0 < X) (hY : 0 < Y) (hK : 2 ^ 35 ≤ K)
    (h1 : 2 * (m * (X * Y)) ≤ 2 * ((mn * X * Y + a * X) * K) + X * Y)
    (h2 : 2 * ((mn * X * Y + a * X) * K) ≤ 2 * (m * (X * Y)) + X * Y)
    (h4 : a * 2 ^ 36 + Y < Y * 2 ^ 36) : mn * K ≤ m ∧ m < (mn + 1) * K := by
  have h1a : X * (2 * (m * Y)) ≤ X * (2 * ((mn * Y + a) * K) + Y) := by
    calc X * (2 * (m * Y)) = 2 * (m * (X * Y)) := by ring
      _ ≤ 2 * ((mn * X * Y + a * X) * K) + X * Y := h1
      _ = X * (2 * ((mn * Y + a) * K) + Y) := by ring
  have h1b := Nat.le_of_mul_le_mul_left h1a hX
  have h2a : X * (2 * ((mn * Y + a) * K)) ≤ X * (2 * (m * Y) + Y) := by
    calc X * (2 * ((mn * Y + a) * K)) = 2 * ((mn * X * Y + a * X) * K) := by ring
      _ ≤ 2 * (m * (X * Y)) + X * Y := h2
      _ = X * (2 * (m * Y) + Y) := by ring
  have h2b := Nat.le_of_mul_le_mul_left h2a hX
  have haY : a ≤ Y := by omega
  obtain ⟨t, rfl⟩ := Nat.exists_eq_add_of_le haY
  norm_num at hK h4
  constructor
  · by_contra hc
    have hc1 : m + 1 ≤ mn * K := by omega
    have hc2 := Nat.mul_le_mul_right (a + t) hc1
    nlinarith
  · by_contra hc
    have hc1 : (mn + 1) * K ≤ m := by omega
    have hc2 := Nat.mul_le_mul_right (a + t) hc1
    have hc3 := Nat.mul_le_mul_right t hK
    nlinarith

/-- The sum of an exact whole number below `2^18` and a fraction below
`1 - 2^-36`, of the same sign, truncates to the whole number. -/
theorem add_toInt (x y : F64) (sg : Bool) (mn : Nat) (hmn : mn < 262144)
    (hx : x.num = mn * x.den) (hxs : x.neg = sg ∨ x.num = 0) (hys : y.neg = sg ∨ y.num = 0)
    (hy : y.num * 2 ^ 36 + y.den < y.den * 2 ^ 36) :
    (F64.add x y).toInt = if sg then -(mn : Int) else (mn : Int) := by
  have hX := F64.den_pos x
  have hY := F64.den_pos y
  have hsx : x.snum = if sg then -(x.num : Int) else (x.num : Int) := by
    unfold F64.snum
    rcases hxs with h | h
    · rw [h]
    · rw [h]; simp
  have hsy : y.snum = if sg then -(y.num : Int) else (y.num : Int) := by
    unfold F64.snum
    rcases hys with h | h
    · rw [h]
    · rw [h]; simp
  have hn : x.snum * (y.den : Int) + y.snum * (x.den : Int) =
      if sg then -((x.num * y.den + y.num * x.den : Nat) : Int)
      else ((x.num * y.den + y.num * x.den : Nat) : Int) := by
    rw [hsx, hsy]
    cases sg
    · simp
    · simp
      ring
  unfold F64.add
  simp only [hn]
  by_cases hP : x.num * y.den + y.num * x.den = 0
  · have hx0 : x.num * y.den = 0 := by omega
    have hx1 : x.num = 0 := by
      rcases Nat.mul_eq_zero.1 hx0 with h | h
      · exact h
      · omega
    have hmn0 : mn = 0 := by
      rw [hx1] at hx
      rcases Nat.mul_eq_zero.1 hx.symm with h | h
      · exact h
      · omega
    subst hmn0
    have hz : (if sg then -((x.num * y.den + y.num * x.den : Nat) : Int)
        else ((x.num * y.den + y.num * x.den : Nat) : Int)) = 0 := by
      rw [hP]; cases sg <;> rfl
    rw [if_pos hz]
    have ht : (⟨x.neg && y.neg, 0, -1074⟩ : F64).toInt = 0 := by
      have h0 : (⟨x.neg && y.neg, 0, -1074⟩ : F64).num = 0 := by simp [F64.num]
      unfold F64.toInt
      rw [h0, Nat.zero_div]
      cases (x.neg && y.neg) <;> rfl
    rw [ht]
    cases sg <;> rfl
  · have hPpos : 0 < x.num * y.den + y.num * x.den := Nat.pos_of_ne_zero hP
    have hne : (if sg then -((x.num * y.den + y.num * x.den : Nat) : Int)
        else ((x.num * y.den + y.num * x.den : Nat) : Int)) ≠ 0 := by
      cases sg <;> simp <;> omega
    have hlt : decide ((if sg then -((x.num * y.den + y.num * x.den : Nat) : Int)
        else ((x.num * y.den + y.num * x.den : Nat) : Int)) < 0) = sg := by
      cases sg <;> simp <;> omega
    have hab : (if sg then -((x.num * y.den + y.num * x.den : Nat) : Int)
        else ((x.num * y.den + y.num * x.den : Nat) : Int)).natAbs =
        x.num * y.den + y.num * x.den := by
      cases sg
      · simp only [Bool.false_eq_true, if_false, Int.natAbs_ofNat]
      · simp only [if_true, Int.natAbs_neg, Int.natAbs_ofNat]
    rw [if_neg hne, hlt, hab]
    have hyl : y.num < y.den := by omega
    have hbound : x.num * y.den + y.num * x.den < 2 ^ 18 * (x.den * y.den) := by
      rw [hx]
      have h1 : y.num * x.den < y.den * x.den := (Nat.mul_lt_mul_right hX).2 hyl
      have h2 : (mn + 1) * (x.den * y.den) ≤ 2 ^ 18 * (x.den * y.den) :=
        Nat.mul_le_mul_right _ (by norm_num; omega)
      nlinarith
    obtain ⟨k, m, hk, h1, h2, h3, _⟩ := F64.round_spec sg (x.num * y.den + y.num * x.den)
      (x.den * y.den) 18 hPpos (Nat.mul_pos hX hY) (by decide) hbound
    have hK : 2 ^ 35 ≤ 2 ^ k := Nat.pow_le_pow_right (by decide) (by omega)
    have hZ := F64.den_pos (F64.round sg (x.num * y.den + y.num * x.den) (x.den * y.den))
    have hng := F64.round_neg sg (x.num * y.den + y.num * x.den) (x.den * y.den)
    generalize F64.round sg (x.num * y.den + y.num * x.den) (x.den * y.den) = z at h1 hZ hng
    rw [hx] at h2 h3
    have hfa := floor_arith mn m (2 ^ k) x.den y.den y.num hX hY hK
      (by rw [show mn * x.den * y.den + y.num * x.den = mn * x.den * y.den + y.num * x.den
            from rfl]; exact h2) h3 hy
    have hlow : mn * z.den ≤ z.num := by
      have : (mn * z.den) * 2 ^ k ≤ z.num * 2 ^ k := by
        rw [h1]
        calc (mn * z.den) * 2 ^ k = (mn * 2 ^ k) * z.den := by ring
          _ ≤ m * z.den := Nat.mul_le_mul_right _ hfa.1
      exact Nat.le_of_mul_le_mul_right this (Nat.two_pow_pos k)
    have hupp : z.num < (mn + 1) * z.den := by
      have : z.num * 2 ^ k < ((mn + 1) * z.den) * 2 ^ k := by
        rw [h1]
        calc m * z.den < ((mn + 1) * 2 ^ k) * z.den := (Nat.mul_lt_mul_right hZ).2 hfa.2
          _ = ((mn + 1) * z.den) * 2 ^ k := by ring
      exact Nat.lt_of_mul_lt_mul_right this
    have hdiv : z.num / z.den = mn := Nat.div_eq_of_lt_le hlow hupp
    unfold F64.toInt
    rw [hng, hdiv]

theorem F64.ofInt_neg (i : Int) : (F64.ofInt i).neg = decide (i < 0) :=
  F64.round_neg _ _ _

theorem F64.ofInt_zero_num : (F64.ofInt 0).num = 0 := by
  simp [F64.ofInt, F64.round, F64.num]

/-- For a duration below 262144 minutes in magnitude, the float64 minutes of
`Duration.Minutes` truncate to the whole minutes of the duration. -/
theorem minutes_toInt (d : Int) (h : d.natAbs < 262144 * 60000000000) :
    (Duration.Minutes d).toInt = Int.tdiv d (Minute : Int) := by
  have hM : (Minute : Int) = 60000000000 := by decide
  unfold Duration.Minutes
  simp only [hM]
  obtain ⟨a, sg, hd⟩ : ∃ (a : Nat) (sg : Bool), d = if sg then -(a : Int) else (a : Int) := by
    rcases Int.natAbs_eq d with h1 | h1
    · exact ⟨d.natAbs, false, by simpa using h1⟩
    · exact ⟨d.natAbs, true, by simpa using h1⟩
  have ha : a < 262144 * 60000000000 := by
    subst hd
    cases sg
    · simpa using h
    · simpa using h
  have hdiv : Int.tdiv d 60000000000 =
      if sg then -((a / 60000000000 : Nat) : Int) else ((a / 60000000000 : Nat) : Int) := by
    subst hd
    cases sg
    · exact (Int.ofNat_tdiv a 60000000000).symm
    · simp only [if_true, Int.neg_tdiv]
      congr 1
  have hmod : Int.tmod d 60000000000 =
      if sg then -((a % 60000000000 : Nat) : Int) else ((a % 60000000000 : Nat) : Int) := by
    have h1 : Int.tmod (a : Int) 60000000000 = ((a % 60000000000 : Nat) : Int) :=
      (Int.ofNat_tmod a 60000000000).symm
    subst hd
    cases sg
    · exact h1
    · simp only [if_true]
      rw [Int.tmod_def, Int.neg_tdiv, ← h1, Int.tmod_def]
      ring
  have hmn : a / 60000000000 < 262144 := Nat.div_lt_of_lt_mul (by omega)
  have hns : a % 60000000000 < 60000000000 := Nat.mod_lt _ (by decide)
  rw [hdiv, hmod]
  have habs1 : (if sg then -((a / 60000000000 : Nat) : Int)
      else ((a / 60000000000 : Nat) : Int)).natAbs = a / 60000000000 := by
    cases sg
    · simp only [Bool.false_eq_true, if_false, Int.natAbs_ofNat]
    · simp only [if_true, Int.natAbs_neg, Int.natAbs_ofNat]
  have habs2 : (if sg then -((a % 60000000000 : Nat) : Int)
      else ((a % 60000000000 : Nat) : Int)).natAbs = a % 60000000000 := by
    cases sg
    · simp only [Bool.false_eq_true, if_false, Int.natAbs_ofNat]
    · simp only [if_true, Int.natAbs_neg, Int.natAbs_ofNat]
  apply add_toInt _ _ sg (a / 60000000000) hmn
  · have := F64.ofInt_exact (if sg then -((a / 60000000000 : Nat) : Int)
      else ((a / 60000000000 : Nat) : Int)) (by rw [habs1]; omega)
    rw [habs1] at this
    exact this
  · by_cases h0 : a / 60000000000 = 0
    · right
      rw [h0]
      cases sg <;> exact F64.ofInt_zero_num
    · left
      rw [F64.ofInt_neg]
      cases sg
      · simp only [Bool.false_eq_true, if_false, decide_eq_false_iff_not, not_lt]
        omega
      · simp only [if_true, decide_eq_true_eq]
        omega
  · by_cases h0 : a % 60000000000 = 0
    · right
      rw [h0]
      have hz : (if sg then -((0 : Nat) : Int) else ((0 : Nat) : Int)) = 0 := by
        cases sg <;> rfl
      rw [hz]
      unfold F64.div
      rw [F64.ofInt_zero_num, Nat.zero_mul]
      simp [F64.round, F64.num]
    · left
      unfold F64.div
      rw [F64.round_neg, F64.ofInt_neg, F64.ofInt_neg]
      have h1 : decide ((60 * 1000000000 : Int) < 0) = false := by decide
      rw [h1]
      cases sg
      · have h2 : decide ((if false = true then -((a % 60000000000 : Nat) : Int)
            else ((a % 60000000000 : Nat) : Int)) < 0) = false := by
          simp only [Bool.false_eq_true, if_false, decide_eq_false_iff_not, not_lt]
          omega
        rw [h2]
        rfl
      · have h2 : decide ((if true = true then -((a % 60000000000 : Nat) : Int)
            else ((a % 60000000000 : Nat) : Int)) < 0) = true := by
          simp only [if_true, decide_eq_true_eq]
          omega
        rw [h2]
        rfl
  · exact div_minute_lt _ (by rw [habs2]; exact hns)

/-- C17 as stated fails: the label `-90s` parses and gives `GraphFrom = "--1min"`,
where the floor of its minutes gives `--2min`; and the label
`262144m59.999999999s` gives `-262145min`, its float64 minutes being rounded up to
the next whole minute, where the floor gives `-262144min`. -/
theorem C17_counterexample :
    ParseDuration "-90s" = .ok (-90000000000) ∧
    GraphIntervalForTimeframe "-90s" true =
      .ok ⟨true, "-90s", "--1min", "-1min", -90000000000⟩ ∧
    claimedGraphFrom (-90000000000) = "--2min" ∧
    ParseDuration "262144m59.999999999s" = .ok 15728699999999999 ∧
    GraphIntervalForTimeframe "262144m59.999999999s" true =
      .ok ⟨true, "262144m59.999999999s", "-262145min", "-1min", 15728699999999999⟩ ∧
    claimedGraphFrom 15728699999999999 = "-262144min" := by
  decide!

/-- C17, amended: for every label `t` other than `off` that parses as a duration
`d`, `GraphIntervalForTimeframe(t, s)` returns `GraphUntil = "-1min"` and
`GraphFrom` the text `-`, `int(d.Minutes())`, `min`; when `d` is below 262144
minutes in magnitude that integer is `d / Minute` truncated toward zero, and when
moreover `d` is not negative `GraphFrom` is `-`, the floor of `d` in minutes,
`min`. -/
theorem C17_graph_from (t : String) (s : Bool) (d : Int)
    (ht : t ≠ "off") (hp : ParseDuration t = .ok d) :
    GraphIntervalForTimeframe t s =
      .ok ⟨s, t, "-" ++ formatInt (Duration.Minutes d).toInt ++ "min", "-1min", d⟩ ∧
    (d.natAbs < 262144 * 60000000000 →
      (Duration.Minutes d).toInt = Int.tdiv d (Minute : Int)) ∧
    (0 ≤ d → d < 262144 * 60000000000 →
      GraphIntervalForTimeframe t s = .ok ⟨s, t, claimedGraphFrom d, "-1min", d⟩) := by
  have h1 : GraphIntervalForTimeframe t s =
      .ok ⟨s, t, "-" ++ formatInt (Duration.Minutes d).toInt ++ "min", "-1min", d⟩ := by
    unfold GraphIntervalForTimeframe
    rw [if_neg ht, hp]
    rfl
  refine ⟨h1, minutes_toInt d, ?_⟩
  intro h0 hlt
  have h2 := minutes_toInt d (by omega)
  have hM : (0 : Int) ≤ (Minute : Int) := by decide
  rw [h1, h2]
  unfold claimedGraphFrom
  rw [Int.fdiv_eq_tdiv h0 hM]

/-- C17, amended, at the label `90s`: one whole minute, from `-1min` until `-1min`. -/
theorem C17_graph_from_witness :
    "90s" ≠ "off" ∧ ParseDuration "90s" = .ok 90000000000 ∧
    (0 : Int) ≤ 90000000000 ∧ (90000000000 : Int) < 262144 * 60000000000 ∧
    claimedGraphFrom 90000000000 = "-1min" ∧
    GraphIntervalForTimeframe "90s" true =
      .ok ⟨true, "90s", claimedGraphFrom 90000000000, "-1min", 90000000000⟩ :=
  ⟨by decide, by decide!, by decide, by decide, by decide!,
   (C17_graph_from "90s" true 90000000000 (by decide) (by decide!)).2.2 (by decide) (by decide)⟩

/-! ## The range of float64 values -/

theorem bitLen_pos (n : Nat) (hn : 0 < n) : 0 < bitLen n n := by
  have := bitLen_lt n n (Nat.le_refl _)
  by_contra hc
  have h0 : bitLen n n = 0 := by omega
  rw [h0] at this
  simp at this
  omega

/-- The quotient `p / q` is below `2 ^ (ilog2 p q + 1)`. -/
theorem ilog2_lt (p q a b : Nat) (hq : 0 < q)
    (h : ilog2 p q + 1 ≤ (a : Int) - (b : Int)) : p * 2 ^ b < q * 2 ^ a := by
  have h1 := bitLen_lt p p (Nat.le_refl _)
  have h2 := bitLen_le q q (Nat.le_refl _) hq
  have h3 := bitLen_pos q hq
  generalize hlp : bitLen p p = lp at *
  generalize hlq : bitLen q q = lq at *
  obtain ⟨k, rfl⟩ : ∃ k, lq = k + 1 := ⟨lq - 1, by omega⟩
  simp only [Nat.add_sub_cancel] at h2
  unfold ilog2 at h
  simp only [hlp, hlq] at h
  split at h
  · rename_i hl
    -- lp ≥ k + 1
    obtain ⟨l, rfl⟩ : ∃ l, lp = k + 1 + l := ⟨lp - (k + 1), by omega⟩
    have hlt : (((k + 1 + l : Nat) : Int) - ((k + 1 : Nat) : Int)).toNat = l := by omega
    rw [hlt] at h
    split at h
    · -- ilog2 = l
      have ha : l + 1 + b ≤ a := by omega
      have : p < q * 2 ^ (l + 1) := by
        calc p < 2 ^ (k + 1 + l) := h1
          _ = 2 ^ k * 2 ^ (l + 1) := by rw [← Nat.pow_add]; congr 1; omega
          _ ≤ q * 2 ^ (l + 1) := Nat.mul_le_mul_right _ h2
      calc p * 2 ^ b < q * 2 ^ (l + 1) * 2 ^ b := Nat.mul_lt_mul_of_pos_right this (Nat.two_pow_pos b)
        _ = q * 2 ^ (l + 1 + b) := by rw [Nat.mul_assoc, ← Nat.pow_add]
        _ ≤ q * 2 ^ a := Nat.mul_le_mul_left _ (Nat.pow_le_pow_right (by decide) ha)
    · rename_i hc
      have ha : l + b ≤ a := by omega
      have : p < q * 2 ^ l := by omega
      calc p * 2 ^ b < q * 2 ^ l * 2 ^ b := Nat.mul_lt_mul_of_pos_right this (Nat.two_pow_pos b)
        _ = q * 2 ^ (l + b) := by rw [Nat.mul_assoc, ← Nat.pow_add]
        _ ≤ q * 2 ^ a := Nat.mul_le_mul_left _ (Nat.pow_le_pow_right (by decide) ha)
  · rename_i hl
    obtain ⟨l, hl2⟩ : ∃ l, k + 1 = lp + l := ⟨k + 1 - lp, by omega⟩
    have hlt : (-(((lp : Nat) : Int) - ((k + 1 : Nat) : Int))).toNat = l := by omega
    rw [hlt] at h
    have hp2 : p * 2 ^ l < 2 * q := by
      calc p * 2 ^ l < 2 ^ lp * 2 ^ l := Nat.mul_lt_mul_of_pos_right h1 (Nat.two_pow_pos l)
        _ = 2 ^ (k + 1) := by rw [← Nat.pow_add, hl2]
        _ = 2 * 2 ^ k := by rw [Nat.pow_succ, Nat.mul_comm]
        _ ≤ 2 * q := Nat.mul_le_mul_left _ h2
    split at h
    · -- ilog2 = lp - (k+1) = -l ; a - b ≥ -l + 1
      have ha : b + 1 ≤ a + l := by omega
      have h5 : p * 2 ^ (b + 1) < q * 2 ^ (a + 1) := by
        calc p * 2 ^ (b + 1) ≤ p * 2 ^ (a + l) :=
              Nat.mul_le_mul_left _ (Nat.pow_le_pow_right (by decide) ha)
          _ = p * 2 ^ l * 2 ^ a := by rw [Nat.mul_assoc, ← Nat.pow_add, Nat.add_comm]
          _ < 2 * q * 2 ^ a := Nat.mul_lt_mul_of_pos_right hp2 (Nat.two_pow_pos a)
          _ = q * 2 ^ (a + 1) := by rw [Nat.pow_succ]; ring
      rw [Nat.pow_succ, Nat.pow_succ, ← Nat.mul_assoc, ← Nat.mul_assoc] at h5
      omega
    · rename_i hc
      have ha : b ≤ a + l := by omega
      have hc2 : p * 2 ^ l < q := by omega
      calc p * 2 ^ b ≤ p * 2 ^ (a + l) :=
            Nat.mul_le_mul_left _ (Nat.pow_le_pow_right (by decide) ha)
        _ = p * 2 ^ l * 2 ^ a := by rw [Nat.mul_assoc, ← Nat.pow_add, Nat.add_comm]
        _ < q * 2 ^ a := Nat.mul_lt_mul_of_pos_right hc2 (Nat.two_pow_pos a)

/-- The significand of a rounded value has at most 53 bits. -/
theorem F64.round_mant_lt (b : Bool) (p q : Nat) (hq : 0 < q) :
    (F64.round b p q).mant < 2 ^ 53 := by
  unfold F64.round
  split
  · exact Nat.two_pow_pos 53
  · rename_i hp0
    have hp : 0 < p := Nat.pos_of_ne_zero hp0
    have he1 : ilog2 p q - 52 ≤ max (ilog2 p q - 52) (-1074) := le_max_left _ _
    generalize max (ilog2 p q - 52) (-1074) = e at he1
    simp only
    have key : (if 0 ≤ e then roundHalfEven p (q * 2 ^ e.toNat)
        else roundHalfEven (p * 2 ^ (-e).toNat) q) ≤ 2 ^ 53 := by
      split
      · rename_i he
        have hQ : 0 < q * 2 ^ e.toNat := Nat.mul_pos hq (Nat.two_pow_pos _)
        have hb := (roundHalfEven_bounds p (q * 2 ^ e.toNat) hQ).1
        have hlt := ilog2_lt p q (e.toNat + 53) 0 hq (by omega)
        rw [Nat.pow_zero, Nat.mul_one, Nat.pow_add, ← Nat.mul_assoc] at hlt
        generalize q * 2 ^ e.toNat = Q at *
        generalize roundHalfEven p Q = m at *
        by_contra hc
        have hm : 2 ^ 53 + 1 ≤ m := by omega
        have := Nat.mul_le_mul_right Q hm
        omega
      · rename_i he
        have hb := (roundHalfEven_bounds (p * 2 ^ (-e).toNat) q hq).1
        have hlt := ilog2_lt p q 53 (-e).toNat hq (by omega)
        generalize p * 2 ^ (-e).toNat = P at *
        generalize roundHalfEven P q = m at *
        by_contra hc
        have hm : 2 ^ 53 + 1 ≤ m := by omega
        have := Nat.mul_le_mul_right q hm
        omega
    generalize (if 0 ≤ e then roundHalfEven p (q * 2 ^ e.toNat)
        else roundHalfEven (p * 2 ^ (-e).toNat) q) = m at key
    split
    · simp only
      exact Nat.pow_lt_pow_right (by decide) (by decide)
    · rename_i hm
      simp only
      omega

/-- The exponent of a rounded quotient below `2 ^ j`. -/
theorem F64.round_exp_le (b : Bool) (p q j : Nat) (h : p < 2 ^ j * q) :
    (F64.round b p q).exp ≤ max ((j : Int) - 53) (-1074) + 1 := by
  unfold F64.round
  split
  · simp only
    have := le_max_right ((j : Int) - 53) (-1074)
    omega
  · rename_i hp0
    have hp : 0 < p := Nat.pos_of_ne_zero hp0
    have hl := ilog2_le p q j hp h
    have he : max (ilog2 p q - 52) (-1074) ≤ max ((j : Int) - 53) (-1074) :=
      max_le_max (by omega) (le_refl _)
    simp only
    split <;> split <;>
      first
      | (show max (ilog2 p q - 52) (-1074) + 1 ≤ _; omega)
      | (show max (ilog2 p q - 52) (-1074) ≤ _; omega)

set_option exponentiation.threshold 1100 in
/-- A value within the range is below `2 ^ 1024`. -/
theorem F64.num_lt (x : F64) (hm : x.mant < 2 ^ 53) (he : x.exp ≤ 971) :
    x.num < 2 ^ 1024 * x.den := by
  unfold F64.num F64.den
  split
  · rename_i h0
    rw [Nat.mul_one]
    have h1 : x.exp.toNat ≤ 971 := by omega
    calc x.mant * 2 ^ x.exp.toNat < 2 ^ 53 * 2 ^ x.exp.toNat :=
          Nat.mul_lt_mul_of_pos_right hm (Nat.two_pow_pos _)
      _ = 2 ^ (53 + x.exp.toNat) := (Nat.pow_add 2 53 x.exp.toNat).symm
      _ ≤ 2 ^ 1024 := Nat.pow_le_pow_right (by decide) (by omega)
  · have h1 : 0 < 2 ^ (-x.exp).toNat := Nat.two_pow_pos _
    calc x.mant < 2 ^ 53 := hm
      _ ≤ 2 ^ 1024 := Nat.pow_le_pow_right (by decide) (by decide)
      _ ≤ 2 ^ 1024 * 2 ^ (-x.exp).toNat := Nat.le_mul_of_pos_right _ h1

theorem F64.ofInt_sixty : F64.ofInt 60 = ⟨false, 8444249301319680, -47⟩ := by decide!

/-- A value within the range divided by 60 is within the range. -/
theorem F64.div_sixty (x : F64) (hm : x.mant < 2 ^ 53) (he : x.exp ≤ 971) :
    (F64.div x (F64.ofInt 60)).overflows = false := by
  have hn := F64.num_lt x hm he
  have hd := F64.den_pos x
  have h60n : (F64.ofInt 60).num = 8444249301319680 := by rw [F64.ofInt_sixty]; rfl
  have h60d : (F64.ofInt 60).den = 140737488355328 := by rw [F64.ofInt_sixty]; decide
  have hlt : x.num * (F64.ofInt 60).den < 2 ^ 1019 * (x.den * (F64.ofInt 60).num) := by
    rw [h60n, h60d]
    have e1 : (2 : Nat) ^ 1024 = 2 ^ 1019 * 32 := by rw [show (32 : Nat) = 2 ^ 5 by decide, ← Nat.pow_add]
    rw [e1] at hn
    generalize (2 : Nat) ^ 1019 = K at *
    have hK : x.num < K * (32 * x.den) := by rw [← Nat.mul_assoc]; exact hn
    generalize x.num = n at *
    generalize x.den = d at *
    have h1 : n * 140737488355328 < K * (32 * d) * 140737488355328 :=
      Nat.mul_lt_mul_of_pos_right hK (by decide)
    have h2 : K * (32 * d) * 140737488355328 ≤ K * (d * 8444249301319680) := by
      rw [Nat.mul_assoc]
      apply Nat.mul_le_mul_left
      omega
    omega
  have := F64.round_exp_le (x.neg != (F64.ofInt 60).neg) _ _ 1019 hlt
  unfold F64.div
  unfold F64.overflows
  simp only [decide_eq_false_iff_not, not_lt]
  have h3 : max (((1019 : Nat) : Int) - 53) (-1074) = 966 := by decide
  rw [h3] at this
  omega

theorem roundDecimal_finite (neg : Bool) (mant : Nat) (e10 : Int) (x : F64)
    (h : roundDecimal neg mant e10 = (.finite x, false)) : x.mant < 2 ^ 53 ∧ x.exp ≤ 971 := by
  have key : ∀ y : F64, y.mant < 2 ^ 53 →
      (if y.overflows then (Float64.inf neg, true) else (Float64.finite y, false)) =
        (Float64.finite x, false) → x.mant < 2 ^ 53 ∧ x.exp ≤ 971 := by
    intro y hy hyx
    by_cases ho : y.overflows = true
    · rw [if_pos ho] at hyx
      cases hyx
    · rw [if_neg ho] at hyx
      simp only [Prod.mk.injEq, Float64.finite.injEq, and_true] at hyx
      subst hyx
      refine ⟨hy, ?_⟩
      unfold F64.overflows at ho
      simpa using ho
  refine key _ ?_ h
  split
  · exact F64.round_mant_lt _ _ _ (by decide)
  · exact F64.round_mant_lt _ _ _ (Nat.pos_pow_of_pos _ (by decide))

theorem ParseFloat_finite (lit : String) (x : F64) (h : ParseFloat lit = (.finite x, false)) :
    x.mant < 2 ^ 53 ∧ x.exp ≤ 971 := by
  unfold ParseFloat at h
  simp only at h
  split at h
  · cases h
  · split at h
    · cases h
    · split at h
      · exact roundDecimal_finite _ _ _ _ h
      · cases h

/-! ## The decoder and the grammar of JSON -/

theorem isSpace_iff (c : Char) :
    isSpace c = true ↔ (c = ' ' ∨ c = '\t' ∨ c = '\n' ∨ c = '\r') := by
  simp [isSpace, or_assoc]

theorem dropWs_eq_skipSpace (s : List Char) : dropWs s = skipSpace s := by
  induction s with
  | nil => rfl
  | cons c cs ih =>
    rw [dropWs, skipSpace]
    by_cases h : isSpace c = true
    · rw [if_pos ((isSpace_iff c).1 h), if_pos h, ih]
    · rw [if_neg (fun hc => h ((isSpace_iff c).2 hc)), if_neg h]

theorem isDigit_iff (c : Char) : isDigit c = true ↔ (48 ≤ c.toNat ∧ c.toNat ≤ 57) := by
  simp [isDigit]

theorem spanDigits_snd (s : List Char) : (spanDigits s).2 = dropDigits s := by
  induction s with
  | nil => rfl
  | cons c cs ih =>
    rw [spanDigits, dropDigits]
    by_cases h : isDigit c = true
    · rw [if_pos h, if_pos ((isDigit_iff c).1 h), ih]
    · rw [if_neg h, if_neg (fun hc => h ((isDigit_iff c).2 hc))]

theorem spanDigits_end (s : List Char) :
    (if (spanDigits s).1 = [] then none else some (spanDigits s).2) = digitsEnd s := by
  cases s with
  | nil => rfl
  | cons c cs =>
    rw [spanDigits, digitsEnd]
    by_cases h : isDigit c = true
    · rw [if_pos h, if_pos ((isDigit_iff c).1 h), if_neg (by simp), spanDigits_snd]
    · rw [if_neg h, if_neg (fun hc => h ((isDigit_iff c).2 hc)), if_pos rfl]

theorem scanExpDigits_end (mark s : List Char) :
    (scanExpDigits mark s).map Prod.snd = digitsEnd s := by
  rw [← spanDigits_end, scanExpDigits]
  by_cases h : (spanDigits s).1 = []
  · rw [if_pos h, if_pos h]; rfl
  · rw [if_neg h, if_neg h]; rfl

theorem scanInt_end (s : List Char) : (scanInt s).map Prod.snd = intEnd s := by
  cases s with
  | nil => rfl
  | cons c cs =>
    rw [scanInt, intEnd]
    by_cases h0 : c = '0'
    · rw [if_pos h0, if_pos h0]; rfl
    · rw [if_neg h0, if_neg h0, digitsEnd]
      by_cases h : isDigit c = true
      · rw [if_pos h, if_pos ((isDigit_iff c).1 h), spanDigits_snd]; rfl
      · rw [if_neg h, if_neg (fun hc => h ((isDigit_iff c).2 hc))]; rfl

theorem scanFrac_end (s : List Char) : (scanFrac s).map Prod.snd = fracEnd s := by
  cases s with
  | nil => rfl
  | cons c cs =>
    rw [scanFrac, fracEnd]
    by_cases h0 : c = '.'
    · rw [if_pos h0, if_pos h0, ← spanDigits_end]
      by_cases h : (spanDigits cs).1 = []
      · rw [if_pos h, if_pos h]; rfl
      · rw [if_neg h, if_neg h]; rfl
    · rw [if_neg h0, if_neg h0]; rfl

theorem scanExp_end (s : List Char) : (scanExp s).map Prod.snd = expEnd s := by
  cases s with
  | nil => rfl
  | cons c cs =>
    rw [scanExp.eq_def, expEnd.eq_def]
    simp only
    by_cases h0 : c = 'e' ∨ c = 'E'
    · rw [if_pos h0, if_pos h0]
      cases cs with
      | nil => rfl
      | cons g t =>
        by_cases hg : g = '+' ∨ g = '-'
        · simp only [if_pos hg, scanExpDigits_end]
        · simp only [if_neg hg, scanExpDigits_end]
    · rw [if_neg h0, if_neg h0]; rfl

theorem scanSign_snd (s : List Char) : (scanSign s).2 = minusEnd s := by
  cases s with
  | nil => rfl
  | cons c cs =>
    rw [scanSign, minusEnd]
    by_cases h : c = '-'
    · rw [if_pos h, if_pos h]
    · rw [if_neg h, if_neg h]

/-- The scanner delimits a number where the grammar ends it. -/
theorem scanNumber_end (s : List Char) : (scanNumber s).map Prod.snd = numberEnd s := by
  rw [scanNumber, numberEnd, scanSign_snd, ← scanInt_end]
  cases scanInt (minusEnd s) with
  | none => rfl
  | some p =>
    obtain ⟨i, s1⟩ := p
    simp only [Option.map_some']
    rw [← scanFrac_end]
    cases scanFrac s1 with
    | none => rfl
    | some p2 =>
      obtain ⟨f, s2⟩ := p2
      simp only [Option.map_some']
      rw [← scanExp_end]
      cases scanExp s2 with
      | none => rfl
      | some p3 => rfl

theorem scanLiteral_end (w s : List Char) :
    scanLiteral w s = if w.isPrefixOf s then some (s.drop w.length) else none := by
  induction w generalizing s with
  | nil => simp [scanLiteral]
  | cons l ls ih =>
    cases s with
    | nil => simp [scanLiteral]
    | cons c cs =>
      rw [scanLiteral]
      by_cases h : c = l
      · subst h
        rw [if_pos rfl, ih]
        simp [List.isPrefixOf]
      · rw [if_neg h]
        have : ¬ l = c := fun hc => h hc.symm
        simp [List.isPrefixOf, this]


theorem hexVal_isSome (c : Char) : (hexVal c).isSome = isHexDigit c := by
  unfold hexVal isHexDigit
  simp only
  by_cases h1 : 48 ≤ c.toNat ∧ c.toNat ≤ 57
  · simp [h1]
  · by_cases h2 : 97 ≤ c.toNat ∧ c.toNat ≤ 102
    · simp [h1, h2]
    · by_cases h3 : 65 ≤ c.toNat ∧ c.toNat ≤ 70
      · simp [h1, h2, h3]
      · simp [h1, h2, h3]

theorem hexVal_none (c : Char) (h : isHexDigit c = false) : hexVal c = none := by
  have := hexVal_isSome c
  rw [h] at this
  cases hv : hexVal c with
  | none => rfl
  | some v => rw [hv] at this; cases this

theorem hexVal_some (c : Char) (h : isHexDigit c = true) : ∃ v, hexVal c = some v := by
  have := hexVal_isSome c
  rw [h] at this
  cases hv : hexVal c with
  | none => rw [hv] at this; cases this
  | some v => exact ⟨v, rfl⟩

/-- What `getu4` leaves: the text after four hexadecimal digits. -/
theorem getu4_end (s : List Char) :
    (getu4 s).map Prod.snd =
      match s with
      | h1 :: h2 :: h3 :: h4 :: rest =>
        if isHexDigit h1 ∧ isHexDigit h2 ∧ isHexDigit h3 ∧ isHexDigit h4 then some rest else none
      | _ => none := by
  match s with
  | [] => rfl
  | [_] => rfl
  | [_, _] => rfl
  | [_, _, _] => rfl
  | h1 :: h2 :: h3 :: h4 :: rest =>
    rw [getu4]
    simp only
    cases e1 : isHexDigit h1 with
    | false => simp [hexVal_none h1 e1]
    | true =>
      obtain ⟨v1, hv1⟩ := hexVal_some h1 e1
      cases e2 : isHexDigit h2 with
      | false => simp [hv1, hexVal_none h2 e2]
      | true =>
        obtain ⟨v2, hv2⟩ := hexVal_some h2 e2
        cases e3 : isHexDigit h3 with
        | false => simp [hv1, hv2, hexVal_none h3 e3]
        | true =>
          obtain ⟨v3, hv3⟩ := hexVal_some h3 e3
          cases e4 : isHexDigit h4 with
          | false => simp [hv1, hv2, hv3, hexVal_none h4 e4]
          | true =>
            obtain ⟨v4, hv4⟩ := hexVal_some h4 e4
            simp [hv1, hv2, hv3, hv4]

theorem getu4_length (s : List Char) (v : Nat) (r : List Char) (h : getu4 s = some (v, r)) :
    r.length + 4 = s.length := by
  have := getu4_end s
  rw [h] at this
  match s, this with
  | [], this => cases this
  | [_], this => cases this
  | [_, _], this => cases this
  | [_, _, _], this => cases this
  | h1 :: h2 :: h3 :: h4 :: rest, this =>
    simp only [Option.map_some'] at this
    split at this
    · simp only [Option.some.injEq] at this
      subst this
      simp
    · cases this

theorem stringEnd_u (s : List Char) :
    stringEnd ('\\' :: 'u' :: s) =
      match (getu4 s).map Prod.snd with
      | none => none
      | some rest => stringEnd rest := by
  rw [getu4_end, stringEnd.eq_def]
  simp only [show ¬ ('\\' = '"') by decide, if_false, if_true]
  match s with
  | [] => rfl
  | [_] => rfl
  | [_, _] => rfl
  | [_, _, _] => rfl
  | h1 :: h2 :: h3 :: h4 :: rest =>
    simp only
    split <;> rfl

theorem stringEnd_esc (e : Char) (rest : List Char) (hu : e ≠ 'u') :
    stringEnd ('\\' :: e :: rest) =
      if e = '"' ∨ e = '\\' ∨ e = '/' ∨ e = 'b' ∨ e = 'f' ∨ e = 'n' ∨ e = 'r' ∨ e = 't'
      then stringEnd rest else none := by
  rw [stringEnd.eq_def]
  simp only [show ¬ ('\\' = '"') by decide, if_false, if_true, hu]

theorem stringEnd_plain (c : Char) (cs : List Char) (h1 : c ≠ '"') (h2 : c ≠ '\\') :
    stringEnd (c :: cs) = if c.toNat < 32 then none else stringEnd cs := by
  rw [stringEnd.eq_def]
  simp only [h1, h2, if_false]

/-- The scanner ends a string where the grammar ends it. -/
theorem parseStringBody_end (fuel : Nat) :
    ∀ (s acc : List Char), s.length ≤ fuel →
      (parseStringBody fuel s acc).map Prod.snd = stringEnd s := by
  induction fuel with
  | zero =>
    intro s acc h
    cases s with
    | nil => rfl
    | cons c cs => simp at h
  | succ fuel ih =>
    intro s acc h
    cases s with
    | nil => rfl
    | cons c cs =>
      simp only [List.length_cons, Nat.add_le_add_iff_right] at h
      rw [parseStringBody.eq_def]
      simp only
      by_cases hq : c = '"'
      · subst hq
        rw [stringEnd.eq_def]
        simp
      · by_cases hb : c = '\\'
        · subst hb
          simp only [hq, if_false, if_true]
          cases cs with
          | nil => simp [stringEnd]
          | cons e rest =>
            simp only [List.length_cons] at h
            have hr : rest.length ≤ fuel := by omega
            simp only
            by_cases h1 : e = '"'
            · subst h1; simp only [if_true]; rw [ih _ _ hr, stringEnd_esc _ _ (by decide)]; simp
            · by_cases h2 : e = '\\'
              · subst h2; simp only [h1, if_false, if_true]; rw [ih _ _ hr, stringEnd_esc _ _ (by decide)]; simp
              · by_cases h3 : e = '/'
                · subst h3; simp only [h1, h2, if_false, if_true]; rw [ih _ _ hr, stringEnd_esc _ _ (by decide)]; simp
                · by_cases h4 : e = 'b'
                  · subst h4; simp only [h1, h2, h3, if_false, if_true]; rw [ih _ _ hr, stringEnd_esc _ _ (by decide)]; simp
                  · by_cases h5 : e = 'f'
                    · subst h5; simp only [h1, h2, h3, h4, if_false, if_true]; rw [ih _ _ hr, stringEnd_esc _ _ (by decide)]; simp
                    · by_cases h6 : e = 'n'
                      · subst h6; simp only [h1, h2, h3, h4, h5, if_false, if_true]; rw [ih _ _ hr, stringEnd_esc _ _ (by decide)]; simp
                      · by_cases h7 : e = 'r'
                        · subst h7; simp only [h1, h2, h3, h4, h5, h6, if_false, if_true]; rw [ih _ _ hr, stringEnd_esc _ _ (by decide)]; simp
                        · by_cases h8 : e = 't'
                          · subst h8; simp only [h1, h2, h3, h4, h5, h6, h7, if_false, if_true]; rw [ih _ _ hr, stringEnd_esc _ _ (by decide)]; simp
                          · simp only [h1, h2, h3, h4, h5, h6, h7, h8, if_false]
                            by_cases h9 : e = 'u'
                            · subst h9
                              simp only [if_true]
                              rw [stringEnd_u]
                              cases hg : getu4 rest with
                              | none => rfl
                              | some p =>
                                obtain ⟨r1, rest1⟩ := p
                                have hl1 := getu4_length _ _ _ hg
                                have hr1 : rest1.length ≤ fuel := by omega
                                simp only [Option.map_some']
                                by_cases hs : 55296 ≤ r1 ∧ r1 < 57344
                                · simp only [hs, and_self, if_true]
                                  split
                                  · rename_i rest2
                                    cases hg2 : getu4 rest2 with
                                    | none => simp only; exact ih _ _ hr1
                                    | some p2 =>
                                      obtain ⟨r2, rest3⟩ := p2
                                      have hl2 := getu4_length _ _ _ hg2
                                      simp only
                                      split
                                      · rw [ih _ _ (by simp only [List.length_cons] at hr1; omega),
                                          stringEnd_u, hg2]
                                        rfl
                                      · exact ih _ _ hr1
                                  · exact ih _ _ hr1
                                · simp only [hs, if_false]
                                  exact ih _ _ hr1
                            · simp only [h9, if_false]
                              rw [stringEnd_esc _ _ h9]
                              simp [h1, h2, h3, h4, h5, h6, h7, h8]
        · simp only [hq, hb, if_false]
          rw [stringEnd_plain _ _ hq hb]
          by_cases hc : c.toNat < 32
          · simp [hc]
          · simp only [hc, if_false]
            exact ih _ _ h


theorem parseValue_zero (depth : Nat) (s : List Char) : parseValue 0 depth s = none := by
  rw [parseValue]

theorem nameEnd_true (rest : List Char) :
    nameEnd ('t' :: rest) = scanLiteral ['r', 'u', 'e'] rest := by
  rw [scanLiteral_end]
  unfold nameEnd
  by_cases h : List.isPrefixOf ['r', 'u', 'e'] rest = true
  · simp [List.isPrefixOf, h]
  · simp [List.isPrefixOf, h]

theorem nameEnd_false (rest : List Char) :
    nameEnd ('f' :: rest) = scanLiteral ['a', 'l', 's', 'e'] rest := by
  rw [scanLiteral_end]
  unfold nameEnd
  by_cases h : List.isPrefixOf ['a', 'l', 's', 'e'] rest = true
  · simp [List.isPrefixOf, h]
  · simp [List.isPrefixOf, h]

theorem nameEnd_null (rest : List Char) :
    nameEnd ('n' :: rest) = scanLiteral ['u', 'l', 'l'] rest := by
  rw [scanLiteral_end]
  unfold nameEnd
  by_cases h : List.isPrefixOf ['u', 'l', 'l'] rest = true
  · simp [List.isPrefixOf, h]
  · simp [List.isPrefixOf, h]

/-- The decoder reads a value, the elements of an array and the members of an
object exactly where the grammar of JSON ends them, up to the nesting limit. -/
theorem parse_end (fuel : Nat) : ∀ (depth : Nat) (s : List Char),
    (parseValue fuel depth s).map Prod.snd = valueEnd maxNestingDepth fuel depth s ∧
    (∀ acc, (parseElements fuel depth s acc).map Prod.snd =
      elementsEnd maxNestingDepth fuel depth s) ∧
    (∀ acc, (parseMembers fuel depth s acc).map Prod.snd =
      membersEnd maxNestingDepth fuel depth s) := by
  induction fuel with
  | zero =>
    intro depth s
    refine ⟨?_, ?_, ?_⟩
    · rw [parseValue, valueEnd]; rfl
    · intro acc; rw [parseElements, elementsEnd]; rfl
    · intro acc; rw [parseMembers, membersEnd]; rfl
  | succ fuel ih =>
    intro depth s
    refine ⟨?_, ?_, ?_⟩
    · rw [parseValue, valueEnd, dropWs_eq_skipSpace]
      cases skipSpace s with
      | nil => rfl
      | cons c rest =>
        simp only
        by_cases hq : c = '"'
        · subst hq
          simp only [if_true, show ¬ ('"' = '[') by decide, show ¬ ('"' = '\x7b') by decide, if_false]
          rw [← parseStringBody_end rest.length rest [] (Nat.le_refl _)]
          cases parseStringBody rest.length rest [] with
          | none => rfl
          | some p => rfl
        · by_cases ha : c = '['
          · subst ha
            simp only [hq, if_false, if_true, dropWs_eq_skipSpace]
            by_cases hd : maxNestingDepth < depth + 1
            · rw [if_pos hd, if_pos (by omega)]; rfl
            · rw [if_neg hd, if_neg (by omega)]
              cases skipSpace rest with
              | nil => rfl
              | cons c1 rest1 =>
                simp only
                by_cases hc1 : c1 = ']'
                · rw [if_pos hc1, if_pos hc1]; rfl
                · rw [if_neg hc1, if_neg hc1, ← (ih (depth + 1) (c1 :: rest1)).2.1 []]
                  cases parseElements fuel (depth + 1) (c1 :: rest1) [] with
                  | none => rfl
                  | some p => rfl
          · by_cases ho : c = '\x7b'
            · subst ho
              simp only [hq, ha, if_false, if_true, dropWs_eq_skipSpace]
              by_cases hd : maxNestingDepth < depth + 1
              · rw [if_pos hd, if_pos (by omega)]; rfl
              · rw [if_neg hd, if_neg (by omega)]
                cases skipSpace rest with
                | nil => rfl
                | cons c1 rest1 =>
                  simp only
                  by_cases hc1 : c1 = '\x7d'
                  · rw [if_pos hc1, if_pos hc1]; rfl
                  · rw [if_neg hc1, if_neg hc1, ← (ih (depth + 1) (c1 :: rest1)).2.2 []]
                    cases parseMembers fuel (depth + 1) (c1 :: rest1) [] with
                    | none => rfl
                    | some p => rfl
            · simp only [hq, ha, ho, if_false]
              by_cases ht : c = 't'
              · subst ht
                rw [if_pos rfl, if_pos (Or.inl rfl), nameEnd_true]
                cases scanLiteral ['r', 'u', 'e'] rest <;> rfl
              · by_cases hf : c = 'f'
                · subst hf
                  rw [if_neg ht, if_pos rfl, if_pos (Or.inr (Or.inl rfl)), nameEnd_false]
                  cases scanLiteral ['a', 'l', 's', 'e'] rest <;> rfl
                · by_cases hn : c = 'n'
                  · subst hn
                    rw [if_neg ht, if_neg hf, if_pos rfl, if_pos (Or.inr (Or.inr rfl)),
                      nameEnd_null]
                    cases scanLiteral ['u', 'l', 'l'] rest <;> rfl
                  · rw [if_neg ht, if_neg hf, if_neg hn,
                      if_neg (fun h => h.elim ht (fun h => h.elim hf hn)), ← scanNumber_end]
                    cases scanNumber (c :: rest) with
                    | none => rfl
                    | some p => rfl
    · intro acc
      rw [parseElements, elementsEnd, ← (ih depth s).1]
      cases parseValue fuel depth s with
      | none => rfl
      | some p =>
        obtain ⟨x, rest⟩ := p
        simp only [Option.map_some', dropWs_eq_skipSpace]
        cases skipSpace rest with
        | nil => rfl
        | cons c rest1 =>
          simp only
          by_cases hc : c = ','
          · rw [if_pos hc, if_pos hc]
            exact (ih depth rest1).2.1 _
          · rw [if_neg hc, if_neg hc]
            by_cases hb : c = ']'
            · rw [if_pos hb, if_pos hb]; rfl
            · rw [if_neg hb, if_neg hb]; rfl
    · intro acc
      rw [parseMembers, membersEnd, dropWs_eq_skipSpace]
      cases skipSpace s with
      | nil => rfl
      | cons q rest =>
        simp only
        by_cases hq : q = '"'
        · rw [if_pos hq, if_pos hq, ← parseStringBody_end rest.length rest [] (Nat.le_refl _)]
          cases parseStringBody rest.length rest [] with
          | none => rfl
          | some p =>
            obtain ⟨k, rest1⟩ := p
            simp only [Option.map_some', dropWs_eq_skipSpace]
            cases skipSpace rest1 with
            | nil => rfl
            | cons c rest2 =>
              simp only
              by_cases hc : c = ':'
              · rw [if_pos hc, if_pos hc, ← (ih depth rest2).1]
                cases parseValue fuel depth rest2 with
                | none => rfl
                | some p3 =>
                  obtain ⟨x, rest3⟩ := p3
                  simp only [Option.map_some', dropWs_eq_skipSpace]
                  cases skipSpace rest3 with
                  | nil => rfl
                  | cons d rest4 =>
                    simp only
                    by_cases hd : d = ','
                    · rw [if_pos hd, if_pos hd]
                      exact (ih depth rest4).2.2 _
                    · rw [if_neg hd, if_neg hd]
                      by_cases he : d = '\x7d'
                      · rw [if_pos he, if_pos he]; rfl
                      · rw [if_neg he, if_neg he]; rfl
              · rw [if_neg hc, if_neg hc]; rfl
        · rw [if_neg hq, if_neg hq]; rfl

/-! ## The fuel of the grammar -/

theorem dropWs_length (s : List Char) : (dropWs s).length ≤ s.length := by
  induction s with
  | nil => exact Nat.le_refl _
  | cons c cs ih =>
    rw [dropWs]
    split
    · simp only [List.length_cons]; omega
    · exact Nat.le_refl _

theorem dropWs_cons_length (s rest : List Char) (c : Char) (h : dropWs s = c :: rest) :
    rest.length + 1 ≤ s.length := by
  have := dropWs_length s
  rw [h] at this
  exact this

theorem stringEnd_length (n : Nat) : ∀ (s r : List Char), s.length ≤ n →
    stringEnd s = some r → r.length < s.length := by
  induction n with
  | zero =>
    intro s r hl h
    cases s with
    | nil => rw [stringEnd] at h; cases h
    | cons c cs => simp at hl
  | succ n ih =>
    intro s r hl h
    cases s with
    | nil => rw [stringEnd] at h; cases h
    | cons c cs =>
      simp only [List.length_cons, Nat.add_le_add_iff_right] at hl
      by_cases hq : c = '"'
      · subst hq
        rw [stringEnd.eq_def] at h
        simp only [if_true, Option.some.injEq] at h
        subst h
        simp
      · by_cases hb : c = '\\'
        · subst hb
          cases cs with
          | nil => rw [stringEnd.eq_def] at h; simp at h
          | cons e rest =>
            simp only [List.length_cons] at hl ⊢
            by_cases hu : e = 'u'
            · subst hu
              rw [stringEnd_u, getu4_end] at h
              match rest, h with
              | [], h => cases h
              | [_], h => cases h
              | [_, _], h => cases h
              | [_, _, _], h => cases h
              | h1 :: h2 :: h3 :: h4 :: rest1, h =>
                simp only at h
                by_cases hx : isHexDigit h1 = true ∧ isHexDigit h2 = true ∧
                    isHexDigit h3 = true ∧ isHexDigit h4 = true
                · rw [if_pos hx] at h
                  simp only [List.length_cons] at hl ⊢
                  have := ih rest1 r (by omega) h
                  omega
                · rw [if_neg hx] at h
                  cases h
            · rw [stringEnd_esc _ _ hu] at h
              split at h
              · have := ih rest r (by omega) h
                omega
              · cases h
        · rw [stringEnd_plain _ _ hq hb] at h
          split at h
          · cases h
          · have := ih cs r hl h
            simp only [List.length_cons]
            omega

theorem dropDigits_length (s : List Char) : (dropDigits s).length ≤ s.length := by
  induction s with
  | nil => exact Nat.le_refl _
  | cons c cs ih =>
    rw [dropDigits]
    split
    · simp only [List.length_cons]; omega
    · exact Nat.le_refl _

theorem digitsEnd_length (s r : List Char) (h : digitsEnd s = some r) :
    r.length < s.length := by
  cases s with
  | nil => cases h
  | cons c cs =>
    rw [digitsEnd] at h
    split at h
    · simp only [Option.some.injEq] at h
      subst h
      have := dropDigits_length cs
      simp only [List.length_cons]
      omega
    · cases h

theorem minusEnd_length (s : List Char) : (minusEnd s).length ≤ s.length := by
  cases s with
  | nil => exact Nat.le_refl _
  | cons c cs =>
    rw [minusEnd]
    split
    · simp only [List.length_cons]; omega
    · exact Nat.le_refl _

theorem intEnd_length (s r : List Char) (h : intEnd s = some r) : r.length < s.length := by
  cases s with
  | nil => cases h
  | cons c cs =>
    rw [intEnd] at h
    split at h
    · simp only [Option.some.injEq] at h
      subst h
      simp
    · exact digitsEnd_length _ _ h

theorem fracEnd_length (s r : List Char) (h : fracEnd s = some r) : r.length ≤ s.length := by
  cases s with
  | nil =>
    rw [fracEnd] at h
    simp only [Option.some.injEq] at h
    subst h
    exact Nat.le_refl _
  | cons c cs =>
    rw [fracEnd] at h
    split at h
    · have := digitsEnd_length _ _ h
      simp only [List.length_cons]
      omega
    · simp only [Option.some.injEq] at h
      subst h
      exact Nat.le_refl _

theorem expEnd_length (s r : List Char) (h : expEnd s = some r) : r.length ≤ s.length := by
  cases s with
  | nil =>
    rw [expEnd.eq_def] at h
    simp only [Option.some.injEq] at h
    subst h
    exact Nat.le_refl _
  | cons c cs =>
    rw [expEnd.eq_def] at h
    simp only at h
    split at h
    · cases cs with
      | nil => cases h
      | cons g t =>
        simp only at h
        split at h
        · have := digitsEnd_length _ _ h
          simp only [List.length_cons]
          omega
        · have := digitsEnd_length _ _ h
          simp only [List.length_cons] at this ⊢
          omega
    · simp only [Option.some.injEq] at h
      subst h
      exact Nat.le_refl _

theorem numberEnd_length (s r : List Char) (h : numberEnd s = some r) :
    r.length < s.length := by
  rw [numberEnd] at h
  have h0 := minusEnd_length s
  cases h1 : intEnd (minusEnd s) with
  | none => rw [h1] at h; cases h
  | some s1 =>
    rw [h1] at h
    have l1 := intEnd_length _ _ h1
    simp only at h
    cases h2 : fracEnd s1 with
    | none => rw [h2] at h; cases h
    | some s2 =>
      rw [h2] at h
      have l2 := fracEnd_length _ _ h2
      have l3 := expEnd_length _ _ h
      omega

theorem nameEnd_length (s r : List Char) (h : nameEnd s = some r) : r.length < s.length := by
  unfold nameEnd at h
  split at h
  · rename_i hp
    simp only [Option.some.injEq] at h
    subst h
    have := List.IsPrefix.length_le (List.isPrefixOf_iff_prefix.1 hp)
    simp only [List.length_cons, List.length_nil, List.length_drop] at this ⊢
    omega
  · split at h
    · rename_i hp
      simp only [Option.some.injEq] at h
      subst h
      have := List.IsPrefix.length_le (List.isPrefixOf_iff_prefix.1 hp)
      simp only [List.length_cons, List.length_nil, List.length_drop] at this ⊢
      omega
    · split at h
      · rename_i hp
        simp only [Option.some.injEq] at h
        subst h
        have := List.IsPrefix.length_le (List.isPrefixOf_iff_prefix.1 hp)
        simp only [List.length_cons, List.length_nil, List.length_drop] at this ⊢
        omega
      · cases h

/-- A value, the elements of an array and the members of an object take at least
one character. -/
theorem valueEnd_length (limit fuel : Nat) : ∀ (depth : Nat) (s r : List Char),
    (valueEnd limit fuel depth s = some r → r.length < s.length) ∧
    (elementsEnd limit fuel depth s = some r → r.length < s.length) ∧
    (membersEnd limit fuel depth s = some r → r.length < s.length) := by
  induction fuel with
  | zero =>
    intro depth s r
    refine ⟨?_, ?_, ?_⟩
    · intro h; rw [valueEnd] at h; cases h
    · intro h; rw [elementsEnd] at h; cases h
    · intro h; rw [membersEnd] at h; cases h
  | succ fuel ih =>
    intro depth s r
    refine ⟨?_, ?_, ?_⟩
    · intro h
      rw [valueEnd] at h
      cases hs : dropWs s with
      | nil => rw [hs] at h; cases h
      | cons c rest =>
        rw [hs] at h
        have l0 := dropWs_cons_length s rest c hs
        simp only at h
        split at h
        · split at h
          · cases h
          · cases hr : dropWs rest with
            | nil => rw [hr] at h; cases h
            | cons c1 rest1 =>
              rw [hr] at h
              have l1 := dropWs_cons_length rest rest1 c1 hr
              simp only at h
              split at h
              · simp only [Option.some.injEq] at h
                subst h
                omega
              · have := (ih (depth + 1) (c1 :: rest1) r).2.1 h
                simp only [List.length_cons] at this
                omega
        · split at h
          · split at h
            · cases h
            · cases hr : dropWs rest with
              | nil => rw [hr] at h; cases h
              | cons c1 rest1 =>
                rw [hr] at h
                have l1 := dropWs_cons_length rest rest1 c1 hr
                simp only at h
                split at h
                · simp only [Option.some.injEq] at h
                  subst h
                  omega
                · have := (ih (depth + 1) (c1 :: rest1) r).2.2 h
                  simp only [List.length_cons] at this
                  omega
          · split at h
            · have := stringEnd_length rest.length rest r (Nat.le_refl _) h
              omega
            · split at h
              · have := nameEnd_length _ _ h
                simp only [List.length_cons] at this
                omega
              · have := numberEnd_length _ _ h
                simp only [List.length_cons] at this
                omega
    · intro h
      rw [elementsEnd] at h
      cases hv : valueEnd limit fuel depth s with
      | none => rw [hv] at h; cases h
      | some rest =>
        rw [hv] at h
        have l0 := (ih depth s rest).1 hv
        simp only at h
        cases hr : dropWs rest with
        | nil => rw [hr] at h; cases h
        | cons c rest1 =>
          rw [hr] at h
          have l1 := dropWs_cons_length rest rest1 c hr
          simp only at h
          split at h
          · have := (ih depth rest1 r).2.1 h
            omega
          · split at h
            · simp only [Option.some.injEq] at h
              subst h
              omega
            · cases h
    · intro h
      rw [membersEnd] at h
      cases hs : dropWs s with
      | nil => rw [hs] at h; cases h
      | cons q rest =>
        rw [hs] at h
        have l0 := dropWs_cons_length s rest q hs
        simp only at h
        split at h
        · cases hk : stringEnd rest with
          | none => rw [hk] at h; cases h
          | some rest1 =>
            rw [hk] at h
            have l1 := stringEnd_length rest.length rest rest1 (Nat.le_refl _) hk
            simp only at h
            cases hr : dropWs rest1 with
            | nil => rw [hr] at h; cases h
            | cons c rest2 =>
              rw [hr] at h
              have l2 := dropWs_cons_length rest1 rest2 c hr
              simp only at h
              split at h
              · cases hv : valueEnd limit fuel depth rest2 with
                | none => rw [hv] at h; cases h
                | some rest3 =>
                  rw [hv] at h
                  have l3 := (ih depth rest2 rest3).1 hv
                  simp only at h
                  cases hr3 : dropWs rest3 with
                  | nil => rw [hr3] at h; cases h
                  | cons d rest4 =>
                    rw [hr3] at h
                    have l4 := dropWs_cons_length rest3 rest4 d hr3
                    simp only at h
                    split at h
                    · have := (ih depth rest4 r).2.2 h
                      omega
                    · split at h
                      · simp only [Option.some.injEq] at h
                        subst h
                        omega
                      · cases h
              · cases h
        · cases h

/-- Fuel beyond twice the length of the text changes nothing. -/
theorem valueEnd_fuel_aux (limit f : Nat) : ∀ (g depth : Nat) (s : List Char),
    (2 * s.length + 1 ≤ f → 2 * s.length + 1 ≤ g →
      valueEnd limit f depth s = valueEnd limit g depth s) ∧
    (2 * s.length + 2 ≤ f → 2 * s.length + 2 ≤ g →
      elementsEnd limit f depth s = elementsEnd limit g depth s) ∧
    (2 * s.length + 2 ≤ f → 2 * s.length + 2 ≤ g →
      membersEnd limit f depth s = membersEnd limit g depth s) := by
  induction f with
  | zero =>
    intro g depth s
    exact ⟨fun h => by omega, fun h => by omega, fun h => by omega⟩
  | succ f ih =>
    intro g depth s
    refine ⟨?_, ?_, ?_⟩
    · intro hf hg
      obtain ⟨g, rfl⟩ : ∃ k, g = k + 1 := ⟨g - 1, by omega⟩
      rw [valueEnd, valueEnd]
      cases hs : dropWs s with
      | nil => rfl
      | cons c rest =>
        have l0 := dropWs_cons_length s rest c hs
        simp only
        by_cases ha : c = '['
        · rw [if_pos ha, if_pos ha]
          by_cases hd : limit ≤ depth
          · rw [if_pos hd, if_pos hd]
          · rw [if_neg hd, if_neg hd]
            cases hr : dropWs rest with
            | nil => rfl
            | cons c1 rest1 =>
              have l1 := dropWs_cons_length rest rest1 c1 hr
              simp only
              by_cases hc : c1 = ']'
              · rw [if_pos hc, if_pos hc]
              · rw [if_neg hc, if_neg hc]
                exact (ih g (depth + 1) (c1 :: rest1)).2.1
                  (by simp only [List.length_cons]; omega)
                  (by simp only [List.length_cons]; omega)
        · rw [if_neg ha, if_neg ha]
          by_cases ho : c = '\x7b'
          · rw [if_pos ho, if_pos ho]
            by_cases hd : limit ≤ depth
            · rw [if_pos hd, if_pos hd]
            · rw [if_neg hd, if_neg hd]
              cases hr : dropWs rest with
              | nil => rfl
              | cons c1 rest1 =>
                have l1 := dropWs_cons_length rest rest1 c1 hr
                simp only
                by_cases hc : c1 = '\x7d'
                · rw [if_pos hc, if_pos hc]
                · rw [if_neg hc, if_neg hc]
                  exact (ih g (depth + 1) (c1 :: rest1)).2.2
                    (by simp only [List.length_cons]; omega)
                    (by simp only [List.length_cons]; omega)
          · rw [if_neg ho, if_neg ho]
    · intro hf hg
      obtain ⟨g, rfl⟩ : ∃ k, g = k + 1 := ⟨g - 1, by omega⟩
      rw [elementsEnd, elementsEnd, ← (ih g depth s).1 (by omega) (by omega)]
      cases hv : valueEnd limit f depth s with
      | none => rfl
      | some rest =>
        have l0 := (valueEnd_length limit f depth s rest).1 hv
        simp only
        cases hr : dropWs rest with
        | nil => rfl
        | cons c rest1 =>
          have l1 := dropWs_cons_length rest rest1 c hr
          simp only
          by_cases hc : c = ','
          · rw [if_pos hc, if_pos hc]
            exact (ih g depth rest1).2.1 (by omega) (by omega)
          · rw [if_neg hc, if_neg hc]
    · intro hf hg
      obtain ⟨g, rfl⟩ : ∃ k, g = k + 1 := ⟨g - 1, by omega⟩
      rw [membersEnd, membersEnd]
      cases hs : dropWs s with
      | nil => rfl
      | cons q rest =>
        have l0 := dropWs_cons_length s rest q hs
        simp only
        by_cases hq : q = '"'
        · rw [if_pos hq, if_pos hq]
          cases hk : stringEnd rest with
          | none => rfl
          | some rest1 =>
            have l1 := stringEnd_length rest.length rest rest1 (Nat.le_refl _) hk
            simp only
            cases hr : dropWs rest1 with
            | nil => rfl
            | cons c rest2 =>
              have l2 := dropWs_cons_length rest1 rest2 c hr
              simp only
              by_cases hc : c = ':'
              · rw [if_pos hc, if_pos hc, ← (ih g depth rest2).1 (by omega) (by omega)]
                cases hv : valueEnd limit f depth rest2 with
                | none => rfl
                | some rest3 =>
                  have l3 := (valueEnd_length limit f depth rest2 rest3).1 hv
                  simp only
                  cases hr3 : dropWs rest3 with
                  | nil => rfl
                  | cons d rest4 =>
                    have l4 := dropWs_cons_length rest3 rest4 d hr3
                    simp only
                    by_cases hd : d = ','
                    · rw [if_pos hd, if_pos hd]
                      exact (ih g depth rest4).2.2 (by omega) (by omega)
                    · rw [if_neg hd, if_neg hd]
              · rw [if_neg hc, if_neg hc]
        · rw [if_neg hq, if_neg hq]

/-- The fuel of `validJsonWithin` and `beginsWithJson` never runs out: any fuel
from twice the length of the text and one on gives the same answer. -/
theorem valueEnd_fuel (limit fuel depth : Nat) (s : List Char)
    (h : 2 * s.length + 1 ≤ fuel) :
    valueEnd limit fuel depth s = valueEnd limit (2 * s.length + 1) depth s :=
  (valueEnd_fuel_aux limit fuel (2 * s.length + 1) depth s).1 h (Nat.le_refl _)

/-- A text recognised with some fuel is recognised with more. -/
theorem valueEnd_succ (limit f : Nat) : ∀ (depth : Nat) (s r : List Char),
    (valueEnd limit f depth s = some r → valueEnd limit (f + 1) depth s = some r) ∧
    (elementsEnd limit f depth s = some r → elementsEnd limit (f + 1) depth s = some r) ∧
    (membersEnd limit f depth s = some r → membersEnd limit (f + 1) depth s = some r) := by
  induction f with
  | zero =>
    intro depth s r
    refine ⟨?_, ?_, ?_⟩
    · intro h; rw [valueEnd] at h; cases h
    · intro h; rw [elementsEnd] at h; cases h
    · intro h; rw [membersEnd] at h; cases h
  | succ f ih =>
    intro depth s r
    refine ⟨?_, ?_, ?_⟩
    · intro h
      rw [valueEnd] at h
      rw [valueEnd]
      cases hs : dropWs s with
      | nil => rw [hs] at h; cases h
      | cons c rest =>
        rw [hs] at h
        simp only at h ⊢
        by_cases ha : c = '['
        · rw [if_pos ha] at h ⊢
          by_cases hd : limit ≤ depth
          · rw [if_pos hd] at h; cases h
          · rw [if_neg hd] at h ⊢
            cases hr : dropWs rest with
            | nil => rw [hr] at h; cases h
            | cons c1 rest1 =>
              rw [hr] at h
              simp only at h ⊢
              by_cases hc : c1 = ']'
              · rw [if_pos hc] at h ⊢; exact h
              · rw [if_neg hc] at h ⊢
                exact (ih (depth + 1) (c1 :: rest1) r).2.1 h
        · rw [if_neg ha] at h ⊢
          by_cases ho : c = '\x7b'
          · rw [if_pos ho] at h ⊢
            by_cases hd : limit ≤ depth
            · rw [if_pos hd] at h; cases h
            · rw [if_neg hd] at h ⊢
              cases hr : dropWs rest with
              | nil => rw [hr] at h; cases h
              | cons c1 rest1 =>
                rw [hr] at h
                simp only at h ⊢
                by_cases hc : c1 = '\x7d'
                · rw [if_pos hc] at h ⊢; exact h
                · rw [if_neg hc] at h ⊢
                  exact (ih (depth + 1) (c1 :: rest1) r).2.2 h
          · rw [if_neg ho] at h ⊢
            exact h
    · intro h
      rw [elementsEnd] at h
      rw [elementsEnd]
      cases hv : valueEnd limit f depth s with
      | none => rw [hv] at h; cases h
      | some rest =>
        rw [hv] at h
        rw [(ih depth s rest).1 hv]
        simp only at h ⊢
        cases hr : dropWs rest with
        | nil => rw [hr] at h; cases h
        | cons c rest1 =>
          rw [hr] at h
          simp only at h ⊢
          by_cases hc : c = ','
          · rw [if_pos hc] at h ⊢
            exact (ih depth rest1 r).2.1 h
          · rw [if_neg hc] at h ⊢
            exact h
    · intro h
      rw [membersEnd] at h
      rw [membersEnd]
      cases hs : dropWs s with
      | nil => rw [hs] at h; cases h
      | cons q rest =>
        rw [hs] at h
        simp only at h ⊢
        by_cases hq : q = '"'
        · rw [if_pos hq] at h ⊢
          cases hk : stringEnd rest with
          | none => rw [hk] at h; cases h
          | some rest1 =>
            rw [hk] at h
            simp only at h ⊢
            cases hr : dropWs rest1 with
            | nil => rw [hr] at h; cases h
            | cons c rest2 =>
              rw [hr] at h
              simp only at h ⊢
              by_cases hc : c = ':'
              · rw [if_pos hc] at h ⊢
                cases hv : valueEnd limit f depth rest2 with
                | none => rw [hv] at h; cases h
                | some rest3 =>
                  rw [hv] at h
                  rw [(ih depth rest2 rest3).1 hv]
                  simp only at h ⊢
                  cases hr3 : dropWs rest3 with
                  | nil => rw [hr3] at h; cases h
                  | cons d rest4 =>
                    rw [hr3] at h
                    simp only at h ⊢
                    by_cases hd : d = ','
                    · rw [if_pos hd] at h ⊢
                      exact (ih depth rest4 r).2.2 h
                    · rw [if_neg hd] at h ⊢
                      exact h
              · rw [if_neg hc] at h; cases h
        · rw [if_neg hq] at h; cases h

theorem valueEnd_add (limit f depth : Nat) (s r : List Char)
    (h : valueEnd limit f depth s = some r) (k : Nat) :
    valueEnd limit (f + k) depth s = some r := by
  induction k with
  | zero => exact h
  | succ k ih => exact (valueEnd_succ limit (f + k) depth s r).1 ih

/-- A text that some fuel recognises is recognised with the fuel of
`validJsonWithin`: that fuel never runs out. -/
theorem valueEnd_enough (limit fuel depth : Nat) (s r : List Char)
    (h : valueEnd limit fuel depth s = some r) :
    valueEnd limit (2 * s.length + 1) depth s = some r := by
  have h1 := valueEnd_add limit fuel depth s r h (2 * s.length + 1)
  rw [valueEnd_fuel limit _ depth s (by omega)] at h1
  exact h1

/-! ## Numbers with two decimal digits -/

theorem digitChar_toNat : ∀ d, d < 10 → (digitChar d).toNat = 48 + d := by decide

theorem digitsValue_append (ds rest : List Char) (x : Nat) :
    digitsValue (ds ++ rest) x = digitsValue rest (digitsValue ds x) := by
  induction ds generalizing x with
  | nil => rfl
  | cons c cs ih =>
    show digitsValue (c :: (cs ++ rest)) x = _
    rw [digitsValue, digitsValue, ih]

/-- The numeral `decimalAux` writes in front of `acc`: digits only, at least one,
and they read back as the number. -/
theorem decimalAux_digits (fuel : Nat) : ∀ (n : Nat) (acc : List Char), n < fuel →
    ∃ ds, decimalAux fuel n acc = ds ++ acc ∧ ds ≠ [] ∧
      (∀ c ∈ ds, decDigit c = true) ∧ digitsValue ds 0 = n := by
  induction fuel with
  | zero => intro n acc h; omega
  | succ fuel ih =>
    intro n acc h
    rw [decimalAux]
    by_cases h10 : n < 10
    · rw [if_pos h10]
      have ht := digitChar_toNat n h10
      refine ⟨[digitChar n], rfl, by simp, ?_, ?_⟩
      · intro c hc
        simp only [List.mem_singleton] at hc
        subst hc
        simp only [decDigit, decide_eq_true_eq]
        omega
      · simp only [digitsValue, ht]
        omega
    · rw [if_neg h10]
      obtain ⟨ds, hds, hne, hdig, hval⟩ := ih (n / 10) (digitChar (n % 10) :: acc) (by omega)
      have ht := digitChar_toNat (n % 10) (Nat.mod_lt _ (by decide))
      refine ⟨ds ++ [digitChar (n % 10)], ?_, by simp, ?_, ?_⟩
      · rw [hds]; simp
      · intro c hc
        simp only [List.mem_append, List.mem_singleton] at hc
        rcases hc with hc | hc
        · exact hdig c hc
        · subst hc
          simp only [decDigit, decide_eq_true_eq]
          omega
      · rw [digitsValue_append, hval]
        simp only [digitsValue, ht]
        omega

theorem decimal_digits (n : Nat) :
    decimal n ≠ [] ∧ (∀ c ∈ decimal n, decDigit c = true) ∧
      digitsValue (decimal n) 0 = n := by
  obtain ⟨ds, hds, hne, hdig, hval⟩ := decimalAux_digits (n + 1) n [] (Nat.lt_succ_self n)
  unfold decimal
  rw [hds, List.append_nil]
  exact ⟨hne, hdig, hval⟩

theorem takeWhile_digits (ds rest : List Char) (hd : ∀ c ∈ ds, decDigit c = true) :
    (ds ++ '.' :: rest).takeWhile decDigit = ds ∧
    (ds ++ '.' :: rest).dropWhile decDigit = '.' :: rest := by
  induction ds with
  | nil =>
    have : decDigit '.' = false := by decide
    constructor
    · show List.takeWhile decDigit ('.' :: rest) = []
      rw [List.takeWhile, this]
    · show List.dropWhile decDigit ('.' :: rest) = '.' :: rest
      rw [List.dropWhile, this]
  | cons c cs ih =>
    have hc := hd c (List.mem_cons_self _ _)
    obtain ⟨h1, h2⟩ := ih (fun x hx => hd x (List.mem_cons_of_mem _ hx))
    constructor
    · show List.takeWhile decDigit (c :: (cs ++ '.' :: rest)) = c :: cs
      rw [List.takeWhile, hc, h1]
    · show List.dropWhile decDigit (c :: (cs ++ '.' :: rest)) = '.' :: rest
      rw [List.dropWhile, hc, h2]

theorem readHundredths_decimal (n : Nat) :
    readHundredths (decimal (n / 100) ++ ['.', digitChar (n / 10 % 10), digitChar (n % 10)]) =
      some n := by
  obtain ⟨hne, hdig, hval⟩ := decimal_digits (n / 100)
  have hd1 := digitChar_toNat (n / 10 % 10) (Nat.mod_lt _ (by decide))
  have hd2 := digitChar_toNat (n % 10) (Nat.mod_lt _ (by decide))
  obtain ⟨h1, h2⟩ := takeWhile_digits (decimal (n / 100))
    [digitChar (n / 10 % 10), digitChar (n % 10)] hdig
  have e1 : decDigit (digitChar (n / 10 % 10)) = true := by
    simp only [decDigit, decide_eq_true_eq]; omega
  have e2 : decDigit (digitChar (n % 10)) = true := by
    simp only [decDigit, decide_eq_true_eq]; omega
  unfold readHundredths
  rw [h2]
  simp only [h1]
  rw [if_pos (by simp [hne, e1, e2]), digitsValue_append, hval]
  simp only [digitsValue, hd1, hd2]
  congr 1
  omega

/-- The text of `%.2f` for a finite value reads back as a number with two
decimal digits: the sign of the value, and the hundredths nearest to it. -/
theorem readTwoDecimals_formatFloat2 (x : F64) :
    readTwoDecimals (formatFloat2 x) = some (x.neg, roundHalfEven (x.num * 100) x.den) := by
  generalize hn : roundHalfEven (x.num * 100) x.den = n
  have hr := readHundredths_decimal n
  obtain ⟨hne, hdig, _⟩ := decimal_digits (n / 100)
  unfold readTwoDecimals formatFloat2
  simp only [hn]
  cases hneg : x.neg with
  | true =>
    simp only [if_true, List.cons_append, List.nil_append, List.append_assoc]
    rw [hr]
    rfl
  | false =>
    simp only [Bool.false_eq_true, if_false, List.nil_append]
    cases hdd : decimal (n / 100) with
    | nil => exact absurd hdd hne
    | cons c cs =>
      have hc := hdig c (by rw [hdd]; exact List.mem_cons_self _ _)
      have hm : c ≠ '-' := by
        intro h
        subst h
        revert hc
        decide
      rw [hdd] at hr
      simp only [List.cons_append] at hr ⊢
      rw [if_neg hm, hr]
      rfl

/-! ## The rate response of a decoded body -/

/-- A body that decodes begins with a JSON value, and the other way round. -/
theorem newJson_isSome (body : String) :
    (NewJson body).isSome = beginsWithJson 10000 body := by
  unfold NewJson decoderDecode beginsWithJson
  rw [← show maxNestingDepth = 10000 from rfl, ← (parse_end _ 0 body.data).1]
  cases parseValue (2 * body.data.length + 1) 0 body.data with
  | none => rfl
  | some p => rfl

/-- Valid JSON nested at most 10000 deep decodes. -/
theorem newJson_valid (body : String) (h : validJsonWithin 10000 body = true) :
    ∃ j, NewJson body = some j := by
  have hb : beginsWithJson 10000 body = true := by
    unfold validJsonWithin at h
    unfold beginsWithJson
    cases hv : valueEnd 10000 (2 * body.data.length + 1) 0 body.data with
    | none => rw [hv] at h; cases h
    | some r => rfl
  rw [← newJson_isSome] at hb
  cases hj : NewJson body with
  | none => rw [hj] at hb; cases hb
  | some j => exact ⟨j, rfl⟩

/-- What `GetIndex(0).CheckGet("datapoints")` finds is the `datapoints` field of
the first series. -/
theorem checkGet_datapoints (j : Json) :
    (j.GetIndex 0).CheckGet "datapoints" = firstSeriesDatapoints j := by
  cases j with
  | arr xs =>
    cases xs with
    | nil => simp [Json.GetIndex, Json.CheckGet, firstSeriesDatapoints]
    | cons x rest =>
      cases x <;> simp [Json.GetIndex, Json.CheckGet, firstSeriesDatapoints]
  | _ => simp [Json.GetIndex, Json.CheckGet, firstSeriesDatapoints]

/-- The object `json.Marshal` writes for the one-field response map. -/
theorem jsonMarshal_rate (x : Float64) :
    jsonMarshal [("datapoint", sprintfFloat2 x)] =
      .ok ("\x7b\"datapoint\":\"" ++ sprintfFloat2 x ++ "\"\x7d") := by
  cases x with
  | finite a => exact jsonMarshal_datapoint a
  | inf n => cases n <;> decide!

/-- The response for a body that decodes and has a `datapoints` field. -/
theorem parseRateResponse_some (body : String) (j dp : Json) (hj : NewJson body = some j)
    (hdp : firstSeriesDatapoints j = some dp) :
    parseRateResponse body =
      ("\x7b\"datapoint\":\"" ++
        sprintfFloat2 (Float64.div ((dp.GetIndex 0).GetIndex 0).Float64.1 (F64.ofInt 60)) ++
        "\"\x7d", none) := by
  unfold parseRateResponse
  simp only [hj, checkGet_datapoints, hdp, jsonMarshal_rate]

theorem parseRateResponse_none (body : String) (j : Json) (hj : NewJson body = some j)
    (hdp : firstSeriesDatapoints j = none) :
    parseRateResponse body = ("", some (.new "datapoints not found")) := by
  unfold parseRateResponse
  simp only [hj, checkGet_datapoints, hdp]

theorem firstDatapoint_num (j : Json) (lit : String) (h : firstDatapointNumber j = some lit) :
    ∃ dp, firstSeriesDatapoints j = some dp ∧ (dp.GetIndex 0).GetIndex 0 = .num lit := by
  unfold firstDatapointNumber at h
  cases hdp : firstSeriesDatapoints j with
  | none => rw [hdp] at h; cases h
  | some dp =>
    rw [hdp] at h
    refine ⟨dp, rfl, ?_⟩
    cases dp with
    | arr ps =>
      cases ps with
      | nil => cases h
      | cons p ps =>
        cases p with
        | arr es =>
          cases es with
          | nil => cases h
          | cons e es =>
            cases e with
            | num w =>
              simp only [Option.some.injEq] at h
              subst h
              simp [Json.GetIndex]
            | _ => cases h
        | _ => cases h
    | _ => cases h

/-! ## Nesting beyond the limit of the decoder -/

theorem skipSpace_bracket (s : List Char) : skipSpace ('[' :: s) = '[' :: s := by
  rw [skipSpace, if_neg (by decide)]

theorem dropWs_open (s : List Char) : dropWs ('[' :: s) = '[' :: s := by
  rw [dropWs, if_neg (by decide)]

theorem dropWs_close (s : List Char) : dropWs (']' :: s) = ']' :: s := by
  rw [dropWs, if_neg (by decide)]

/-- Arrays nested deeper than the limit are refused by the decoder, whatever
follows the opening brackets. -/
theorem parseValue_deep (n : Nat) : ∀ (fuel depth : Nat) (tail : List Char),
    0 < n → maxNestingDepth < depth + n →
    parseValue fuel depth (List.replicate n '[' ++ tail) = none := by
  induction n with
  | zero => intro _ _ _ h; omega
  | succ n ih =>
    intro fuel depth tail _ hd
    cases fuel with
    | zero => rw [parseValue]
    | succ fuel =>
      rw [List.replicate_succ, List.cons_append, parseValue, skipSpace_bracket]
      simp only [show ¬ ('[' = '"') by decide, if_false, if_true]
      by_cases hlim : maxNestingDepth < depth + 1
      · rw [if_pos hlim]
      · rw [if_neg hlim]
        have hn : 0 < n := by omega
        obtain ⟨m, rfl⟩ : ∃ m, n = m + 1 := ⟨n - 1, by omega⟩
        rw [List.replicate_succ, List.cons_append, skipSpace_bracket]
        simp only [show ¬ ('[' = ']') by decide, if_false]
        cases fuel with
        | zero => rw [parseElements]
        | succ fuel =>
          rw [parseElements]
          have := ih fuel (depth + 1) tail hn (by omega)
          rw [List.replicate_succ, List.cons_append] at this
          rw [this]

/-- Arrays nested within the limit are valid JSON. -/
theorem valueEnd_nested (limit n : Nat) : ∀ (fuel depth : Nat) (tail : List Char),
    0 < n → depth + n ≤ limit → 2 * n ≤ fuel + 1 →
    valueEnd limit fuel depth (List.replicate n '[' ++ (List.replicate n ']' ++ tail)) =
      some tail := by
  induction n with
  | zero => intro _ _ _ h; omega
  | succ n ih =>
    intro fuel depth tail _ hd hf
    obtain ⟨f, rfl⟩ : ∃ f, fuel = f + 1 := ⟨fuel - 1, by omega⟩
    rw [List.replicate_succ, List.cons_append, valueEnd, dropWs_open]
    simp only [if_true]
    rw [if_neg (by omega)]
    cases n with
    | zero =>
      simp only [List.replicate_zero, List.nil_append, List.replicate_succ, List.cons_append]
      rw [dropWs_close]
      simp only [if_true]
    | succ m =>
      obtain ⟨g, rfl⟩ : ∃ g, f = g + 1 := ⟨f - 1, by omega⟩
      have h1 := ih g (depth + 1) (']' :: tail) (by omega) (by omega) (by omega)
      have e1 : List.replicate (m + 1) ']' ++ ']' :: tail =
          List.replicate (m + 1 + 1) ']' ++ tail := by
        rw [List.replicate_succ' (m + 1), List.append_assoc]
        rfl
      rw [e1] at h1
      rw [List.replicate_succ (n := m), List.cons_append, dropWs_open]
      simp only [show ¬ ('[' = ']') by decide, if_false]
      rw [elementsEnd]
      rw [List.replicate_succ (n := m), List.cons_append] at h1
      rw [h1]
      simp only [dropWs_close, show ¬ (']' = ',') by decide, if_false, if_true]

theorem walk_none (L f : Nat) (tail : List Char)
    (h : valueEnd L f 4 tail = none) :
    valueEnd L (f + 9) 0 ("[\x7b\"datapoints\":[[120,".data ++ tail) = none := by
  show valueEnd L (f + 9) 0 ('[' :: '\x7b' :: '"' :: 'd' :: 'a' :: 't' :: 'a' :: 'p' :: 'o' :: 'i' :: 'n'
    :: 't' :: 's' :: '"' :: ':' :: '[' :: '[' :: '1' :: '2' :: '0' :: ',' :: tail) = none
  simp [valueEnd, elementsEnd, membersEnd, dropWs, stringEnd, numberEnd, minusEnd, intEnd,
    fracEnd, expEnd, digitsEnd, dropDigits, h]

theorem walk_some (L f : Nat) (tail : List Char) (hL : 4 ≤ L)
    (h : valueEnd L f 4 tail = some "]]\x7d]".data) :
    valueEnd L (f + 9) 0 ("[\x7b\"datapoints\":[[120,".data ++ tail) = some [] := by
  show valueEnd L (f + 9) 0 ('[' :: '\x7b' :: '"' :: 'd' :: 'a' :: 't' :: 'a' :: 'p' :: 'o' :: 'i' :: 'n'
    :: 't' :: 's' :: '"' :: ':' :: '[' :: '[' :: '1' :: '2' :: '0' :: ',' :: tail) = some []
  have h' : valueEnd L f 4 tail = some [']', ']', '\x7d', ']'] := h
  have h0 : ¬ L ≤ 0 := by omega
  have h1 : ¬ L ≤ 1 := by omega
  have h2 : ¬ L ≤ 2 := by omega
  have h3 : ¬ L ≤ 3 := by omega
  simp [valueEnd, elementsEnd, membersEnd, dropWs, stringEnd, numberEnd, minusEnd, intEnd,
    fracEnd, expEnd, digitsEnd, dropDigits, h', h0, h1, h2, h3]

theorem valueEnd_deep (fuel depth n : Nat) (tail : List Char) (hn : 0 < n)
    (hd : 10000 < depth + n) :
    valueEnd 10000 fuel depth (List.replicate n '[' ++ tail) = none := by
  have := (parse_end fuel depth (List.replicate n '[' ++ tail)).1
  rw [parseValue_deep n fuel depth tail hn hd] at this
  exact this.symm

theorem deepNested_data :
    deepNested.data = List.replicate 10001 '[' ++ List.replicate 10001 ']' := rfl

theorem deepNested_length : deepNested.data.length = 20002 := by
  rw [deepNested_data, List.length_append, List.length_replicate, List.length_replicate]

theorem validJson_of (body : String)
    (h : valueEnd body.data.length (2 * body.data.length + 1) 0 body.data = some []) :
    validJson body = true := by
  unfold validJson validJsonWithin
  rw [h]
  rfl

theorem deepNested_valid : validJson deepNested = true := by
  have h := valueEnd_nested 20002 10001 (2 * 20002 + 1) 0 [] (by omega) (by omega) (by omega)
  rw [List.append_nil, ← deepNested_data, ← deepNested_length] at h
  exact validJson_of _ h

theorem parseRateResponse_decode (body : String) (h : beginsWithJson 10000 body = false) :
    parseRateResponse body = ("", some .decode) := by
  rw [← newJson_isSome] at h
  unfold parseRateResponse
  cases hj : NewJson body with
  | none => rfl
  | some j => rw [hj] at h; cases h

theorem deepNested_refused : parseRateResponse deepNested = ("", some .decode) := by
  apply parseRateResponse_decode
  unfold beginsWithJson
  rw [deepNested_data, valueEnd_deep _ 0 10001 _ (by decide) (by decide)]
  rfl

theorem deepResponse_data : deepResponse.data =
    "[\x7b\"datapoints\":[[120,".data ++
      (List.replicate 10001 '[' ++ (List.replicate 10001 ']' ++ "]]\x7d]".data)) := by
  have e : deepResponse.data =
      "[\x7b\"datapoints\":[[120,".data ++ (deepNested.data ++ "]]\x7d]".data) := rfl
  rw [e, deepNested_data, List.append_assoc]

theorem deepResponse_length : deepResponse.data.length = 20027 := by
  have e : "[\x7b\"datapoints\":[[120,".data.length = 21 := rfl
  have e2 : "]]\x7d]".data.length = 4 := rfl
  rw [deepResponse_data, List.length_append, List.length_append, List.length_append,
    List.length_replicate, List.length_replicate, e, e2]

theorem deepResponse_valid : validJson deepResponse = true := by
  have h := valueEnd_nested 20027 10001 40046 4 "]]\x7d]".data
    (by omega) (by omega) (by omega)
  have h2 := walk_some _ _ _ (by omega) h
  rw [← deepResponse_data, show 40046 + 9 = 2 * 20027 + 1 from rfl,
    ← deepResponse_length] at h2
  exact validJson_of _ h2

theorem deepResponse_refused : parseRateResponse deepResponse = ("", some .decode) := by
  apply parseRateResponse_decode
  unfold beginsWithJson
  rw [deepResponse_length, deepResponse_data, show 2 * 20027 + 1 = 40046 + 9 from rfl,
    walk_none _ _ _ (valueEnd_deep _ 4 10001 _ (by omega) (by omega))]
  rfl

/-! ## The claims about the rate response -/

/-- C7 as stated fails: the body `[{"datapoints":[[1e400,1000]]}]` has the shape of
the claim, its number is beyond the float64 range, and the response is
`{"datapoint":"+Inf"}`, where `+Inf` is not a number with two decimal digits;
and the body `[{"datapoints":[[120,[[...]]]]}]`, with arrays nested 10001 deep
after the number, is valid JSON of the shape of the claim and the decoder
refuses it. -/
theorem C7_counterexample :
    validJson "[\x7b\"datapoints\":[[1e400,1000]]\x7d]" = true ∧
    (NewJson "[\x7b\"datapoints\":[[1e400,1000]]\x7d]").bind firstDatapointNumber =
      some "1e400" ∧
    parseRateResponse "[\x7b\"datapoints\":[[1e400,1000]]\x7d]" =
      ("\x7b\"datapoint\":\"+Inf\"\x7d", none) ∧
    readTwoDecimals "+Inf" = none ∧
    validJson deepResponse = true ∧
    parseRateResponse deepResponse = ("", some .decode) :=
  ⟨by decide!, by decide!, by decide!, by decide!, deepResponse_valid, deepResponse_refused⟩

/-- C7, amended: for every response body that is valid JSON nested at most 10000
deep, being an array whose first element is an object with a `datapoints` array
whose first datapoint's first element is a number within the float64 range, of
float64 value `x`, `parseRateResponse` returns no error and exactly the JSON
object `{"datapoint":"<t>"}`, where `t` is `x/60` under `%.2f`: a number with
exactly two decimal digits, with the sign of the quotient and the hundredths
nearest to it. -/
theorem C7_rate_of_first_datapoint (body : String)
    (hv : validJsonWithin 10000 body = true) :
    ∃ j, NewJson body = some j ∧
      ∀ lit x, firstDatapointNumber j = some lit → ParseFloat lit = (.finite x, false) →
        ∃ t n,
          parseRateResponse body = ("\x7b\"datapoint\":\"" ++ t ++ "\"\x7d", none) ∧
          t = formatFloat2 (F64.div x (F64.ofInt 60)) ∧
          readTwoDecimals t = some ((F64.div x (F64.ofInt 60)).neg, n) ∧
          2 * (n * (F64.div x (F64.ofInt 60)).den) ≤
            2 * ((F64.div x (F64.ofInt 60)).num * 100) + (F64.div x (F64.ofInt 60)).den ∧
          2 * ((F64.div x (F64.ofInt 60)).num * 100) ≤
            2 * (n * (F64.div x (F64.ofInt 60)).den) + (F64.div x (F64.ofInt 60)).den := by
  obtain ⟨j, hj⟩ := newJson_valid body hv
  refine ⟨j, hj, ?_⟩
  intro lit x hlit hx
  obtain ⟨dp, hdp, hnum⟩ := firstDatapoint_num j lit hlit
  obtain ⟨hm, he⟩ := ParseFloat_finite lit x hx
  have hq := F64.div_sixty x hm he
  have hb := roundHalfEven_bounds ((F64.div x (F64.ofInt 60)).num * 100)
    (F64.div x (F64.ofInt 60)).den (F64.den_pos _)
  refine ⟨_, _, ?_, rfl, readTwoDecimals_formatFloat2 _, hb.1, hb.2.1⟩
  rw [parseRateResponse_some body j dp hj hdp, hnum]
  simp only [Json.Float64, hx, Float64.div, hq, Bool.false_eq_true, if_false, sprintfFloat2]

/-- C7, at the body `[{"target":"x","datapoints":[[120,1000]]}]`: it is valid
JSON, the number is `120`, and the response is `{"datapoint":"2.00"}`. -/
theorem C7_rate_of_first_datapoint_witness :
    validJsonWithin 10000 "[\x7b\"target\":\"x\",\"datapoints\":[[120,1000]]\x7d]" = true ∧
    ∃ j, NewJson "[\x7b\"target\":\"x\",\"datapoints\":[[120,1000]]\x7d]" = some j ∧
      firstDatapointNumber j = some "120" ∧
      ParseFloat "120" = (.finite (F64.ofInt 120), false) ∧
      parseRateResponse "[\x7b\"target\":\"x\",\"datapoints\":[[120,1000]]\x7d]" =
        ("\x7b\"datapoint\":\"2.00\"\x7d", none) := by
  have hv : validJsonWithin 10000
      "[\x7b\"target\":\"x\",\"datapoints\":[[120,1000]]\x7d]" = true := by decide!
  have hb : (NewJson "[\x7b\"target\":\"x\",\"datapoints\":[[120,1000]]\x7d]").bind
      firstDatapointNumber = some "120" := by decide!
  have hp : ParseFloat "120" = (.finite (F64.ofInt 120), false) := by decide!
  have ht : formatFloat2 (F64.div (F64.ofInt 120) (F64.ofInt 60)) = "2.00" := by decide!
  obtain ⟨j, hj, hall⟩ := C7_rate_of_first_datapoint _ hv
  rw [hj] at hb
  obtain ⟨t, n, hr, htt, _⟩ := hall "120" (F64.ofInt 120) hb hp
  rw [ht] at htt
  subst htt
  exact ⟨hv, j, hj, hb, hp, hr⟩

/-- C8 as stated fails: the body `[] x` is not valid JSON, and the response for it
is the error `datapoints not found`, not a parse error; and arrays nested 10001
deep are valid JSON without a `datapoints` field, and the response for them is
the parse error, not the error `datapoints not found`. -/
theorem C8_counterexample :
    validJson "[] x" = false ∧
    parseRateResponse "[] x" = ("", some (.new "datapoints not found")) ∧
    validJson deepNested = true ∧
    parseRateResponse deepNested = ("", some .decode) ∧
    RateError.decode ≠ .new "datapoints not found" :=
  ⟨by decide!, by decide!, deepNested_valid, deepNested_refused, fun h => by cases h⟩

/-- C8, amended: for every body that is valid JSON nested at most 10000 deep but
whose first series has no `datapoints` field, `parseRateResponse` returns the
empty string and the error `datapoints not found`; it returns the empty string
and the parse error exactly for the bodies that do not begin with a JSON value
nested at most 10000 deep, and that error is not the error
`datapoints not found`. -/
theorem C8_rate_errors (body : String) :
    (validJsonWithin 10000 body = true →
      ∃ j, NewJson body = some j ∧
        (firstSeriesDatapoints j = none →
          parseRateResponse body = ("", some (.new "datapoints not found")))) ∧
    (beginsWithJson 10000 body = false ↔ parseRateResponse body = ("", some .decode)) ∧
    RateError.decode ≠ .new "datapoints not found" := by
  refine ⟨?_, ?_, fun h => by cases h⟩
  · intro hv
    obtain ⟨j, hj⟩ := newJson_valid body hv
    exact ⟨j, hj, parseRateResponse_none body j hj⟩
  · rw [← newJson_isSome]
    cases hj : NewJson body with
    | none =>
      simp only [Option.isSome_none, true_iff]
      unfold parseRateResponse
      rw [hj]
    | some j =>
      simp only [Option.isSome_some, Bool.true_eq_false, false_iff]
      cases hdp : firstSeriesDatapoints j with
      | none =>
        rw [parseRateResponse_none body j hj hdp]
        intro hc
        cases hc
      | some dp =>
        rw [parseRateResponse_some body j dp hj hdp]
        intro hc
        have hs := congrArg Prod.snd hc
        cases hs

/-- C8, at the bodies `[{"target":"x"}]`, `[]` and `3`, which are valid JSON without
a `datapoints` field, and at the body `{`, which does not begin with a JSON
value. -/
theorem C8_rate_errors_witness :
    validJsonWithin 10000 "[\x7b\"target\":\"x\"\x7d]" = true ∧
    validJsonWithin 10000 "[]" = true ∧ validJsonWithin 10000 "3" = true ∧
    beginsWithJson 10000 "\x7b" = false ∧
    parseRateResponse "[\x7b\"target\":\"x\"\x7d]" = ("", some (.new "datapoints not found")) ∧
    parseRateResponse "[]" = ("", some (.new "datapoints not found")) ∧
    parseRateResponse "3" = ("", some (.new "datapoints not found")) ∧
    parseRateResponse "\x7b" = ("", some .decode) := by
  have h1 : validJsonWithin 10000 "[\x7b\"target\":\"x\"\x7d]" = true := by decide!
  have h2 : validJsonWithin 10000 "[]" = true := by decide!
  have h3 : validJsonWithin 10000 "3" = true := by decide!
  have h4 : beginsWithJson 10000 "\x7b" = false := by decide!
  have n1 : (NewJson "[\x7b\"target\":\"x\"\x7d]").bind firstSeriesDatapoints = none :=
    Option.isNone_iff_eq_none.1 (by decide!)
  have n2 : (NewJson "[]").bind firstSeriesDatapoints = none :=
    Option.isNone_iff_eq_none.1 (by decide!)
  have n3 : (NewJson "3").bind firstSeriesDatapoints = none :=
    Option.isNone_iff_eq_none.1 (by decide!)
  refine ⟨h1, h2, h3, h4, ?_, ?_, ?_, (C8_rate_errors "\x7b").2.1.1 h4⟩
  · obtain ⟨j, hj, hr⟩ := (C8_rate_errors "[\x7b\"target\":\"x\"\x7d]").1 h1
    rw [hj] at n1
    exact hr n1
  · obtain ⟨j, hj, hr⟩ := (C8_rate_errors "[]").1 h2
    rw [hj] at n2
    exact hr n2
  · obtain ⟨j, hj, hr⟩ := (C8_rate_errors "3").1 h3
    rw [hj] at n3
    exact hr n3

/-- The error of `Json.Float64` is discarded: once the first series has a
`datapoints` field, `parseRateResponse` returns no error. -/
theorem parseRateResponse_no_error (body : String) (j dp : Json) (hj : NewJson body = some j)
    (hdp : firstSeriesDatapoints j = some dp) : (parseRateResponse body).2 = none := by
  rw [parseRateResponse_some body j dp hj hdp]

/-- C20, on the code: for the bodies `[{"datapoints":[[null,1000]]}]` and
`[{"datapoints":[]}]`, whose first datapoint has no number, `parseRateResponse`
returns a rate, the `0` of the failed `Float64` divided by 60, and no error. -/
theorem C20_error_discarded :
    parseRateResponse "[\x7b\"datapoints\":[[null,1000]]\x7d]" =
      ("\x7b\"datapoint\":\"0.00\"\x7d", none) ∧
    parseRateResponse "[\x7b\"datapoints\":[]\x7d]" =
      ("\x7b\"datapoint\":\"0.00\"\x7d", none) := by
  decide!

end Nsqadmin
